import Mathlib

/-! # ragBOT-service: chunking and context assembly

A shallow embedding of the text splitter (`splitTextIntoChunks` in `server.js`)
and of the source aggregation of the chat handler (`app.post('/api/chat')`),
together with the properties of the specification that concern them.

JavaScript strings are modelled as lists of characters (`Str`), one list
element per UTF-16 code unit; numbers that count characters are natural
numbers.
-/

namespace RagBot

/-! ## Strings -/

/-- A JavaScript string, as the list of its code units. -/
abbrev Str := List Char

/-- The characters removed by `String.prototype.trim`: the ECMAScript
`WhiteSpace` and `LineTerminator` code points. -/
def isJsWhitespace (c : Char) : Bool :=
  let n := c.toNat
  n == 0x09 || n == 0x0A || n == 0x0B || n == 0x0C || n == 0x0D || n == 0x20 ||
  n == 0xA0 || n == 0x1680 || (0x2000 ≤ n && n ≤ 0x200A) || n == 0x2028 ||
  n == 0x2029 || n == 0x202F || n == 0x205F || n == 0x3000 || n == 0xFEFF

/-- `s.trimStart()`. -/
def jsTrimStart (s : Str) : Str := s.dropWhile isJsWhitespace

/-- `s.trimEnd()`. -/
def jsTrimEnd (s : Str) : Str := (s.reverse.dropWhile isJsWhitespace).reverse

/-- `s.trim()`. -/
def jsTrim (s : Str) : Str := jsTrimEnd (jsTrimStart s)

/-- `s.slice(-n)` for `n > 0`: the last `n` code units of `s` (all of `s`
when it is shorter). -/
def sliceLast (n : Nat) (s : Str) : Str := s.drop (s.length - n)

/-- Scanning loop of `text.split(sep)` for a non-empty `sep`: `skip` counts
the code units of a matched separator that are still to be passed over, `cur`
holds the current piece in reverse. -/
def jsSplitAux (sep : Str) : Str → Nat → Str → List Str
  | [], _, cur => [cur.reverse]
  | _ :: cs, skip + 1, cur => jsSplitAux sep cs skip cur
  | c :: cs, 0, cur =>
    if sep.isPrefixOf (c :: cs) then cur.reverse :: jsSplitAux sep cs (sep.length - 1) []
    else jsSplitAux sep cs 0 (c :: cur)

/-- `text.split(sep)`: the pieces between the successive, non-overlapping
occurrences of `sep` found from left to right; with the empty separator, the
single code units. -/
def jsSplit (text sep : Str) : List Str :=
  if sep = [] then text.map (fun c => [c]) else jsSplitAux sep text 0 []

/-! ## The recursive splitter -/

/-- The `separators` array of `splitTextIntoChunks`, coarsest first. -/
def separators : List Str :=
  [['\n', '\n'], ['\n'], ['.', ' '], ['!', ' '], ['?', ' '], [';', ' '], [',', ' '], [' '], []]

/-- The greedy packing loop `for (let i = 0; i < splits.length; i++)` of
`splitText`, run over the pieces still to be visited with the loop state
`(result, currentChunk)`. `recur` is the recursive call
`splitText(split, separators.slice(1))`; `trimF` stands where the source
calls `.trim()`. The piece is the last one exactly when nothing follows it. -/
def packSplits (trimF : Str → Str) (chunkSize : Nat) (separator : Str)
    (recur : Str → Option (List Str)) :
    List Str → List Str → Str → Option (List Str × Str)
  | [], result, currentChunk => some (result, currentChunk)
  | split :: rest, result, currentChunk =>
    let separatorToAdd := if rest = [] then [] else separator
    let potentialChunk := currentChunk ++ split ++ separatorToAdd
    if potentialChunk.length ≤ chunkSize then
      packSplits trimF chunkSize separator recur rest result potentialChunk
    else
      let result1 := if currentChunk ≠ [] then result ++ [trimF currentChunk] else result
      if split.length > chunkSize then
        match recur split with
        | none => none
        | some sub => packSplits trimF chunkSize separator recur rest (result1 ++ sub) currentChunk
      else
        packSplits trimF chunkSize separator recur rest result1 (split ++ separatorToAdd)

/-- One round of the overlap loop: the chunk written at index `i` of
`overlappedChunks`. -/
def overlapAt (trimF : Str → Str) (overlap : Nat) (result : List Str) (i : Nat) : Str :=
  let chunk := result.getD i []
  let chunk := if 0 < i ∧ 0 < overlap then sliceLast overlap (result.getD (i - 1) []) ++ chunk
    else chunk
  let chunk := if i < result.length - 1 ∧ 0 < overlap then chunk ++ (result.getD (i + 1) []).take overlap
    else chunk
  trimF chunk

/-- The overlap loop `for (let i = 0; i < result.length; i++)`. -/
def applyOverlap (trimF : Str → Str) (overlap : Nat) (result : List Str) : List Str :=
  (List.range result.length).map (overlapAt trimF overlap result)

/-- What `splitText` returns after the packing loop: the last buffer is
pushed when non-empty, and overlap is applied when there are several chunks. -/
def finishPass (trimF : Str → Str) (overlap : Nat) (result : List Str) (currentChunk : Str) :
    List Str :=
  let result := if currentChunk ≠ [] then result ++ [trimF currentChunk] else result
  if result.length > 1 then applyOverlap trimF overlap result else result

/-- The hard cut `[text.slice(0, chunkSize), ...splitText(text.slice(chunkSize), separators)]`. -/
def hardCut (chunkSize : Nat) (recurSame : Str → Option (List Str)) (text : Str) :
    Option (List Str) :=
  (recurSame (text.drop chunkSize)).map (fun r => text.take chunkSize :: r)

/-- The loop `for (const separator of separators)` of `splitText` over the
separators still to be tried, followed by the fallback after the loop.
`recurSame` is `splitText(·, separators)` and `recurFiner` is
`splitText(·, separators.slice(1))`. -/
def trySeparators (trimF : Str → Str) (chunkSize overlap : Nat)
    (recurSame recurFiner : Str → Option (List Str)) (text : Str) :
    List Str → Option (List Str)
  | [] => hardCut chunkSize recurSame text
  | separator :: rest =>
    if separator = [] then hardCut chunkSize recurSame text
    else
      let splits := jsSplit text separator
      if splits.length > 1 then
        match packSplits trimF chunkSize separator recurFiner splits [] [] with
        | none => none
        | some (result, currentChunk) => some (finishPass trimF overlap result currentChunk)
      else trySeparators trimF chunkSize overlap recurSame recurFiner text rest

/-- The inner function `splitText(text, separators)`, with the depth of the
JavaScript call stack made explicit: `none` when `fuel` nested calls do not
suffice. `trimF` stands where the source calls `.trim()`; the source is the
instance `jsTrim`. -/
def splitTextWith (trimF : Str → Str) (chunkSize overlap : Nat) :
    Nat → Str → List Str → Option (List Str)
  | 0, _, _ => none
  | fuel + 1, text, seps =>
    if text.length ≤ chunkSize then some [text]
    else
      trySeparators trimF chunkSize overlap
        (fun t => splitTextWith trimF chunkSize overlap fuel t seps)
        (fun t => splitTextWith trimF chunkSize overlap fuel t (seps.drop 1)) text seps

/-- The function `splitText` of the source. -/
def splitText (chunkSize overlap : Nat) (fuel : Nat) (text : Str) (seps : List Str) :
    Option (List Str) :=
  splitTextWith jsTrim chunkSize overlap fuel text seps

/-- The final filter and map of `splitTextIntoChunks`. -/
def postProcess (initialChunks : List Str) : List Str :=
  (initialChunks.filter (fun chunk => decide ((jsTrim chunk).length > 50))).map jsTrim

/-- The function `splitTextIntoChunks(text, chunkSize, overlap)`: `none` when the
recursion of `splitText` does not return. Every nested call is on a shorter
text, so `text.length + 1` levels are enough whenever the recursion returns at
all. -/
def splitTextIntoChunks (text : Str) (chunkSize overlap : Nat) : Option (List Str) :=
  (splitText chunkSize overlap (text.length + 1) text separators).map postProcess

/-! ## Predicates used in the statements -/

/-- A string is trimmed when it is empty or neither starts nor ends with whitespace. -/
def IsTrimmed (s : Str) : Prop :=
  (∀ c, s.head? = some c → isJsWhitespace c = false) ∧
  (∀ c, s.getLast? = some c → isJsWhitespace c = false)

/-- Total number of code units in a list of strings. -/
def totalLength (l : List Str) : Nat := (l.map List.length).sum

/-- Number of non-empty separators of a list: the packing passes that can nest. -/
def passDepth (seps : List Str) : Nat := (seps.filter (fun s => decide (s ≠ []))).length

/-! ## Example texts -/

/-- Three sentences of 51 letters in one paragraph, followed by a second paragraph. -/
def nestedExample : Str :=
  List.replicate 51 'a' ++ ['.', ' '] ++ List.replicate 51 'b' ++ ['.', ' '] ++
    List.replicate 51 'c' ++ ['\n', '\n'] ++ List.replicate 51 'd'

/-- Two clauses of 51 letters joined by a comma and a space. -/
def commaExample : Str := List.replicate 51 'a' ++ [',', ' '] ++ List.replicate 51 'b'

/-- Two paragraphs, the first ending in a space and a letter. -/
def spaceSuffixExample : Str :=
  List.replicate 50 'a' ++ [' ', 'y'] ++ ['\n', '\n'] ++ List.replicate 52 'b'

/-- An oversized word followed by a comma, a full stop and a paragraph break, each with
nothing behind it. -/
def trailingSeparatorsExample : Str :=
  List.replicate 52 'a' ++ [',', ' ', '.', ' ', '\n', '\n']

/-- Code units visited by the packing loop: every piece with the separator added after
it (none after the last piece). -/
def packedLength (separator : Str) : List Str → Nat
  | [] => 0
  | split :: rest =>
    split.length + (if rest = [] then [] else separator).length + packedLength separator rest

/-- The paragraph break, first of the separators. -/
def paragraphBreak : Str := ['\n', '\n']

/-- The text contains no paragraph break. -/
def NoParagraphBreak (s : Str) : Prop := ¬ paragraphBreak <:+: s

/-- Three paragraphs of 55, 10 and 58 letters with blanks around them: two blanks in
front, one behind the first paragraph and one at the end. -/
def paddedParagraphsExample : Str :=
  [' ', ' '] ++ List.replicate 55 'a' ++ [' ', '\n', '\n'] ++ List.replicate 10 'c' ++
    ['\n', '\n'] ++ List.replicate 58 'b' ++ [' ']


/-! ## Source aggregation of the chat handler -/

/-- A match of `queryResponse.matches`, with the metadata fields the chat handler reads.
`pageNumber` and `totalPages` are `none` when the field is missing from the metadata;
`S` is the type of scores. -/
structure Match (S : Type) where
  fileName : String
  fileId : String
  pageNumber : Option Nat
  totalPages : Option Nat
  source : String
  text : String
  score : S

/-- A value of `sourceMap`. -/
structure Source (S : Type) where
  fileName : String
  pageNumber : Nat
  totalPages : Nat
  source : String
  chunkCount : Nat
  score : S

/-- An element of the `sources` array of the response. -/
structure DisplaySource (S : Type) extends Source S where
  displayName : String

/-- `x || 1` for a page number: `1` when the number is missing or `0`. -/
def orOne : Option Nat → Nat
  | some (n + 1) => n + 1
  | _ => 1

/-- How a template literal renders a page number: decimal digits, and `undefined` when
the field is missing. -/
def pageString : Option Nat → String
  | some n => toString n
  | none => "undefined"

/-- The map key of a match, built by the template literal with `fileName`, `_` and
`pageNumber`. -/
def sourceKey {S : Type} (m : Match S) : String :=
  m.fileName ++ "_" ++ pageString m.pageNumber

/-- The value stored for a key seen for the first time. -/
def newSource {S : Type} (m : Match S) : Source S :=
  { fileName := m.fileName
    pageNumber := orOne m.pageNumber
    totalPages := orOne m.totalPages
    source := m.source
    chunkCount := 1
    score := m.score }

/-- The update of the value of a key seen before: one more chunk, and the higher score. -/
def bumpSource {S : Type} [LinearOrder S] (existing : Source S) (m : Match S) : Source S :=
  { existing with
    chunkCount := existing.chunkCount + 1
    score := if m.score > existing.score then m.score else existing.score }

/-- One round of `queryResponse.matches.forEach` on `sourceMap`, a `Map` held as the list
of its entries in insertion order: the entry of the key is updated in place, or a new
entry is added at the end. -/
def sourceMapVisit {S : Type} [LinearOrder S] (m : Match S) :
    List (String × Source S) → List (String × Source S)
  | [] => [(sourceKey m, newSource m)]
  | (k, e) :: rest =>
    if k = sourceKey m then (k, bumpSource e m) :: rest
    else (k, e) :: sourceMapVisit m rest

/-- The `sourceMap` after the `forEach` over the matches. -/
def buildSourceMap {S : Type} [LinearOrder S] (ms : List (Match S)) : List (String × Source S) :=
  ms.foldl (fun sm m => sourceMapVisit m sm) []

/-- The `displayName` template of a source. -/
def displayName {S : Type} (s : Source S) : String :=
  s.fileName ++ " - Page " ++ toString s.pageNumber ++ "/" ++ toString s.totalPages ++
    (if s.chunkCount > 1 then " (" ++ toString s.chunkCount ++ " chunks)" else "")

/-- The order the comparator `(a, b) => b.score - a.score` asks for: higher score first. -/
def scoreOrder {S : Type} [LinearOrder S] (a b : Source S) : Prop := b.score ≤ a.score

instance {S : Type} [LinearOrder S] : DecidableRel (@scoreOrder S _) :=
  fun a b => inferInstanceAs (Decidable (b.score ≤ a.score))

/-- The `sources` array of the response: the values of `sourceMap`, sorted by the stable
`Array.prototype.sort` with higher scores first, each with its `displayName`. -/
def chatSources {S : Type} [LinearOrder S] (ms : List (Match S)) : List (DisplaySource S) :=
  (((buildSourceMap ms).map Prod.snd).insertionSort scoreOrder).map
    (fun s => { toSource := s, displayName := displayName s })

/-- The pair a source stands for. -/
def matchPair {S : Type} (m : Match S) : String × Option Nat := (m.fileName, m.pageNumber)

/-- The matches of the example of the specification: A/1/0.9, A/1/0.7, B/2/0.8. -/
def exampleMatches : List (Match ℚ) :=
  [ { fileName := "A", fileId := "a", pageNumber := some 1, totalPages := some 3,
      source := "A - Page 1", text := "first", score := 9 / 10 },
    { fileName := "A", fileId := "a", pageNumber := some 1, totalPages := some 3,
      source := "A - Page 1", text := "second", score := 7 / 10 },
    { fileName := "B", fileId := "b", pageNumber := some 2, totalPages := some 2,
      source := "B - Page 2", text := "third", score := 8 / 10 } ]

/-- The number written by a list of decimal digits. -/
def digitsValue (l : List Char) : Nat := l.foldl (fun a c => 10 * a + (c.toNat - 48)) 0

/-- What the entry `s` stored under key `k` must be for the matches `ms`: the number of
matches with that key, their highest score, and the page data of the first of them. -/
def GroupOK {S : Type} [LinearOrder S] (ms : List (Match S)) (k : String) (s : Source S) : Prop :=
  s.chunkCount = ms.countP (fun m => decide (sourceKey m = k)) ∧
  (∃ m ∈ ms, sourceKey m = k ∧ m.score = s.score) ∧
  (∀ m ∈ ms, sourceKey m = k → m.score ≤ s.score) ∧
  (∃ m₀, ms.find? (fun m => decide (sourceKey m = k)) = some m₀ ∧
    s.fileName = m₀.fileName ∧ s.pageNumber = orOne m₀.pageNumber ∧
    s.totalPages = orOne m₀.totalPages ∧ s.source = m₀.source)


/-! ## The rest of the chat response -/

/-- An element of `sourceExcerpts`. -/
structure Excerpt (S : Type) where
  fileName : String
  fileId : String
  pageNumber : Option Nat
  excerpt : String
  score : S
  rank : Nat

/-- The `topSourceExcerpts` of the response: `matches.slice(0, 3)` mapped with the index. -/
def topSourceExcerpts {S : Type} (ms : List (Match S)) : List (Excerpt S) :=
  (ms.take 3).mapIdx (fun index m =>
    { fileName := m.fileName
      fileId := m.fileId
      pageNumber := m.pageNumber
      excerpt := m.text
      score := m.score
      rank := index + 1 })

/-- `Array.prototype.join`: the elements in order, the separator before every element but
the first. -/
def jsJoin (sep : String) : List String → String
  | [] => ""
  | x :: xs => xs.foldl (fun r y => r ++ sep ++ y) x

/-- The `context` of the chat handler: the texts of the matches joined by a blank line. -/
def chatContext {S : Type} (ms : List (Match S)) : String :=
  jsJoin "\n\n" (ms.map (fun m => m.text))

/-- The context as the specification words it: the text of every match in the order of
the list, with a blank line between two neighbours. -/
def contextSpec : List String → String
  | [] => ""
  | [t] => t
  | t :: u :: rest => t ++ "\n\n" ++ contextSpec (u :: rest)

/-! ## Embeddings -/

/-- An embedding vector. -/
abbrev Embedding := List ℚ

/-- The fallback `new Array(1536).fill(0)`. -/
def zeroVector : Embedding := List.replicate 1536 0

/-- The embedding service: what its `k`-th call of a run, made on `input`, answers: a
vector, or `none` when the call fails. -/
abbrev EmbeddingService := Nat → Str → Option Embedding

/-- The loop `for (const text of texts)` of `getEmbeddings`, at call number `k` with the
`embeddings` pushed so far. -/
def getEmbeddingsLoop (service : EmbeddingService) : Nat → List Str → List Embedding → List Embedding
  | _, [], embeddings => embeddings
  | k, text :: rest, embeddings =>
    match service k text with
    | some embedding => getEmbeddingsLoop service (k + 1) rest (embeddings ++ [embedding])
    | none => getEmbeddingsLoop service (k + 1) rest (embeddings ++ [zeroVector])

/-- The function `getEmbeddings(texts)`: the value its promise resolves with (`ok`), or the
error it rejects with. Every failure of the service is caught inside the loop. -/
def getEmbeddings (service : EmbeddingService) (texts : List Str) : Except String (List Embedding) :=
  .ok (getEmbeddingsLoop service 0 texts [])

/-- The query vector of the chat handler, `(await getEmbeddings([message]))[0]`. -/
def chatQueryVector (service : EmbeddingService) (message : Str) : Except String (Option Embedding) :=
  match getEmbeddings service [message] with
  | .ok queryEmbedding => .ok queryEmbedding[0]?
  | .error e => .error e

/-! ## Indexing a document -/

/-- A page of `fileData.pages`. -/
structure Page where
  pageNumber : Nat
  text : Str

/-- The `fileData` argument of `processDocument`. -/
structure FileData where
  text : Str
  pages : List Page
  totalPages : Nat

/-- An element of `allChunks`. -/
structure Chunk where
  text : Str
  pageNumber : Nat
  totalPages : Nat
  chunkIndex : Nat

/-- The map `pageChunks.map(chunk => (…, chunkIndex: chunkIndex++))` of one page, started
with the counter at `chunkIndex`: the chunks with their page data, and the counter after. -/
def chunksWithPageInfo (page : Page) (totalPages : Nat) : List Str → Nat → List Chunk × Nat
  | [], chunkIndex => ([], chunkIndex)
  | chunk :: rest, chunkIndex =>
    let tail := chunksWithPageInfo page totalPages rest (chunkIndex + 1)
    ({ text := chunk
       pageNumber := page.pageNumber
       totalPages := totalPages
       chunkIndex := chunkIndex } :: tail.1, tail.2)

/-- The loop `for (const page of fileData.pages)` of `processDocument` with its state
`(allChunks, chunkIndex)`; the splitter is called with its defaults 1000 and 200. `none`
when a call of the splitter does not return. -/
def collectChunks (totalPages : Nat) : List Page → List Chunk → Nat → Option (List Chunk × Nat)
  | [], allChunks, chunkIndex => some (allChunks, chunkIndex)
  | page :: rest, allChunks, chunkIndex =>
    match splitTextIntoChunks page.text 1000 200 with
    | none => none
    | some pageChunks =>
      let withInfo := chunksWithPageInfo page totalPages pageChunks chunkIndex
      collectChunks totalPages rest (allChunks ++ withInfo.1) withInfo.2

/-- The `allChunks` of `processDocument`. -/
def documentChunks (fileData : FileData) : Option (List Chunk) :=
  (collectChunks fileData.totalPages fileData.pages [] 0).map Prod.fst

/-- The metadata of a vector record. -/
structure RecordMetadata where
  fileName : String
  fileId : String
  chunkIndex : Nat
  pageNumber : Nat
  totalPages : Nat
  text : Str
  chunkSize : Nat
  source : String
  timestamp : String

/-- An element of `vectors`; `values` is `embeddingsArray[index]`, `none` when the array
has no such index. -/
structure VectorRecord where
  id : String
  values : Option Embedding
  metadata : RecordMetadata

/-- The `vectors` of `processDocument`: `allChunks.map((chunk, index) => …)`; `clock index`
is the time read by `new Date().toISOString()` for the record at `index`. -/
def buildVectors (fileId fileName : String) (clock : Nat → String) (allChunks : List Chunk)
    (embeddingsArray : List Embedding) : List VectorRecord :=
  allChunks.mapIdx (fun index chunk =>
    { id := fileId ++ "_" ++ toString chunk.chunkIndex
      values := embeddingsArray[index]?
      metadata :=
        { fileName := fileName
          fileId := fileId
          chunkIndex := chunk.chunkIndex
          pageNumber := chunk.pageNumber
          totalPages := chunk.totalPages
          text := chunk.text
          chunkSize := chunk.text.length
          source := fileName ++ " - Page " ++ toString chunk.pageNumber
          timestamp := clock index } })

/-- The loop `for (let i = 0; i < vectors.length; i += batchSize)` with `batchSize = 100`,
from index `i`, for at most `fuel` rounds: the batches `vectors.slice(i, i + 100)` passed
to `index.upsert`, in the order sent. -/
def upsertLoop {α : Type} (vectors : List α) : Nat → Nat → List (List α)
  | 0, _ => []
  | fuel + 1, i =>
    if i < vectors.length then
      ((vectors.drop i).take 100) :: upsertLoop vectors fuel (i + 100)
    else []

/-- The batches `processDocument` upserts; the loop makes at most `vectors.length` rounds. -/
def upsertBatches {α : Type} (vectors : List α) : List (List α) :=
  upsertLoop vectors vectors.length 0

/-- Modelled from the spec: the external vector store, a map from id to record, held as
the list of its records; no two records of a store built by upserts share an id. -/
abbrev VectorStore := List VectorRecord

/-- Modelled from the spec: upsert of one record, which overwrites the record with the
same id or adds the record. -/
def storeUpsertOne (r : VectorRecord) : VectorStore → VectorStore
  | [] => [r]
  | x :: rest => if x.id = r.id then r :: rest else x :: storeUpsertOne r rest

/-- Modelled from the spec: `index.upsert(batch)`. -/
def storeUpsert (batch : List VectorRecord) (store : VectorStore) : VectorStore :=
  batch.foldl (fun s r => storeUpsertOne r s) store

/-- The `vectors` built by `processDocument` for a document, when the splitter returns
and `getEmbeddings` resolves. -/
def documentVectors (service : EmbeddingService) (clock : Nat → String)
    (fileId fileName : String) (fileData : FileData) : Except String (List VectorRecord) :=
  match documentChunks fileData with
  | none => .error "Maximum call stack size exceeded"
  | some allChunks =>
    match getEmbeddings service (allChunks.map (fun chunk => chunk.text)) with
    | .error e => .error e
    | .ok embeddingsArray => .ok (buildVectors fileId fileName clock allChunks embeddingsArray)

/-- The function `processDocument(fileId, fileName, fileData)` run on a store: the count
it returns and the store after its upserts, or the error it throws. The store calls are
taken to succeed. -/
def processDocument (service : EmbeddingService) (clock : Nat → String) (store : VectorStore)
    (fileId fileName : String) (fileData : FileData) : Except String (Nat × VectorStore) :=
  match documentChunks fileData with
  | none => .error "Maximum call stack size exceeded"
  | some allChunks =>
    match getEmbeddings service (allChunks.map (fun chunk => chunk.text)) with
    | .error e => .error e
    | .ok embeddingsArray =>
      let vectors := buildVectors fileId fileName clock allChunks embeddingsArray
      .ok (allChunks.length,
        (upsertBatches vectors).foldl (fun s batch => storeUpsert batch s) store)

/-! ## Removing a document -/

/-- A match of the broad query of the delete handler: its id and `metadata?.fileId`,
`none` when the metadata or its `fileId` is missing. -/
structure StoreMatch where
  id : String
  fileId : Option String

/-- The values of `new Set(xs)` in iteration order: every value once, at its first
occurrence; `seen` holds the values already in the set. -/
def jsSetValues : List String → List String → List String
  | [], seen => seen
  | x :: rest, seen => if x ∈ seen then jsSetValues rest seen else jsSetValues rest (seen ++ [x])

/-- The array `matches.map(m => m.metadata?.fileId).filter(Boolean)`: the file ids that
are present and not the empty string. -/
def truthyFileIds (ms : List StoreMatch) : List String :=
  ms.filterMap (fun m =>
    match m.fileId with
    | some f => if f = "" then none else some f
    | none => none)

/-- What the delete handler answers and does. -/
inductive DeleteOutcome where
  | notFound (availableFiles : List String)
  | removed (deletedIds : List String) (removedChunks : Nat)
deriving DecidableEq

/-- The handler `app.delete('/api/documents/:fileId')` on the matches of its broad query:
status 404 with `availableFiles` and no call of `deleteMany`, or the call
`deleteMany(vectorIds)` and the answer with `removedChunks`. -/
def deleteDocument (fileId : String) (ms : List StoreMatch) : DeleteOutcome :=
  let fileVectors := ms.filter (fun m => decide (m.fileId = some fileId))
  if fileVectors.length = 0 then
    .notFound (jsSetValues (truthyFileIds ms) [])
  else
    let vectorIds := fileVectors.map (fun m => m.id)
    .removed vectorIds vectorIds.length

/-- The entries `getEmbeddings` pushes for the texts, from call number `k` on: the vector
of the service, or the zero vector when the call fails. -/
def embeddingEntries (service : EmbeddingService) : Nat → List Str → List Embedding
  | _, [] => []
  | k, text :: rest => (service k text).getD zeroVector :: embeddingEntries service (k + 1) rest

/-- A service whose every call fails. -/
def failingService : EmbeddingService := fun _ _ => none

/-- A service that answers the text `a` and fails on every other text. -/
def onlyAService : EmbeddingService :=
  fun _ text => if text = ['a'] then some [1, 2, 3] else none

/-- The chunks the splitter returns for a page, with its defaults. -/
def pageChunkTexts (page : Page) : List Str := (splitTextIntoChunks page.text 1000 200).getD []

/-- The ids of the records of a store. -/
def storeIds (store : VectorStore) : List String := store.map (fun r => r.id)

/-- Matches of three records: two of file `f1`, one with an empty file id. -/
def exampleStoreMatches : List StoreMatch :=
  [ { id := "f1_0", fileId := some "f1" },
    { id := "x_0", fileId := some "" },
    { id := "f2_0", fileId := some "f2" },
    { id := "f1_1", fileId := some "f1" },
    { id := "y_0", fileId := none } ]


/-! ## Retrieval of the chat handler -/

/-- The `topK` of the query of the chat handler. -/
def chatTopK : Nat := 5

/-- Modelled from the spec: the external vector store answers a query with the `topK`
nearest records; `ranked` is the list of its records from the nearest on. -/
def storeQuery {S : Type} (ranked : List (Match S)) (topK : Nat) : List (Match S) :=
  ranked.take topK

/-- The `queryResponse.matches` of the chat handler. -/
def chatMatches {S : Type} (ranked : List (Match S)) : List (Match S) :=
  storeQuery ranked chatTopK

/-- The context the chat handler puts in the prompt for a store holding `ranked`. -/
def chatPromptContext {S : Type} (ranked : List (Match S)) : String :=
  chatContext (chatMatches ranked)

/-- Five records of one document, nearest first. -/
def fiveMatches : List (Match ℚ) :=
  [ { fileName := "A", fileId := "a", pageNumber := some 1, totalPages := some 5,
      source := "A - Page 1", text := "t1", score := 9 / 10 },
    { fileName := "A", fileId := "a", pageNumber := some 2, totalPages := some 5,
      source := "A - Page 2", text := "t2", score := 8 / 10 },
    { fileName := "A", fileId := "a", pageNumber := some 3, totalPages := some 5,
      source := "A - Page 3", text := "t3", score := 7 / 10 },
    { fileName := "A", fileId := "a", pageNumber := some 4, totalPages := some 5,
      source := "A - Page 4", text := "t4", score := 6 / 10 },
    { fileName := "A", fileId := "a", pageNumber := some 5, totalPages := some 5,
      source := "A - Page 5", text := "t5", score := 5 / 10 } ]

/-- Two matches of file A, the first without page number, the second of page 1. -/
def missingPageMatches : List (Match ℚ) :=
  [ { fileName := "A", fileId := "a", pageNumber := none, totalPages := some 3,
      source := "A", text := "first", score := 9 / 10 },
    { fileName := "A", fileId := "a", pageNumber := some 1, totalPages := some 3,
      source := "A - Page 1", text := "second", score := 8 / 10 } ]

/-! ## The rate limiter of the client -/

/-- The object kept in `localStorage` under `ragbot-rate-limit`. -/
structure RateLimitData where
  startTime : Int
  requestCount : Nat
deriving DecidableEq

/-- The fields set by the constructor of `RateLimiter`. -/
structure RateLimiter where
  maxRequests : Nat
  windowMs : Int

/-- The singleton `new RateLimiter(120, 24 * 60 * 60 * 1000)`. -/
def rateLimiter : RateLimiter := { maxRequests := 120, windowMs := 24 * 60 * 60 * 1000 }

/-- The value written by `resetRateLimit()` when `Date.now()` reads `now`. -/
def resetRateLimit (now : Int) : Option RateLimitData :=
  some { startTime := now, requestCount := 0 }

/-- The test `!data || (now - data.startTime) > this.windowMs`. -/
def windowExpired (rl : RateLimiter) (now : Int) : Option RateLimitData → Bool
  | none => true
  | some data => decide (now - data.startTime > rl.windowMs)

/-- The method `canMakeRequest()` on the stored data (`none` when there is none): its
answer and the stored data after. `now` is the time it reads, `resetNow` the time
`resetRateLimit` reads. -/
def canMakeRequest (rl : RateLimiter) (now resetNow : Int) (stored : Option RateLimitData) :
    Bool × Option RateLimitData :=
  if windowExpired rl now stored then (true, resetRateLimit resetNow)
  else
    match stored with
    | some data => (decide (data.requestCount < rl.maxRequests), stored)
    | none => (true, resetRateLimit resetNow)

/-- The method `recordRequest()`: whether it completes (`ok`) or throws, and the stored
data after. In the reset branch `resetRateLimit()` is called and the assignment to the
constant `data` then throws a `TypeError`, before the count is incremented and saved. -/
def recordRequest (rl : RateLimiter) (now resetNow : Int) (stored : Option RateLimitData) :
    Except String Unit × Option RateLimitData :=
  if windowExpired rl now stored then
    (.error "TypeError: Assignment to constant variable.", resetRateLimit resetNow)
  else
    match stored with
    | some data => (.ok (), some { data with requestCount := data.requestCount + 1 })
    | none => (.error "TypeError: Assignment to constant variable.", resetRateLimit resetNow)

/-- The times read by the calls of `Date.now()` during one `sendMessage`. -/
structure AttemptClock where
  checkNow : Int
  checkReset : Int
  recordNow : Int
  recordReset : Int

/-- What `sendMessage` (of a non-blank message) does to the stored data: `recordRequest`
is called when, and right after, `canMakeRequest` answered `true`; an error thrown by
`recordRequest` is caught by `sendMessage`. -/
def sendAttempt (rl : RateLimiter) (clock : AttemptClock) (stored : Option RateLimitData) :
    Option RateLimitData :=
  let check := canMakeRequest rl clock.checkNow clock.checkReset stored
  if check.1 then (recordRequest rl clock.recordNow clock.recordReset check.2).2
  else check.2

/-- The stored request count is at most `limit` (nothing is stored, or the count is). -/
def CountWithin (limit : Nat) : Option RateLimitData → Prop
  | none => True
  | some data => data.requestCount ≤ limit

/-! ## Pages of a PDF -/

/-- A page of `data.pages`, when the parser gives any; `text` is `none` when missing. -/
structure ParsedPage where
  text : Option Str
  height : Nat
  width : Nat

/-- An element of the `pages` built by `extractTextFromFile`. -/
structure ExtractedPage where
  pageNumber : Nat
  text : Str
  height : Nat
  width : Nat
deriving DecidableEq

/-- What `extractTextFromFile` returns for a PDF (`text`, `pages`, `totalPages`). -/
structure ExtractedFile where
  text : Str
  pages : List ExtractedPage
  totalPages : Nat
deriving DecidableEq

/-- `text.split(/\f+/)`: the pieces between the maximal runs of form feeds; `cur` is the
current piece in reverse, `inRun` tells that the code unit before was a form feed. -/
def splitFormFeeds : Str → Str → Bool → List Str
  | [], cur, _ => [cur.reverse]
  | c :: cs, cur, inRun =>
    if c = '\x0c' then
      if inRun then splitFormFeeds cs [] true
      else cur.reverse :: splitFormFeeds cs [] true
    else splitFormFeeds cs (c :: cur) false

/-- Method 1: `data.pages.forEach((page, index) => …)` from `index` on: a page with
non-blank text is kept, trimmed, under the number `index + 1`. -/
def pagesFromParser : List ParsedPage → Nat → List ExtractedPage
  | [], _ => []
  | page :: rest, index =>
    match page.text with
    | some t =>
      if jsTrim t ≠ [] then
        { pageNumber := index + 1, text := jsTrim t, height := page.height, width := page.width }
          :: pagesFromParser rest (index + 1)
      else pagesFromParser rest (index + 1)
    | none => pagesFromParser rest (index + 1)

/-- Method 2: `textChunks.forEach((chunk, index) => …)` from `index` on. -/
def pagesFromChunks : List Str → Nat → List ExtractedPage
  | [], _ => []
  | chunk :: rest, index =>
    if jsTrim chunk ≠ [] then
      { pageNumber := index + 1, text := jsTrim chunk, height := 0, width := 0 }
        :: pagesFromChunks rest (index + 1)
    else pagesFromChunks rest (index + 1)

/-- Method 3: the loop `for (let i = 0; i < estimatedPages; i++)` from `i` on, for
`fuel` rounds, over slices of `charsPerPage` code units. -/
def pagesFromEstimate (text : Str) (charsPerPage estimatedPages : Nat) : Nat → Nat → List ExtractedPage
  | 0, _ => []
  | fuel + 1, i =>
    if i < estimatedPages then
      let start := i * charsPerPage
      let stop := min ((i + 1) * charsPerPage) text.length
      let pageText := jsTrim ((text.drop start).take (stop - start))
      if pageText ≠ [] then
        { pageNumber := i + 1, text := pageText, height := 0, width := 0 }
          :: pagesFromEstimate text charsPerPage estimatedPages fuel (i + 1)
      else pagesFromEstimate text charsPerPage estimatedPages fuel (i + 1)
    else []

/-- The PDF branch of `extractTextFromFile` on the output of the parser: `parsedPages` is
`data.pages` (`none` when the parser gives none), `text` is `data.text`. -/
def extractPdf (parsedPages : Option (List ParsedPage)) (text : Str) : ExtractedFile :=
  let pages₁ := match parsedPages with
    | some ps => pagesFromParser ps 0
    | none => []
  let pages₂ := if pages₁.length = 0 then pagesFromChunks (splitFormFeeds text [] false) 0 else pages₁
  let pages₃ :=
    if pages₂.length = 0 then
      let estimatedPages := max 1 ((text.length + 1999) / 2000)
      let charsPerPage := (text.length + estimatedPages - 1) / estimatedPages
      pagesFromEstimate text charsPerPage estimatedPages estimatedPages 0
    else pages₂
  { text := text, pages := pages₃, totalPages := pages₃.length }

/-- A text of three paragraphs, the second longer than 60 code units. -/
def oversizedMiddleExample : Str :=
  List.replicate 55 'a' ++ ['\n', '\n'] ++ List.replicate 70 'b' ++ ['\n', '\n'] ++
    List.replicate 55 'c'

/-- The text holds none of the non-empty separators. -/
def NoSeparator (text : Str) : Prop :=
  ∀ sep ∈ separators, sep ≠ [] → ¬ sep <:+: text

/-- A document of two pages, one chunk each. -/
def twoPageFile : FileData :=
  { text := List.replicate 60 'a' ++ List.replicate 60 'b'
    pages := [{ pageNumber := 1, text := List.replicate 60 'a' },
              { pageNumber := 2, text := List.replicate 60 'b' }]
    totalPages := 2 }

/-- The document after an edit that leaves one page of one chunk. -/
def onePageFile : FileData :=
  { text := List.replicate 60 'c'
    pages := [{ pageNumber := 1, text := List.replicate 60 'c' }]
    totalPages := 1 }

/-! ## Trimming -/

theorem jsTrimEnd_eq_rdropWhile (s : Str) : jsTrimEnd s = s.rdropWhile isJsWhitespace := rfl

theorem jsTrimStart_length_le (s : Str) : (jsTrimStart s).length ≤ s.length :=
  (List.dropWhile_suffix isJsWhitespace).length_le

theorem jsTrimEnd_length_le (s : Str) : (jsTrimEnd s).length ≤ s.length := by
  rw [jsTrimEnd_eq_rdropWhile]
  exact (List.rdropWhile_prefix isJsWhitespace s).length_le

theorem jsTrim_length_le (s : Str) : (jsTrim s).length ≤ s.length :=
  (jsTrimEnd_length_le _).trans (jsTrimStart_length_le s)



theorem jsTrimStart_eq_self {s : Str} (h : ∀ c, s.head? = some c → isJsWhitespace c = false) :
    jsTrimStart s = s := by
  cases s with
  | nil => rfl
  | cons a t =>
    have := h a rfl
    simp [jsTrimStart, List.dropWhile, this]

theorem jsTrimEnd_eq_self {s : Str} (h : ∀ c, s.getLast? = some c → isJsWhitespace c = false) :
    jsTrimEnd s = s := by
  unfold jsTrimEnd
  have h2 : ∀ c, s.reverse.head? = some c → isJsWhitespace c = false := by
    intro c hc
    apply h
    simpa [List.head?_reverse] using hc
  have := jsTrimStart_eq_self h2
  unfold jsTrimStart at this
  rw [this, List.reverse_reverse]

theorem jsTrim_eq_self {s : Str} (h : IsTrimmed s) : jsTrim s = s := by
  unfold jsTrim
  rw [jsTrimStart_eq_self h.1, jsTrimEnd_eq_self h.2]

theorem jsTrimStart_head {s : Str} (c : Char) (h : (jsTrimStart s).head? = some c) :
    isJsWhitespace c = false := by
  unfold jsTrimStart at h
  have := List.head?_dropWhile_not isJsWhitespace s
  rw [h] at this
  simpa using this

theorem jsTrimEnd_getLast {s : Str} (c : Char) (h : (jsTrimEnd s).getLast? = some c) :
    isJsWhitespace c = false := by
  unfold jsTrimEnd at h
  rw [List.getLast?_reverse] at h
  exact jsTrimStart_head (s := s.reverse) c h

theorem jsTrimEnd_head {s : Str} (h : ∀ c, s.head? = some c → isJsWhitespace c = false) :
    ∀ c, (jsTrimEnd s).head? = some c → isJsWhitespace c = false := by
  intro c hc
  apply h
  have hp : jsTrimEnd s <+: s := by
    rw [jsTrimEnd_eq_rdropWhile]; exact List.rdropWhile_prefix _ _
  obtain ⟨t, ht⟩ := hp
  cases hs : jsTrimEnd s with
  | nil => rw [hs] at hc; simp at hc
  | cons a u =>
    rw [hs] at hc ht
    rw [← ht]
    simpa using hc

theorem jsTrim_isTrimmed (s : Str) : IsTrimmed (jsTrim s) :=
  ⟨jsTrimEnd_head (fun c hc => jsTrimStart_head c hc), fun c hc => jsTrimEnd_getLast c hc⟩

theorem jsTrim_idem (s : Str) : jsTrim (jsTrim s) = jsTrim s :=
  jsTrim_eq_self (jsTrim_isTrimmed s)

/-! ## Splitting on a separator -/

@[simp] theorem totalLength_nil : totalLength [] = 0 := rfl
@[simp] theorem totalLength_cons (a : Str) (l : List Str) :
    totalLength (a :: l) = a.length + totalLength l := by simp [totalLength]
@[simp] theorem totalLength_append (l₁ l₂ : List Str) :
    totalLength (l₁ ++ l₂) = totalLength l₁ + totalLength l₂ := by simp [totalLength]

theorem length_le_totalLength {l : List Str} {p : Str} (h : p ∈ l) : p.length ≤ totalLength l := by
  induction l with
  | nil => cases h
  | cons a t ih =>
    rcases List.mem_cons.1 h with rfl | h
    · simp
    · have := ih h
      simp; omega

theorem jsSplitAux_ne_nil (sep : Str) (t : Str) (skip : Nat) (cur : Str) :
    jsSplitAux sep t skip cur ≠ [] := by
  induction t generalizing skip cur with
  | nil => simp [jsSplitAux]
  | cons c cs ih =>
    cases skip with
    | succ k => simpa [jsSplitAux] using ih k cur
    | zero =>
      simp only [jsSplitAux]
      split
      · simp
      · exact ih 0 _

/-- Accounting of the scan: pieces, separators and skipped code units add up to the text. -/
theorem jsSplitAux_totalLength (sep : Str) (hsep : sep ≠ []) (t : Str) (skip : Nat) (cur : Str)
    (hskip : skip ≤ t.length) :
    totalLength (jsSplitAux sep t skip cur) + (jsSplitAux sep t skip cur).length * sep.length + skip
      = cur.length + t.length + sep.length := by
  induction t generalizing skip cur with
  | nil =>
    have : skip = 0 := by simpa using hskip
    subst this
    simp [jsSplitAux]
  | cons c cs ih =>
    cases skip with
    | succ k =>
      have := ih k cur (by simpa using hskip)
      simp only [jsSplitAux, List.length_cons]
      omega
    | zero =>
      simp only [jsSplitAux]
      split
      · rename_i hpre
        have hpre' : sep <+: c :: cs := List.isPrefixOf_iff_prefix.1 hpre
        have hlen := hpre'.length_le
        have hpos : 0 < sep.length := List.length_pos.2 hsep
        simp only [List.length_cons] at hlen
        have := ih (sep.length - 1) [] (by omega)
        simp only [totalLength_cons, List.length_cons, List.length_reverse, List.length_nil] at this ⊢
        rw [Nat.add_mul]
        omega
      · have := ih 0 (c :: cur) (Nat.zero_le _)
        simp only [List.length_cons] at this ⊢
        omega

theorem jsSplit_totalLength (text sep : Str) (hsep : sep ≠ []) :
    totalLength (jsSplit text sep) + (jsSplit text sep).length * sep.length
      = text.length + sep.length := by
  have := jsSplitAux_totalLength sep hsep text 0 [] (Nat.zero_le _)
  simpa [jsSplit, hsep] using this

/-- A piece of a split into at least two pieces is strictly shorter than the text. -/
theorem jsSplit_piece_lt (text sep : Str) (hsep : sep ≠ []) (h2 : 1 < (jsSplit text sep).length)
    {p : Str} (hp : p ∈ jsSplit text sep) : p.length < text.length := by
  have h := jsSplit_totalLength text sep hsep
  have hle := length_le_totalLength hp
  have hpos : 0 < sep.length := List.length_pos.2 hsep
  have : 2 * sep.length ≤ (jsSplit text sep).length * sep.length := Nat.mul_le_mul_right _ h2
  omega

/-! ## The recursion of `splitText` returns -/

theorem packSplits_congr (trimF : Str → Str) (chunkSize : Nat) (separator : Str)
    (r₁ r₂ : Str → Option (List Str)) (splits : List Str)
    (h : ∀ p ∈ splits, chunkSize < p.length → r₁ p = r₂ p) (result : List Str) (cur : Str) :
    packSplits trimF chunkSize separator r₁ splits result cur
      = packSplits trimF chunkSize separator r₂ splits result cur := by
  induction splits generalizing result cur with
  | nil => rfl
  | cons s rest ih =>
    have ih' := ih (fun p hp => h p (List.mem_cons_of_mem _ hp))
    simp only [packSplits]
    generalize (if rest = [] then [] else separator) = sta
    by_cases h1 : (cur ++ s ++ sta).length ≤ chunkSize
    · simp only [h1, if_true]; exact ih' _ _
    · simp only [h1, if_false]
      by_cases hlen : s.length > chunkSize
      · simp only [hlen, if_true]
        rw [h s (List.mem_cons_self _ _) hlen]
        cases r₂ s with
        | none => rfl
        | some sub => exact ih' _ _
      · simp only [hlen, if_false]; exact ih' _ _

theorem packSplits_isSome (trimF : Str → Str) (chunkSize : Nat) (separator : Str)
    (recur : Str → Option (List Str)) (splits : List Str)
    (h : ∀ p ∈ splits, chunkSize < p.length → (recur p).isSome) (result : List Str) (cur : Str) :
    (packSplits trimF chunkSize separator recur splits result cur).isSome := by
  induction splits generalizing result cur with
  | nil => rfl
  | cons s rest ih =>
    have ih' := ih (fun p hp => h p (List.mem_cons_of_mem _ hp))
    simp only [packSplits]
    generalize (if rest = [] then [] else separator) = sta
    by_cases h1 : (cur ++ s ++ sta).length ≤ chunkSize
    · simp only [h1, if_true]; exact ih' _ _
    · simp only [h1, if_false]
      by_cases hlen : s.length > chunkSize
      · simp only [hlen, if_true]
        have := h s (List.mem_cons_self _ _) hlen
        cases hr : recur s with
        | none => rw [hr] at this; cases this
        | some sub => exact ih' _ _
      · simp only [hlen, if_false]; exact ih' _ _

theorem trySeparators_congr (trimF : Str → Str) (chunkSize overlap : Nat)
    (s₁ s₂ f₁ f₂ : Str → Option (List Str)) (text : Str) (seps : List Str)
    (hs : s₁ (text.drop chunkSize) = s₂ (text.drop chunkSize))
    (hf : ∀ sep ∈ seps, sep ≠ [] → 1 < (jsSplit text sep).length →
      ∀ p ∈ jsSplit text sep, chunkSize < p.length → f₁ p = f₂ p) :
    trySeparators trimF chunkSize overlap s₁ f₁ text seps
      = trySeparators trimF chunkSize overlap s₂ f₂ text seps := by
  induction seps with
  | nil => simp [trySeparators, hardCut, hs]
  | cons sep rest ih =>
    simp only [trySeparators]
    split
    · simp [hardCut, hs]
    · rename_i hne
      split
      · rename_i h2
        rw [packSplits_congr trimF chunkSize sep f₁ f₂ _
          (hf sep (List.mem_cons_self _ _) hne h2)]
      · exact ih (fun s hs' => hf s (List.mem_cons_of_mem _ hs'))

theorem trySeparators_isSome (trimF : Str → Str) (chunkSize overlap : Nat)
    (s f : Str → Option (List Str)) (text : Str) (seps : List Str)
    (hs : (s (text.drop chunkSize)).isSome)
    (hf : ∀ sep ∈ seps, sep ≠ [] → 1 < (jsSplit text sep).length →
      ∀ p ∈ jsSplit text sep, chunkSize < p.length → (f p).isSome) :
    (trySeparators trimF chunkSize overlap s f text seps).isSome := by
  induction seps with
  | nil => simpa [trySeparators, hardCut] using hs
  | cons sep rest ih =>
    simp only [trySeparators]
    split
    · simpa [hardCut] using hs
    · rename_i hne
      split
      · rename_i h2
        have := packSplits_isSome trimF chunkSize sep f _
          (hf sep (List.mem_cons_self _ _) hne h2) [] []
        cases hp : packSplits trimF chunkSize sep f (jsSplit text sep) [] [] with
        | none => rw [hp] at this; cases this
        | some r => rfl
      · exact ih (fun s hs' => hf s (List.mem_cons_of_mem _ hs'))

/-- With `chunkSize ≥ 1`, more nested calls than the text has code units are
never needed: the result exists and one more level does not change it. -/
theorem splitTextWith_fuel_succ (trimF : Str → Str) (chunkSize overlap : Nat) (hcs : 1 ≤ chunkSize) :
    ∀ (fuel : Nat) (text : Str) (seps : List Str), text.length < fuel →
      (splitTextWith trimF chunkSize overlap fuel text seps).isSome ∧
      splitTextWith trimF chunkSize overlap (fuel + 1) text seps
        = splitTextWith trimF chunkSize overlap fuel text seps := by
  intro fuel
  induction fuel with
  | zero => intro text seps h; omega
  | succ n ih =>
    intro text seps hlt
    by_cases hsmall : text.length ≤ chunkSize
    · simp [splitTextWith, hsmall]
    · have hdrop : (text.drop chunkSize).length < n := by
        simp only [List.length_drop]; omega
      have hpiece : ∀ sep ∈ seps, sep ≠ [] → 1 < (jsSplit text sep).length →
          ∀ p ∈ jsSplit text sep, p.length < n := by
        intro sep _ hne h2 p hp
        have := jsSplit_piece_lt text sep hne h2 hp
        omega
      constructor
      · rw [splitTextWith]
        simp only [hsmall, if_false]
        exact trySeparators_isSome _ _ _ _ _ _ _ (ih _ _ hdrop).1
          (fun sep hsep hne h2 p hp _ => (ih _ _ (hpiece sep hsep hne h2 p hp)).1)
      · rw [splitTextWith, splitTextWith]
        simp only [hsmall, if_false]
        exact trySeparators_congr _ _ _ _ _ _ _ _ _ (ih _ _ hdrop).2
          (fun sep hsep hne h2 p hp _ => (ih _ _ (hpiece sep hsep hne h2 p hp)).2)

theorem splitTextWith_fuel_add (trimF : Str → Str) (chunkSize overlap : Nat) (hcs : 1 ≤ chunkSize)
    (text : Str) (seps : List Str) (fuel k : Nat) (h : text.length < fuel) :
    splitTextWith trimF chunkSize overlap (fuel + k) text seps
      = splitTextWith trimF chunkSize overlap fuel text seps := by
  induction k with
  | zero => rfl
  | succ k ih =>
    rw [← Nat.add_assoc, (splitTextWith_fuel_succ trimF chunkSize overlap hcs _ text seps
      (by omega)).2, ih]

/-- Any two call-stack depths above the length of the text give the same, defined result. -/
theorem splitTextWith_fuel_irrelevant (trimF : Str → Str) (chunkSize overlap : Nat)
    (hcs : 1 ≤ chunkSize) (text : Str) (seps : List Str) (fuel : Nat) (h : text.length < fuel) :
    ∃ chunks, splitTextWith trimF chunkSize overlap fuel text seps = some chunks ∧
      splitTextWith trimF chunkSize overlap (text.length + 1) text seps = some chunks := by
  have h1 := (splitTextWith_fuel_succ trimF chunkSize overlap hcs fuel text seps h).1
  obtain ⟨chunks, hc⟩ := Option.isSome_iff_exists.1 h1
  refine ⟨chunks, hc, ?_⟩
  obtain ⟨k, rfl⟩ : ∃ k, fuel = text.length + 1 + k := ⟨fuel - (text.length + 1), by omega⟩
  rw [← hc, splitTextWith_fuel_add trimF chunkSize overlap hcs text seps _ k (by omega)]

/-! ## Post-processing, short texts, configuration, termination -/

theorem mem_postProcess {l : List Str} {c : Str} (h : c ∈ postProcess l) :
    50 < c.length ∧ jsTrim c = c := by
  unfold postProcess at h
  obtain ⟨x, hx, rfl⟩ := List.mem_map.1 h
  have := (List.mem_filter.1 hx).2
  exact ⟨by simpa using this, jsTrim_idem x⟩

theorem splitTextIntoChunks_isSome (text : Str) (chunkSize overlap : Nat) (hcs : 1 ≤ chunkSize) :
    ∃ initial, splitText chunkSize overlap (text.length + 1) text separators = some initial ∧
      splitTextIntoChunks text chunkSize overlap = some (postProcess initial) := by
  obtain ⟨chunks, h, -⟩ := splitTextWith_fuel_irrelevant jsTrim chunkSize overlap hcs text
    separators (text.length + 1) (Nat.lt_succ_self _)
  exact ⟨chunks, h, by simp [splitTextIntoChunks, splitText, h]⟩

/-- C1: for every text, every `chunkSize ≥ 1` and every overlap, `splitTextIntoChunks`
returns a chunk list, and every chunk in it has more than 50 code units and equals
its own trim. -/
theorem splitTextIntoChunks_min_size_trimmed (text : Str) (chunkSize overlap : Nat)
    (hcs : 1 ≤ chunkSize) :
    ∃ chunks, splitTextIntoChunks text chunkSize overlap = some chunks ∧
      ∀ c ∈ chunks, 50 < c.length ∧ jsTrim c = c := by
  obtain ⟨initial, -, h⟩ := splitTextIntoChunks_isSome text chunkSize overlap hcs
  exact ⟨_, h, fun c hc => mem_postProcess hc⟩

set_option maxRecDepth 100000 in
theorem splitTextIntoChunks_min_size_trimmed_witness :
    splitTextIntoChunks paddedParagraphsExample 60 5
      = some [List.replicate 55 'a' ++ List.replicate 5 'c',
          List.replicate 5 'c' ++ List.replicate 58 'b'] ∧
    ∃ chunks, splitTextIntoChunks paddedParagraphsExample 60 5 = some chunks ∧
      ∀ c ∈ chunks, 50 < c.length ∧ jsTrim c = c :=
  ⟨by decide, splitTextIntoChunks_min_size_trimmed paddedParagraphsExample 60 5 (by decide)⟩

/-- C2: a text no longer than `chunkSize` is returned as one chunk, its trim, when the
trim has more than 50 code units, and as no chunk otherwise; the empty text yields no
chunk; the overlap plays no part. -/
theorem splitTextIntoChunks_short_text (text : Str) (chunkSize overlap : Nat)
    (h : text.length ≤ chunkSize) :
    splitTextIntoChunks text chunkSize overlap
        = some (if 50 < (jsTrim text).length then [jsTrim text] else []) ∧
      splitTextIntoChunks [] chunkSize overlap = some [] ∧
      splitTextIntoChunks text chunkSize overlap = splitTextIntoChunks text chunkSize 0 := by
  have key : ∀ ov, splitTextIntoChunks text chunkSize ov
      = some (if 50 < (jsTrim text).length then [jsTrim text] else []) := by
    intro ov
    simp only [splitTextIntoChunks, splitText, splitTextWith, h, if_true, Option.map_some',
      postProcess]
    by_cases h50 : 50 < (jsTrim text).length <;> simp [h50]
  refine ⟨key overlap, ?_, ?_⟩
  · simp [splitTextIntoChunks, splitText, splitTextWith, postProcess, jsTrim, jsTrimEnd,
      jsTrimStart]
  · rw [key overlap, key 0]

theorem splitTextIntoChunks_short_text_witness :
    splitTextIntoChunks (' ' :: List.replicate 51 'a') 1000 200
        = some (if 50 < (jsTrim (' ' :: List.replicate 51 'a')).length
            then [jsTrim (' ' :: List.replicate 51 'a')] else []) ∧
      splitTextIntoChunks [] 1000 200 = some [] ∧
      splitTextIntoChunks (' ' :: List.replicate 51 'a') 1000 200
        = splitTextIntoChunks (' ' :: List.replicate 51 'a') 1000 0 :=
  splitTextIntoChunks_short_text _ 1000 200 (by decide)

/-- C5, counterexample: with `overlap = 60 ≥ chunkSize = 51` the call is not rejected;
it returns the two hard-cut chunks of the text. -/
theorem splitTextIntoChunks_overlap_ge_chunkSize_accepted :
    51 ≤ 60 ∧
    splitTextIntoChunks (List.replicate 51 'a' ++ List.replicate 51 'b') 51 60
      = some [List.replicate 51 'a', List.replicate 51 'b'] := by
  decide

/-- C5, as the code behaves: `splitTextIntoChunks` never compares `overlap` with
`chunkSize`; for every `overlap ≥ chunkSize ≥ 1` it returns a chunk list (the
post-processed result of `splitText`), as for any other overlap. -/
theorem splitTextIntoChunks_no_configuration_check (text : Str) (chunkSize overlap : Nat)
    (hcs : 1 ≤ chunkSize) (_hov : chunkSize ≤ overlap) :
    ∃ initial, splitText chunkSize overlap (text.length + 1) text separators = some initial ∧
      splitTextIntoChunks text chunkSize overlap = some (postProcess initial) :=
  splitTextIntoChunks_isSome text chunkSize overlap hcs

theorem splitTextIntoChunks_no_configuration_check_witness :
    ∃ initial, splitText 3 7 (("ab cd ef".toList).length + 1) "ab cd ef".toList separators
        = some initial ∧
      splitTextIntoChunks "ab cd ef".toList 3 7 = some (postProcess initial) :=
  splitTextIntoChunks_no_configuration_check _ 3 7 (by decide) (by decide)

/-- C6: with `chunkSize ≥ 1`, the remainder after a hard cut and every piece of a split
into several pieces are strictly shorter than the text, and so `splitText` returns: any
call-stack depth above the length of the text gives one and the same chunk list. -/
theorem splitText_terminates (text : Str) (chunkSize overlap : Nat) (seps : List Str)
    (hcs : 1 ≤ chunkSize) :
    (chunkSize < text.length → (text.drop chunkSize).length < text.length) ∧
    (∀ sep, sep ≠ [] → 1 < (jsSplit text sep).length →
      ∀ p ∈ jsSplit text sep, p.length < text.length) ∧
    (∀ fuel, text.length < fuel → ∃ chunks,
      splitText chunkSize overlap fuel text seps = some chunks ∧
      splitText chunkSize overlap (text.length + 1) text seps = some chunks) := by
  refine ⟨?_, ?_, ?_⟩
  · intro h
    simp only [List.length_drop]; omega
  · intro sep hne h2 p hp
    exact jsSplit_piece_lt text sep hne h2 hp
  · intro fuel hf
    exact splitTextWith_fuel_irrelevant jsTrim chunkSize overlap hcs text seps fuel hf

theorem splitText_terminates_witness :
    (2 < ("ab, cd. ef".toList).length →
      (("ab, cd. ef".toList).drop 2).length < ("ab, cd. ef".toList).length) ∧
    (∀ sep, sep ≠ [] → 1 < (jsSplit "ab, cd. ef".toList sep).length →
      ∀ p ∈ jsSplit "ab, cd. ef".toList sep, p.length < ("ab, cd. ef".toList).length) ∧
    (∀ fuel, ("ab, cd. ef".toList).length < fuel → ∃ chunks,
      splitText 2 1 fuel "ab, cd. ef".toList separators = some chunks ∧
      splitText 2 1 (("ab, cd. ef".toList).length + 1) "ab, cd. ef".toList separators
        = some chunks) :=
  splitText_terminates _ 2 1 separators (by decide)

/-! ## Length of the chunks -/

theorem sliceLast_length_le (n : Nat) (s : Str) : (sliceLast n s).length ≤ n := by
  simp only [sliceLast, List.length_drop]; omega

theorem getD_length_le {R : List Str} {B : Nat} (hB : ∀ c ∈ R, c.length ≤ B) (i : Nat) :
    (R.getD i []).length ≤ B := by
  by_cases hi : i < R.length
  · rw [List.getD_eq_getElem _ _ hi]
    exact hB _ (List.getElem_mem _)
  · rw [List.getD_eq_default _ _ (by omega)]
    simp

theorem overlapAt_length_le (trimF : Str → Str) (htrim : ∀ s, (trimF s).length ≤ s.length)
    (overlap : Nat) (R : List Str) (B : Nat) (hB : ∀ c ∈ R, c.length ≤ B) (i : Nat) :
    (overlapAt trimF overlap R i).length ≤ B + 2 * overlap := by
  unfold overlapAt
  refine (htrim _).trans ?_
  have h0 := getD_length_le hB i
  have h1 := sliceLast_length_le overlap (R.getD (i - 1) [])
  have h2 : ((R.getD (i + 1) []).take overlap).length ≤ overlap := by
    simp only [List.length_take]; omega
  split <;> split <;> (try simp only [List.length_append]) <;> omega

theorem applyOverlap_length_le (trimF : Str → Str) (htrim : ∀ s, (trimF s).length ≤ s.length)
    (overlap : Nat) (R : List Str) (B : Nat) (hB : ∀ c ∈ R, c.length ≤ B) :
    ∀ c ∈ applyOverlap trimF overlap R, c.length ≤ B + 2 * overlap := by
  intro c hc
  obtain ⟨i, -, rfl⟩ := List.mem_map.1 hc
  exact overlapAt_length_le trimF htrim overlap R B hB i

theorem finishPass_length_le (trimF : Str → Str) (htrim : ∀ s, (trimF s).length ≤ s.length)
    (overlap : Nat) (result : List Str) (cur : Str) (B : Nat)
    (hB : ∀ c ∈ result, c.length ≤ B) (hcur : cur.length ≤ B) :
    ∀ c ∈ finishPass trimF overlap result cur, c.length ≤ B + 2 * overlap := by
  have hR : ∀ c ∈ (if cur ≠ [] then result ++ [trimF cur] else result), c.length ≤ B := by
    intro c hc
    split at hc
    · rcases List.mem_append.1 hc with h | h
      · exact hB c h
      · rw [List.mem_singleton.1 h]; exact (htrim _).trans hcur
    · exact hB c hc
  intro c hc
  unfold finishPass at hc
  simp only at hc
  generalize (if cur ≠ [] then result ++ [trimF cur] else result) = R at hR hc
  split at hc
  · exact applyOverlap_length_le trimF htrim overlap _ B hR c hc
  · exact (hR c hc).trans (Nat.le_add_right _ _)

theorem packSplits_length_le (trimF : Str → Str) (htrim : ∀ s, (trimF s).length ≤ s.length)
    (chunkSize : Nat) (separator : Str) (recur : Str → Option (List Str)) (B : Nat)
    (hrec : ∀ p r, recur p = some r → ∀ c ∈ r, c.length ≤ B)
    (hsep : chunkSize + separator.length ≤ B) (splits : List Str) :
    ∀ (result : List Str) (cur : Str) (R : List Str) (cur' : Str),
      (∀ c ∈ result, c.length ≤ B) → cur.length ≤ chunkSize + separator.length →
      packSplits trimF chunkSize separator recur splits result cur = some (R, cur') →
      (∀ c ∈ R, c.length ≤ B) ∧ cur'.length ≤ chunkSize + separator.length := by
  induction splits with
  | nil =>
    intro result cur R cur' hres hcur h
    simp only [packSplits, Option.some.injEq, Prod.mk.injEq] at h
    obtain ⟨rfl, rfl⟩ := h
    exact ⟨hres, hcur⟩
  | cons s rest ih =>
    intro result cur R cur' hres hcur h
    simp only [packSplits] at h
    have hsta : (if rest = [] then [] else separator).length ≤ separator.length := by
      split <;> simp
    generalize (if rest = [] then [] else separator) = sta at h hsta
    have hres1 : ∀ c ∈ (if cur ≠ [] then result ++ [trimF cur] else result), c.length ≤ B := by
      intro c hc
      split at hc
      · rcases List.mem_append.1 hc with h' | h'
        · exact hres c h'
        · rw [List.mem_singleton.1 h']; exact ((htrim _).trans hcur).trans hsep
      · exact hres c hc
    by_cases h1 : (cur ++ s ++ sta).length ≤ chunkSize
    · simp only [h1, if_true] at h
      exact ih _ _ R cur' hres (h1.trans (Nat.le_add_right _ _)) h
    · simp only [h1, if_false] at h
      by_cases hlen : s.length > chunkSize
      · simp only [hlen, if_true] at h
        cases hr : recur s with
        | none => rw [hr] at h; cases h
        | some sub =>
          rw [hr] at h
          refine ih _ _ R cur' ?_ hcur h
          intro c hc
          rcases List.mem_append.1 hc with h' | h'
          · exact hres1 c h'
          · exact hrec s sub hr c h'
      · simp only [hlen, if_false] at h
        refine ih _ _ R cur' hres1 ?_ h
        simp only [List.length_append]; omega

theorem hardCut_length_le (chunkSize : Nat) (recurSame : Str → Option (List Str)) (text : Str)
    (B : Nat) (hB : chunkSize ≤ B)
    (hs : ∀ r, recurSame (text.drop chunkSize) = some r → ∀ c ∈ r, c.length ≤ B)
    (out : List Str) (h : hardCut chunkSize recurSame text = some out) :
    ∀ c ∈ out, c.length ≤ B := by
  unfold hardCut at h
  cases hr : recurSame (text.drop chunkSize) with
  | none => rw [hr] at h; cases h
  | some r =>
    rw [hr] at h
    simp only [Option.map_some', Option.some.injEq] at h
    subst h
    intro c hc
    rcases List.mem_cons.1 hc with rfl | hc
    · simp only [List.length_take]; omega
    · exact hs r hr c hc

theorem trySeparators_length_le (trimF : Str → Str) (htrim : ∀ s, (trimF s).length ≤ s.length)
    (chunkSize overlap : Nat) (recurSame recurFiner : Str → Option (List Str)) (text : Str)
    (m Bf B : Nat)
    (hs : ∀ r, recurSame (text.drop chunkSize) = some r → ∀ c ∈ r, c.length ≤ B)
    (hf : ∀ p r, recurFiner p = some r → ∀ c ∈ r, c.length ≤ Bf)
    (hB0 : chunkSize ≤ B) (hB1 : chunkSize + m ≤ Bf) (hB2 : Bf + 2 * overlap ≤ B)
    (seps : List Str) (hm : ∀ s ∈ seps, s.length ≤ m) (out : List Str)
    (h : trySeparators trimF chunkSize overlap recurSame recurFiner text seps = some out) :
    ∀ c ∈ out, c.length ≤ B := by
  induction seps with
  | nil => exact hardCut_length_le chunkSize recurSame text B hB0 hs out h
  | cons sep rest ih =>
    simp only [trySeparators] at h
    by_cases hne : sep = []
    · simp only [hne, if_true] at h
      exact hardCut_length_le chunkSize recurSame text B hB0 hs out h
    · simp only [hne, if_false] at h
      by_cases h2 : (jsSplit text sep).length > 1
      · simp only [h2, if_true] at h
        have hsl := hm sep (List.mem_cons_self _ _)
        cases hp : packSplits trimF chunkSize sep recurFiner (jsSplit text sep) [] [] with
        | none => rw [hp] at h; cases h
        | some pr =>
          obtain ⟨R, cur'⟩ := pr
          rw [hp] at h
          simp only [Option.some.injEq] at h
          subst h
          have := packSplits_length_le trimF htrim chunkSize sep recurFiner Bf hf (by omega)
            (jsSplit text sep) [] [] R cur' (by simp) (by simp) hp
          intro c hc
          exact (finishPass_length_le trimF htrim overlap R cur' Bf this.1 (by omega) c hc).trans
            hB2
      · simp only [h2, if_false] at h
        exact ih (fun s hs' => hm s (List.mem_cons_of_mem _ hs')) h

theorem passDepth_cons_ne (s : Str) (tl : List Str) (h : s ≠ []) :
    passDepth (s :: tl) = passDepth tl + 1 := by
  simp [passDepth, List.filter, h]

theorem passDepth_cons_nil (tl : List Str) : passDepth ([] :: tl) = passDepth tl := by
  simp [passDepth, List.filter]

/-- Every chunk of `splitText` is at most `chunkSize`, plus one trailing separator, plus
one overlap on each side for every packing pass that can nest. -/
theorem splitTextWith_length_le (trimF : Str → Str) (htrim : ∀ s, (trimF s).length ≤ s.length)
    (chunkSize overlap m : Nat) :
    ∀ (fuel : Nat) (text : Str) (seps : List Str) (out : List Str),
      (∀ s ∈ seps, s.length ≤ m) →
      splitTextWith trimF chunkSize overlap fuel text seps = some out →
      ∀ c ∈ out, c.length ≤ chunkSize + m + 2 * overlap * passDepth seps := by
  intro fuel
  induction fuel with
  | zero => intro text seps out _ h; simp [splitTextWith] at h
  | succ n ih =>
    intro text seps out hm h
    rw [splitTextWith] at h
    by_cases hsmall : text.length ≤ chunkSize
    · simp only [hsmall, if_true, Option.some.injEq] at h
      subst h
      intro c hc
      rw [List.mem_singleton.1 hc]
      omega
    · simp only [hsmall, if_false] at h
      have hs : ∀ r, splitTextWith trimF chunkSize overlap n (text.drop chunkSize) seps = some r →
          ∀ c ∈ r, c.length ≤ chunkSize + m + 2 * overlap * passDepth seps :=
        fun r hr => ih _ seps r hm hr
      cases seps with
      | nil =>
        simp only [trySeparators] at h
        exact hardCut_length_le chunkSize _ text _ (by omega) hs out h
      | cons s tl =>
        by_cases hne : s = []
        · subst hne
          simp only [trySeparators, if_true] at h
          exact hardCut_length_le chunkSize _ text _ (by omega) hs out h
        · have hf : ∀ p r, splitTextWith trimF chunkSize overlap n p ((s :: tl).drop 1) = some r →
              ∀ c ∈ r, c.length ≤ chunkSize + m + 2 * overlap * passDepth tl :=
            fun p r hr => ih p tl r (fun x hx => hm x (List.mem_cons_of_mem _ hx)) hr
          refine trySeparators_length_le trimF htrim chunkSize overlap _ _ text m
            (chunkSize + m + 2 * overlap * passDepth tl) _ hs hf (by omega) (by omega) ?_
            (s :: tl) hm out h
          rw [passDepth_cons_ne s tl hne, Nat.mul_add]
          omega

theorem separators_length_le : ∀ s ∈ separators, s.length ≤ 2 := by decide

theorem passDepth_separators : passDepth separators = 8 := by decide

set_option maxRecDepth 100000 in
/-- C3, counterexample: with `chunkSize = 51` and `overlap = 0` a chunk keeps the comma of
its separator and has 52 code units; with `overlap = 5` the chunks of the inner sentence
pass receive overlap again in the paragraph pass, and one has 72 > 51 + 2 * 5 code units. -/
theorem splitTextIntoChunks_exceeds_chunkSize_plus_two_overlaps :
    (0 < 51 ∧ ∃ chunks, splitTextIntoChunks commaExample 51 0 = some chunks ∧
      ∃ c ∈ chunks, 51 + 2 * 0 < c.length) ∧
    (5 < 51 ∧ ∃ chunks, splitTextIntoChunks nestedExample 51 5 = some chunks ∧
      chunks.map List.length = [62, 72, 66, 56] ∧ ∃ c ∈ chunks, 51 + 2 * 5 < c.length) := by
  refine ⟨⟨by decide, (splitTextIntoChunks commaExample 51 0).getD [], ?_, ?_⟩,
    ⟨by decide, (splitTextIntoChunks nestedExample 51 5).getD [], ?_, ?_, ?_⟩⟩ <;> decide

/-- C3, as the code behaves: every returned chunk has at most
`chunkSize + 2 + 16 * overlap` code units: a chunk may keep the separator (at most 2 code
units) that follows its last piece, and each of the 8 nested packing passes may add
`overlap` code units on each side. -/
theorem splitTextIntoChunks_length_le (text : Str) (chunkSize overlap : Nat)
    (hcs : 1 ≤ chunkSize) :
    ∃ chunks, splitTextIntoChunks text chunkSize overlap = some chunks ∧
      ∀ c ∈ chunks, c.length ≤ chunkSize + 2 + 16 * overlap := by
  obtain ⟨initial, hinit, h⟩ := splitTextIntoChunks_isSome text chunkSize overlap hcs
  refine ⟨_, h, ?_⟩
  intro c hc
  unfold postProcess at hc
  obtain ⟨x, hx, rfl⟩ := List.mem_map.1 hc
  have hx' := (List.mem_filter.1 hx).1
  have := splitTextWith_length_le jsTrim jsTrim_length_le chunkSize overlap 2 _ text separators
    initial separators_length_le hinit x hx'
  rw [passDepth_separators] at this
  have h2 := jsTrim_length_le x
  omega

theorem splitTextIntoChunks_length_le_witness :
    ∃ chunks, splitTextIntoChunks commaExample 51 7 = some chunks ∧
      ∀ c ∈ chunks, c.length ≤ 51 + 2 + 16 * 7 :=
  splitTextIntoChunks_length_le commaExample 51 7 (by decide)

/-! ## Overlap between neighbouring chunks -/

theorem isPrefix_jsTrim_append {X : Str} (hne : X ≠ []) (hX : IsTrimmed X) (Y : Str) :
    X <+: jsTrim (X ++ Y) := by
  have hstart : jsTrimStart (X ++ Y) = X ++ Y := by
    apply jsTrimStart_eq_self
    intro c hc
    apply hX.1
    cases X with
    | nil => exact absurd rfl hne
    | cons a t => simpa using hc
  have hrev : (X.reverse).dropWhile isJsWhitespace = X.reverse := by
    have := jsTrimEnd_eq_self hX.2
    unfold jsTrimEnd at this
    have h2 := congrArg List.reverse this
    simpa using h2
  unfold jsTrim
  rw [hstart]
  unfold jsTrimEnd
  rw [List.reverse_append, List.dropWhile_append]
  split
  · rw [hrev, List.reverse_reverse]
  · rw [List.reverse_append, List.reverse_reverse]
    exact List.prefix_append _ _

theorem trySeparators_skip (trimF : Str → Str) (chunkSize overlap : Nat)
    (recurSame recurFiner : Str → Option (List Str)) (text : Str) (pre : List Str)
    (hpre : ∀ s ∈ pre, s ≠ [] ∧ (jsSplit text s).length ≤ 1) (rest : List Str) :
    trySeparators trimF chunkSize overlap recurSame recurFiner text (pre ++ rest)
      = trySeparators trimF chunkSize overlap recurSame recurFiner text rest := by
  induction pre with
  | nil => rfl
  | cons s tl ih =>
    have h := hpre s (List.mem_cons_self _ _)
    have hlen : ¬ (jsSplit text s).length > 1 := by omega
    simp only [List.cons_append, trySeparators, h.1, if_false, hlen]
    exact ih (fun x hx => hpre x (List.mem_cons_of_mem _ hx))

theorem getElem?_applyOverlap (trimF : Str → Str) (overlap : Nat) (R : List Str) (i : Nat)
    (hi : i < R.length) :
    (applyOverlap trimF overlap R)[i]? = some (overlapAt trimF overlap R i) := by
  simp [applyOverlap, List.getElem?_range hi]

theorem length_applyOverlap (trimF : Str → Str) (overlap : Nat) (R : List Str) :
    (applyOverlap trimF overlap R).length = R.length := by
  simp [applyOverlap]

set_option maxRecDepth 100000 in
/-- C4, counterexample: with `chunkSize = 60` and `overlap = 2` the paragraph pass has the
pre-overlap chunks `a…a y` and `b…b` (the output for overlap 0); the last 2 code units
of the first are a space and `y`, and the second returned chunk starts with `yb`, the
space being trimmed away. -/
theorem splitTextIntoChunks_overlap_suffix_trimmed :
    splitTextIntoChunks spaceSuffixExample 60 0
      = some [List.replicate 50 'a' ++ [' ', 'y'], List.replicate 52 'b'] ∧
    splitTextIntoChunks spaceSuffixExample 60 2
      = some [List.replicate 50 'a' ++ [' ', 'y', 'b', 'b'], 'y' :: List.replicate 52 'b'] ∧
    sliceLast (min 2 52) (List.replicate 50 'a' ++ [' ', 'y']) = [' ', 'y'] ∧
    ¬ ([' ', 'y'] <+: 'y' :: List.replicate 52 'b') := by
  refine ⟨by decide, by decide, by decide, by decide⟩

/-- C4, as the code behaves: in a packing pass of `splitText` (the text is longer than
`chunkSize` and `sep` is the first separator that splits it) that leaves at least two
pre-overlap chunks `R`, with `overlap > 0`, the chunk returned at index `i > 0` is the
trim of: the last `min(overlap, length)` code units of `R[i-1]`, then `R[i]`, then the
first `overlap` code units of `R[i+1]` when there is one. It starts with that suffix of
`R[i-1]` whenever the suffix is non-empty and neither starts nor ends with whitespace. -/
theorem splitText_pass_overlap (chunkSize overlap fuel : Nat) (text : Str)
    (pre post : List Str) (sep : Str) (result : List Str) (cur : Str)
    (hov : 0 < overlap) (hlong : chunkSize < text.length)
    (hpre : ∀ s ∈ pre, s ≠ [] ∧ (jsSplit text s).length ≤ 1)
    (hsep : sep ≠ []) (hsplit : 1 < (jsSplit text sep).length)
    (hpack : packSplits jsTrim chunkSize sep
      (fun t => splitText chunkSize overlap fuel t ((pre ++ sep :: post).drop 1))
      (jsSplit text sep) [] [] = some (result, cur))
    (R : List Str) (hR : R = if cur ≠ [] then result ++ [jsTrim cur] else result)
    (hlen : 1 < R.length) :
    ∃ out, splitText chunkSize overlap (fuel + 1) text (pre ++ sep :: post) = some out ∧
      out.length = R.length ∧
      ∀ i, 0 < i → i < R.length →
        ∃ c, out[i]? = some c ∧
          c = jsTrim (sliceLast overlap (R.getD (i - 1) []) ++ R.getD i [] ++
            (if i < R.length - 1 then (R.getD (i + 1) []).take overlap else [])) ∧
          (sliceLast overlap (R.getD (i - 1) []) ≠ [] →
            IsTrimmed (sliceLast overlap (R.getD (i - 1) [])) →
            sliceLast overlap (R.getD (i - 1) []) <+: c) := by
  have hout : splitText chunkSize overlap (fuel + 1) text (pre ++ sep :: post)
      = some (applyOverlap jsTrim overlap R) := by
    have hl : ¬ text.length ≤ chunkSize := by omega
    unfold splitText at hpack ⊢
    rw [splitTextWith]
    simp only [hl, if_false]
    rw [trySeparators_skip _ _ _ _ _ _ pre hpre, trySeparators]
    simp only [hsep, if_false, hsplit, if_true, gt_iff_lt]
    rw [hpack]
    simp only [finishPass, ← hR, hlen, if_true, gt_iff_lt]
  refine ⟨_, hout, length_applyOverlap _ _ _, ?_⟩
  intro i hi0 hi
  refine ⟨_, getElem?_applyOverlap jsTrim overlap R i hi, ?_, ?_⟩
  · simp only [overlapAt, hi0, hov, and_self, if_true, and_true]
    split <;> simp
  · intro hne htr
    simp only [overlapAt, hi0, hov, and_self, if_true, and_true]
    split
    · rw [List.append_assoc]; exact isPrefix_jsTrim_append hne htr _
    · exact isPrefix_jsTrim_append hne htr _

theorem splitText_pass_overlap_witness :
    ∃ out, splitText 2 1 (5 + 1) ['a', 'b', ' ', 'c', 'd'] (separators.take 7 ++ [' '] :: [[]])
        = some out ∧
      out.length = [['a', 'b'], ['c', 'd']].length ∧
      ∀ i, 0 < i → i < [['a', 'b'], ['c', 'd']].length →
        ∃ c, out[i]? = some c ∧
          c = jsTrim (sliceLast 1 ([['a', 'b'], ['c', 'd']].getD (i - 1) []) ++
            [['a', 'b'], ['c', 'd']].getD i [] ++
            (if i < [['a', 'b'], ['c', 'd']].length - 1
              then ([['a', 'b'], ['c', 'd']].getD (i + 1) []).take 1 else [])) ∧
          (sliceLast 1 ([['a', 'b'], ['c', 'd']].getD (i - 1) []) ≠ [] →
            IsTrimmed (sliceLast 1 ([['a', 'b'], ['c', 'd']].getD (i - 1) [])) →
            sliceLast 1 ([['a', 'b'], ['c', 'd']].getD (i - 1) []) <+: c) :=
  splitText_pass_overlap 2 1 5 ['a', 'b', ' ', 'c', 'd'] (separators.take 7) [[]] [' ']
    [['a', 'b']] ['c', 'd'] (by decide) (by decide) (by decide) (by decide) (by decide)
    (by decide) [['a', 'b'], ['c', 'd']] (by decide) (by decide)

/-! ## How much of the text the chunks cover -/

theorem packedLength_eq (separator : Str) (l : List Str) (hl : l ≠ []) :
    packedLength separator l + separator.length = totalLength l + l.length * separator.length := by
  induction l with
  | nil => exact absurd rfl hl
  | cons a t ih =>
    cases t with
    | nil => simp [packedLength]
    | cons b t' =>
      have := ih (by simp)
      simp only [packedLength, totalLength_cons, List.length_cons, if_false,
        reduceCtorEq, Nat.add_mul, Nat.one_mul] at this ⊢
      omega

theorem packedLength_jsSplit (text sep : Str) (hsep : sep ≠ []) :
    packedLength sep (jsSplit text sep) = text.length := by
  have h1 := jsSplit_totalLength text sep hsep
  have hne : jsSplit text sep ≠ [] := by
    simp only [jsSplit, hsep, if_false]
    exact jsSplitAux_ne_nil _ _ _ _
  have h2 := packedLength_eq sep _ hne
  omega

theorem applyOverlap_id_zero (R : List Str) : applyOverlap id 0 R = R := by
  apply List.ext_getElem?
  intro i
  by_cases hi : i < R.length
  · rw [getElem?_applyOverlap id 0 R i hi]
    simp [overlapAt, List.getD_eq_getElem _ _ hi, hi]
  · have h1 : R.length ≤ i := by omega
    rw [List.getElem?_eq_none h1, List.getElem?_eq_none]
    rw [length_applyOverlap]; exact h1

theorem finishPass_id_zero (result : List Str) (cur : Str) :
    finishPass id 0 result cur = if cur ≠ [] then result ++ [cur] else result := by
  unfold finishPass
  simp only [applyOverlap_id_zero, id, ite_self]

/-- Accounting of the packing loop without trimming: what is in `result` and in the buffer
at the end covers what was there at the start and every piece visited, up to `W` code
units for each chunk pushed. -/
theorem packSplits_covers (chunkSize : Nat) (separator : Str)
    (recur : Str → Option (List Str)) (W₀ W : Nat) (hW : W₀ + separator.length ≤ W)
    (hrec : ∀ p r, recur p = some r → 1 ≤ r.length ∧ p.length ≤ totalLength r + r.length * W₀)
    (splits : List Str) :
    ∀ (result : List Str) (cur : Str) (R : List Str) (cur' : Str),
      packSplits id chunkSize separator recur splits result cur = some (R, cur') →
      totalLength result + cur.length + result.length * W + packedLength separator splits
        ≤ totalLength R + cur'.length + R.length * W := by
  induction splits with
  | nil =>
    intro result cur R cur' h
    simp only [packSplits, Option.some.injEq, Prod.mk.injEq] at h
    obtain ⟨rfl, rfl⟩ := h
    simp [packedLength]
  | cons s rest ih =>
    intro result cur R cur' h
    simp only [packSplits] at h
    simp only [packedLength]
    have hsta : (if rest = [] then [] else separator).length ≤ separator.length := by
      split <;> simp
    generalize (if rest = [] then [] else separator) = sta at h hsta ⊢
    by_cases h1 : (cur ++ s ++ sta).length ≤ chunkSize
    · simp only [h1, if_true] at h
      have := ih _ _ R cur' h
      simp only [List.length_append] at this
      omega
    · simp only [h1, if_false] at h
      have hres1 : totalLength result + cur.length + result.length * W
          ≤ totalLength (if cur ≠ [] then result ++ [id cur] else result)
            + (if cur ≠ [] then result ++ [id cur] else result).length * W := by
        split
        · simp only [totalLength_append, totalLength_cons, totalLength_nil, id,
            List.length_append, List.length_singleton, Nat.add_mul]
          omega
        · rename_i hc
          have : cur = [] := by simpa using hc
          simp [this]
      generalize (if cur ≠ [] then result ++ [id cur] else result) = result1 at h hres1
      by_cases hlen : s.length > chunkSize
      · simp only [hlen, if_true] at h
        cases hr : recur s with
        | none => rw [hr] at h; cases h
        | some sub =>
          rw [hr] at h
          have := ih _ _ R cur' h
          obtain ⟨hsub1, hsub2⟩ := hrec s sub hr
          simp only [totalLength_append, List.length_append, Nat.add_mul] at this
          have hmul : sub.length * W₀ + separator.length ≤ sub.length * W := by
            calc sub.length * W₀ + separator.length
                ≤ sub.length * W₀ + sub.length * separator.length := by
                  have : 1 * separator.length ≤ sub.length * separator.length :=
                    Nat.mul_le_mul_right _ hsub1
                  omega
              _ = sub.length * (W₀ + separator.length) := by rw [Nat.mul_add]
              _ ≤ sub.length * W := Nat.mul_le_mul_left _ hW
          omega
      · simp only [hlen, if_false] at h
        have := ih _ _ R cur' h
        simp only [List.length_append] at this
        omega

theorem hardCut_covers (chunkSize : Nat) (recurSame : Str → Option (List Str)) (text : Str)
    (W : Nat)
    (hs : ∀ r, recurSame (text.drop chunkSize) = some r →
      1 ≤ r.length ∧ (text.drop chunkSize).length ≤ totalLength r + r.length * W)
    (out : List Str) (h : hardCut chunkSize recurSame text = some out) :
    1 ≤ out.length ∧ text.length ≤ totalLength out + out.length * W := by
  unfold hardCut at h
  cases hr : recurSame (text.drop chunkSize) with
  | none => rw [hr] at h; cases h
  | some r =>
    rw [hr] at h
    simp only [Option.map_some', Option.some.injEq] at h
    subst h
    obtain ⟨h1, h2⟩ := hs r hr
    simp only [List.length_cons, totalLength_cons, List.length_take, List.length_drop,
      Nat.add_mul] at h2 ⊢
    omega

theorem trySeparators_covers (chunkSize : Nat) (recurSame recurFiner : Str → Option (List Str))
    (text : Str) (hlong : chunkSize < text.length) (m W₀ W : Nat) (hW : W₀ + m ≤ W)
    (hs : ∀ r, recurSame (text.drop chunkSize) = some r →
      1 ≤ r.length ∧ (text.drop chunkSize).length ≤ totalLength r + r.length * W)
    (hf : ∀ p r, recurFiner p = some r → 1 ≤ r.length ∧ p.length ≤ totalLength r + r.length * W₀)
    (seps : List Str) (hm : ∀ s ∈ seps, s.length ≤ m) (out : List Str)
    (h : trySeparators id chunkSize 0 recurSame recurFiner text seps = some out) :
    1 ≤ out.length ∧ text.length ≤ totalLength out + out.length * W := by
  induction seps with
  | nil => exact hardCut_covers chunkSize recurSame text W hs out h
  | cons sep rest ih =>
    simp only [trySeparators] at h
    by_cases hne : sep = []
    · simp only [hne, if_true] at h
      exact hardCut_covers chunkSize recurSame text W hs out h
    · simp only [hne, if_false] at h
      by_cases h2 : (jsSplit text sep).length > 1
      · simp only [h2, if_true] at h
        have hsl := hm sep (List.mem_cons_self _ _)
        cases hp : packSplits id chunkSize sep recurFiner (jsSplit text sep) [] [] with
        | none => rw [hp] at h; cases h
        | some pr =>
          obtain ⟨R, cur'⟩ := pr
          rw [hp] at h
          simp only [Option.some.injEq] at h
          subst h
          have hc := packSplits_covers chunkSize sep recurFiner W₀ W (by omega) hf
            (jsSplit text sep) [] [] R cur' hp
          rw [packedLength_jsSplit text sep hne] at hc
          simp only [totalLength_nil, List.length_nil, Nat.zero_mul, Nat.zero_add,
            Nat.add_zero] at hc
          have key : text.length ≤ totalLength (finishPass id 0 R cur')
              + (finishPass id 0 R cur').length * W := by
            rw [finishPass_id_zero]
            split
            · simp only [totalLength_append, totalLength_cons, totalLength_nil,
                List.length_append, List.length_singleton, Nat.add_mul]
              omega
            · rename_i hc'
              have : cur' = [] := by simpa using hc'
              simp only [this, List.length_nil] at hc
              omega
          refine ⟨?_, key⟩
          cases hfp : finishPass id 0 R cur' with
          | nil =>
            rw [hfp] at key
            simp only [totalLength_nil, List.length_nil, Nat.zero_mul] at key
            omega
          | cons a t => simp
      · simp only [h2, if_false] at h
        exact ih (fun s hs' => hm s (List.mem_cons_of_mem _ hs')) h

/-- Without trimming and without overlap, the chunks of `splitText` cover the text up to
one separator for each chunk and each packing pass that can nest. -/
theorem splitTextWith_covers (chunkSize m : Nat) :
    ∀ (fuel : Nat) (text : Str) (seps : List Str) (out : List Str),
      (∀ s ∈ seps, s.length ≤ m) →
      splitTextWith id chunkSize 0 fuel text seps = some out →
      1 ≤ out.length ∧ text.length ≤ totalLength out + out.length * (m * passDepth seps) := by
  intro fuel
  induction fuel with
  | zero => intro text seps out _ h; simp [splitTextWith] at h
  | succ n ih =>
    intro text seps out hm h
    rw [splitTextWith] at h
    by_cases hsmall : text.length ≤ chunkSize
    · simp only [hsmall, if_true, Option.some.injEq] at h
      subst h
      simp
    · simp only [hsmall, if_false] at h
      have hs : ∀ r, splitTextWith id chunkSize 0 n (text.drop chunkSize) seps = some r →
          1 ≤ r.length ∧
            (text.drop chunkSize).length ≤ totalLength r + r.length * (m * passDepth seps) :=
        fun r hr => ih _ seps r hm hr
      cases seps with
      | nil =>
        simp only [trySeparators] at h
        exact hardCut_covers chunkSize _ text _ hs out h
      | cons s tl =>
        by_cases hne : s = []
        · subst hne
          simp only [trySeparators, if_true] at h
          exact hardCut_covers chunkSize _ text _ hs out h
        · have hf : ∀ p r, splitTextWith id chunkSize 0 n p ((s :: tl).drop 1) = some r →
              1 ≤ r.length ∧ p.length ≤ totalLength r + r.length * (m * passDepth tl) :=
            fun p r hr => ih p tl r (fun x hx => hm x (List.mem_cons_of_mem _ hx)) hr
          refine trySeparators_covers chunkSize _ _ text (by omega) m (m * passDepth tl) _ ?_
            hs hf (s :: tl) hm out h
          rw [passDepth_cons_ne s tl hne, Nat.mul_add]
          omega

set_option maxRecDepth 100000 in
/-- C7, counterexample: with `chunkSize = 51`, a text of 58 code units gives, before
trimming and overlap, the 2 chunks `a…a` (51) and `a`: 52 code units in all, fewer than
58 - 2 * 2, whichever separator length (0, 1 or 2) is taken for `m`. -/
theorem splitText_raw_loses_nested_separators :
    trailingSeparatorsExample.length = 58 ∧
    splitTextWith id 51 0 (trailingSeparatorsExample.length + 1) trailingSeparatorsExample
      separators = some [List.replicate 51 'a', ['a']] ∧
    totalLength [List.replicate 51 'a', ['a']] + [List.replicate 51 'a', ['a']].length * 2
      < trailingSeparatorsExample.length := by
  refine ⟨by decide, by decide, by decide⟩

/-- C7, as the code behaves: for `chunkSize ≥ 1` the chunks of `splitText`, taken before
trimming and without overlap, have total length at least `len(text) - 16 * n` for `n`
chunks: the separator behind an oversized piece (at most 2 code units) is dropped in
each of the up to 8 nested packing passes, and nothing else is. -/
theorem splitText_raw_total_length (text : Str) (chunkSize : Nat) (hcs : 1 ≤ chunkSize) :
    ∃ out, splitTextWith id chunkSize 0 (text.length + 1) text separators = some out ∧
      1 ≤ out.length ∧ text.length ≤ totalLength out + 16 * out.length := by
  obtain ⟨out, h, -⟩ := splitTextWith_fuel_irrelevant id chunkSize 0 hcs text separators
    (text.length + 1) (Nat.lt_succ_self _)
  refine ⟨out, h, ?_⟩
  have := splitTextWith_covers chunkSize 2 _ text separators out separators_length_le h
  rw [passDepth_separators] at this
  omega

theorem splitText_raw_total_length_witness :
    ∃ out, splitTextWith id 51 0 (trailingSeparatorsExample.length + 1)
        trailingSeparatorsExample separators = some out ∧
      1 ≤ out.length ∧ trailingSeparatorsExample.length ≤ totalLength out + 16 * out.length :=
  splitText_raw_total_length trailingSeparatorsExample 51 (by decide)

/-! ## Splitting a text whose separators are known -/

theorem jsSplitAux_cons_zero (sep : Str) (c : Char) (cs cur : Str) :
    jsSplitAux sep (c :: cs) 0 cur
      = if sep.isPrefixOf (c :: cs) then cur.reverse :: jsSplitAux sep cs (sep.length - 1) []
        else jsSplitAux sep cs 0 (c :: cur) := by
  rw [jsSplitAux]

theorem jsSplitAux_skip (sep pre rest cur : Str) :
    jsSplitAux sep (pre ++ rest) pre.length cur = jsSplitAux sep rest 0 cur := by
  induction pre with
  | nil => rfl
  | cons a t ih => simpa [jsSplitAux] using ih

theorem jsSplitAux_no_match (sep : Str) (A rest : Str)
    (h : ∀ s, s ≠ [] → s <:+ A → ¬ sep <+: s ++ rest) (cur : Str) :
    jsSplitAux sep (A ++ rest) 0 cur = jsSplitAux sep rest 0 (A.reverse ++ cur) := by
  induction A generalizing cur with
  | nil => rfl
  | cons a t ih =>
    have h0 : ¬ sep.isPrefixOf (a :: (t ++ rest)) = true := by
      rw [List.isPrefixOf_iff_prefix]
      exact h (a :: t) (by simp) (List.suffix_refl _)
    rw [List.cons_append, jsSplitAux_cons_zero, if_neg h0,
      ih (fun s hs hsuf => h s hs (hsuf.trans (List.suffix_cons _ _)))]
    simp

theorem jsSplitAux_at_separator (sep rest cur : Str) (hsep : sep ≠ []) :
    jsSplitAux sep (sep ++ rest) 0 cur = cur.reverse :: jsSplitAux sep rest 0 [] := by
  cases sep with
  | nil => exact absurd rfl hsep
  | cons c t =>
    have h0 : (c :: t).isPrefixOf (c :: (t ++ rest)) = true := by
      rw [List.isPrefixOf_iff_prefix]
      exact List.prefix_append (c :: t) rest
    rw [List.cons_append, jsSplitAux_cons_zero, if_pos h0, List.length_cons,
      Nat.add_sub_cancel, jsSplitAux_skip]

/-- A trimmed, non-empty text without paragraph break holds no position at which a
paragraph break starts, whether it is followed by a paragraph break or by nothing. -/
theorem no_paragraphBreak_match {A : Str} (hne : A ≠ []) (hA : IsTrimmed A)
    (hno : NoParagraphBreak A) (rest : Str) (hrest : rest = [] ∨ ∃ r, rest = paragraphBreak ++ r) :
    ∀ s, s ≠ [] → s <:+ A → ¬ paragraphBreak <+: s ++ rest := by
  intro s hs hsuf hpre
  cases s with
  | nil => exact hs rfl
  | cons c s' =>
    cases s' with
    | nil =>
      have hlast : A.getLast? = some c := by
        obtain ⟨u, rfl⟩ := hsuf
        simp
      have hc := hA.2 c hlast
      have : c = '\n' := by
        rcases hrest with rfl | ⟨r, rfl⟩
        · have := hpre.length_le
          simp [paragraphBreak] at this
        · obtain ⟨t, ht⟩ := hpre
          simp only [paragraphBreak, List.cons_append, List.nil_append, List.cons.injEq] at ht
          exact ht.1.symm
      rw [this] at hc
      exact absurd hc (by decide)
    | cons c' s'' =>
      apply hno
      obtain ⟨t, ht⟩ := hpre
      simp only [paragraphBreak, List.cons_append, List.nil_append, List.cons.injEq] at ht
      obtain ⟨h1, h2, -⟩ := ht
      subst h1 h2
      obtain ⟨u, rfl⟩ := hsuf
      exact ⟨u, s'', by simp [paragraphBreak]⟩

theorem jsSplit_three_paragraphs {A B C : Str} (hA : A ≠ [] ∧ IsTrimmed A ∧ NoParagraphBreak A)
    (hB : B ≠ [] ∧ IsTrimmed B ∧ NoParagraphBreak B)
    (hC : C ≠ [] ∧ IsTrimmed C ∧ NoParagraphBreak C) :
    jsSplit (A ++ paragraphBreak ++ B ++ paragraphBreak ++ C) paragraphBreak = [A, B, C] := by
  have hpb : paragraphBreak ≠ [] := by simp [paragraphBreak]
  have e : A ++ paragraphBreak ++ B ++ paragraphBreak ++ C
      = A ++ (paragraphBreak ++ (B ++ (paragraphBreak ++ (C ++ [])))) := by simp
  rw [e]
  simp only [jsSplit, hpb, if_false]
  rw [jsSplitAux_no_match _ A _ (no_paragraphBreak_match hA.1 hA.2.1 hA.2.2 _ (Or.inr ⟨_, rfl⟩)),
    jsSplitAux_at_separator _ _ _ hpb,
    jsSplitAux_no_match _ B _ (no_paragraphBreak_match hB.1 hB.2.1 hB.2.2 _ (Or.inr ⟨_, rfl⟩)),
    jsSplitAux_at_separator _ _ _ hpb,
    jsSplitAux_no_match _ C _ (no_paragraphBreak_match hC.1 hC.2.1 hC.2.2 _ (Or.inl rfl))]
  simp [jsSplitAux]

/-! ## Trimming around a trimmed text -/

theorem jsTrimStart_append_trimmed {M : Str} (hne : M ≠ []) (hM : IsTrimmed M) (X Z : Str) :
    ∃ X', jsTrimStart (X ++ (M ++ Z)) = X' ++ (M ++ Z) := by
  unfold jsTrimStart
  rw [List.dropWhile_append]
  split
  · refine ⟨[], ?_⟩
    have : jsTrimStart (M ++ Z) = M ++ Z := by
      apply jsTrimStart_eq_self
      intro c hc
      apply hM.1
      cases M with
      | nil => exact absurd rfl hne
      | cons a t => simpa using hc
    simpa [jsTrimStart] using this
  · exact ⟨_, rfl⟩

theorem jsTrimEnd_append_trimmed {M : Str} (hne : M ≠ []) (hM : IsTrimmed M) (X Z : Str) :
    ∃ Z', jsTrimEnd (X ++ (M ++ Z)) = X ++ (M ++ Z') := by
  have hrev : IsTrimmed M.reverse :=
    ⟨fun c hc => hM.2 c (by simpa [List.head?_reverse] using hc),
     fun c hc => hM.1 c (by simpa [List.getLast?_reverse] using hc)⟩
  obtain ⟨Z', hZ⟩ := jsTrimStart_append_trimmed (M := M.reverse) (by simpa using hne) hrev
    Z.reverse X.reverse
  refine ⟨Z'.reverse, ?_⟩
  unfold jsTrimEnd
  have e : (X ++ (M ++ Z)).reverse = Z.reverse ++ (M.reverse ++ X.reverse) := by simp
  rw [e]
  unfold jsTrimStart at hZ
  rw [hZ]
  simp

theorem length_le_jsTrim_around {M : Str} (hne : M ≠ []) (hM : IsTrimmed M) (X Z : Str) :
    M.length ≤ (jsTrim (X ++ (M ++ Z))).length := by
  obtain ⟨X', hX⟩ := jsTrimStart_append_trimmed hne hM X Z
  obtain ⟨Z', hZ⟩ := jsTrimEnd_append_trimmed hne hM X' Z
  unfold jsTrim
  rw [hX, hZ]
  simp only [List.length_append]
  omega

theorem jsTrim_append_paragraphBreak {A : Str} (hne : A ≠ []) (hA : IsTrimmed A) :
    jsTrim (A ++ paragraphBreak) = A := by
  have hstart : jsTrimStart (A ++ paragraphBreak) = A ++ paragraphBreak := by
    apply jsTrimStart_eq_self
    intro c hc
    apply hA.1
    cases A with
    | nil => exact absurd rfl hne
    | cons a t => simpa using hc
  have hrev : (A.reverse).dropWhile isJsWhitespace = A.reverse := by
    have := jsTrimEnd_eq_self hA.2
    unfold jsTrimEnd at this
    have h2 := congrArg List.reverse this
    simpa using h2
  unfold jsTrim
  rw [hstart]
  unfold jsTrimEnd
  rw [List.reverse_append, List.dropWhile_append_of_pos (by decide), hrev, List.reverse_reverse]

theorem isTrimmed_replicate (n : Nat) (c : Char) (hc : isJsWhitespace c = false) :
    IsTrimmed (List.replicate n c) := by
  constructor
  · intro x hx
    have : x ∈ List.replicate n c := List.mem_of_mem_head? hx
    rw [(List.mem_replicate.1 this).2]; exact hc
  · intro x hx
    have : x ∈ List.replicate n c := List.mem_of_mem_getLast? hx
    rw [(List.mem_replicate.1 this).2]; exact hc

theorem noParagraphBreak_replicate (n : Nat) (c : Char) (hc : c ≠ '\n') :
    NoParagraphBreak (List.replicate n c) := by
  intro h
  have : '\n' ∈ List.replicate n c := h.subset (by simp [paragraphBreak])
  exact hc (List.mem_replicate.1 this).2.symm

/-! ## The three-paragraph scenario -/

theorem packSplits_cons_fit (trimF : Str → Str) (chunkSize : Nat) (separator : Str)
    (recur : Str → Option (List Str)) (s : Str) (rest result : List Str) (cur : Str)
    (h : (cur ++ s ++ (if rest = [] then [] else separator)).length ≤ chunkSize) :
    packSplits trimF chunkSize separator recur (s :: rest) result cur
      = packSplits trimF chunkSize separator recur rest result
          (cur ++ s ++ (if rest = [] then [] else separator)) := by
  rw [packSplits]; simp only [h, if_true]

theorem packSplits_cons_flush (trimF : Str → Str) (chunkSize : Nat) (separator : Str)
    (recur : Str → Option (List Str)) (s : Str) (rest result : List Str) (cur : Str)
    (h : ¬ (cur ++ s ++ (if rest = [] then [] else separator)).length ≤ chunkSize)
    (hs : ¬ s.length > chunkSize) :
    packSplits trimF chunkSize separator recur (s :: rest) result cur
      = packSplits trimF chunkSize separator recur rest
          (if cur ≠ [] then result ++ [trimF cur] else result)
          (s ++ (if rest = [] then [] else separator)) := by
  rw [packSplits]; simp only [h, hs, if_false]

/-- The pre-overlap chunks of the three-paragraph scenario are the three paragraphs. -/
theorem packSplits_three_paragraphs (recur : Str → Option (List Str)) {A B C : Str}
    (hA : A ≠ [] ∧ IsTrimmed A) (hB : B ≠ [] ∧ IsTrimmed B)
    (hlA : A.length ≤ 998) (hlB : B.length ≤ 998) (hlC : C.length ≤ 998)
    (hAB : 1000 < (A ++ paragraphBreak ++ B).length)
    (hBC : 1000 < (B ++ paragraphBreak ++ C).length) :
    packSplits jsTrim 1000 paragraphBreak recur [A, B, C] [] [] = some ([A, B], C) := by
  have hpl : paragraphBreak.length = 2 := rfl
  simp only [List.length_append, hpl] at hAB hBC
  rw [packSplits_cons_fit _ _ _ _ _ _ _ _ (by simp [hpl]; omega)]
  rw [packSplits_cons_flush _ _ _ _ _ _ _ _ (by simp [hpl]; omega) (by omega)]
  rw [packSplits_cons_flush _ _ _ _ _ _ _ _ (by simp [hpl]; omega) (by omega)]
  have e1 : jsTrim (A ++ paragraphBreak) = A := jsTrim_append_paragraphBreak hA.1 hA.2
  have e2 : jsTrim (B ++ paragraphBreak) = B := jsTrim_append_paragraphBreak hB.1 hB.2
  have n1 : (A ++ paragraphBreak : Str) ≠ [] := by simp [paragraphBreak]
  have n2 : (B ++ paragraphBreak : Str) ≠ [] := by simp [paragraphBreak]
  rw [packSplits]
  simp only [reduceCtorEq, if_false, if_true, List.nil_append, List.append_nil,
    List.cons_ne_nil]
  rw [if_pos n1, if_pos n2, e1, e2]
  rfl

theorem applyOverlap_three (trimF : Str → Str) (overlap : Nat) (hov : 0 < overlap) (A B C : Str) :
    applyOverlap trimF overlap [A, B, C]
      = [trimF (A ++ B.take overlap), trimF (sliceLast overlap A ++ B ++ C.take overlap),
          trimF (sliceLast overlap B ++ C)] := by
  simp [applyOverlap, List.range_succ, overlapAt, hov]

/-- C8: for a text `A ¶ B ¶ C` (¶ the paragraph break) whose paragraphs hold no paragraph
break, are trimmed, have between 201 and 998 code units, and where neither `A ¶ B` nor
`B ¶ C` fits in 1000 code units, `splitTextIntoChunks(text, 1000, 200)` returns exactly the
3 chunks `trim(A + B[0:200])`, `trim(A[-200:] + B + C[0:200])`, `trim(B[-200:] + C)`, each
of at most 1400 code units. -/
theorem splitTextIntoChunks_three_paragraphs (A B C : Str)
    (hA : IsTrimmed A ∧ NoParagraphBreak A ∧ 201 ≤ A.length ∧ A.length ≤ 998)
    (hB : IsTrimmed B ∧ NoParagraphBreak B ∧ 201 ≤ B.length ∧ B.length ≤ 998)
    (hC : IsTrimmed C ∧ NoParagraphBreak C ∧ 201 ≤ C.length ∧ C.length ≤ 998)
    (hAB : 1000 < (A ++ paragraphBreak ++ B).length)
    (hBC : 1000 < (B ++ paragraphBreak ++ C).length) :
    splitTextIntoChunks (A ++ paragraphBreak ++ B ++ paragraphBreak ++ C) 1000 200
      = some [jsTrim (A ++ B.take 200), jsTrim (sliceLast 200 A ++ B ++ C.take 200),
          jsTrim (sliceLast 200 B ++ C)] ∧
    (jsTrim (A ++ B.take 200)).length ≤ 1400 ∧
    (jsTrim (sliceLast 200 A ++ B ++ C.take 200)).length ≤ 1400 ∧
    (jsTrim (sliceLast 200 B ++ C)).length ≤ 1400 := by
  obtain ⟨tA, nA, lA, uA⟩ := hA
  obtain ⟨tB, nB, lB, uB⟩ := hB
  obtain ⟨tC, nC, lC, uC⟩ := hC
  have neA : A ≠ [] := by intro h; rw [h] at lA; simp at lA
  have neB : B ≠ [] := by intro h; rw [h] at lB; simp at lB
  have neC : C ≠ [] := by intro h; rw [h] at lC; simp at lC
  have hsplit := jsSplit_three_paragraphs ⟨neA, tA, nA⟩ ⟨neB, tB, nB⟩ ⟨neC, tC, nC⟩
  have hlong : ¬ (A ++ paragraphBreak ++ B ++ paragraphBreak ++ C).length ≤ 1000 := by
    simp only [List.length_append] at hAB ⊢; omega
  have hpack := fun recur => packSplits_three_paragraphs recur ⟨neA, tA⟩ ⟨neB, tB⟩ uA uB uC hAB hBC
  have htC : jsTrim C = C := jsTrim_eq_self tC
  have hinit : splitText 1000 200 ((A ++ paragraphBreak ++ B ++ paragraphBreak ++ C).length + 1)
      (A ++ paragraphBreak ++ B ++ paragraphBreak ++ C) separators
      = some [jsTrim (A ++ B.take 200), jsTrim (sliceLast 200 A ++ B ++ C.take 200),
          jsTrim (sliceLast 200 B ++ C)] := by
    unfold splitText
    rw [splitTextWith]
    simp only [hlong, if_false]
    have hseps : separators = paragraphBreak :: separators.tail := rfl
    rw [hseps, trySeparators]
    have hpb : paragraphBreak ≠ [] := by simp [paragraphBreak]
    simp only [hpb, if_false, hsplit, hpack, finishPass]
    rw [if_pos neC, htC]
    simp only [List.cons_append, List.nil_append, List.length_cons, List.length_nil]
    rw [applyOverlap_three _ _ (by decide)]
    simp only [Nat.zero_add, Nat.reduceAdd, gt_iff_lt, Nat.one_lt_ofNat, if_true]
  have b1 : (jsTrim (A ++ B.take 200)).length ≤ 1400 := by
    refine (jsTrim_length_le _).trans ?_
    simp only [List.length_append, List.length_take]; omega
  have b2 : (jsTrim (sliceLast 200 A ++ B ++ C.take 200)).length ≤ 1400 := by
    refine (jsTrim_length_le _).trans ?_
    have := sliceLast_length_le 200 A
    simp only [List.length_append, List.length_take]; omega
  have b3 : (jsTrim (sliceLast 200 B ++ C)).length ≤ 1400 := by
    refine (jsTrim_length_le _).trans ?_
    have := sliceLast_length_le 200 B
    simp only [List.length_append]; omega
  have g1 : 50 < (jsTrim (A ++ B.take 200)).length := by
    have := length_le_jsTrim_around neA tA [] (B.take 200)
    simp only [List.nil_append] at this
    omega
  have g2 : 50 < (jsTrim (sliceLast 200 A ++ B ++ C.take 200)).length := by
    have := length_le_jsTrim_around neB tB (sliceLast 200 A) (C.take 200)
    rw [← List.append_assoc] at this
    omega
  have g3 : 50 < (jsTrim (sliceLast 200 B ++ C)).length := by
    have := length_le_jsTrim_around neC tC (sliceLast 200 B) []
    rw [List.append_nil] at this
    omega
  refine ⟨?_, b1, b2, b3⟩
  unfold splitTextIntoChunks
  rw [hinit]
  simp only [Option.map_some', postProcess, List.filter, jsTrim_idem, g1, g2, g3,
    decide_True, List.map]

theorem splitTextIntoChunks_three_paragraphs_witness :
    splitTextIntoChunks (List.replicate 900 'a' ++ paragraphBreak ++ List.replicate 898 'b'
        ++ paragraphBreak ++ List.replicate 598 'c') 1000 200
      = some [jsTrim (List.replicate 900 'a' ++ (List.replicate 898 'b').take 200),
          jsTrim (sliceLast 200 (List.replicate 900 'a') ++ List.replicate 898 'b'
            ++ (List.replicate 598 'c').take 200),
          jsTrim (sliceLast 200 (List.replicate 898 'b') ++ List.replicate 598 'c')] ∧
    (jsTrim (List.replicate 900 'a' ++ (List.replicate 898 'b').take 200)).length ≤ 1400 ∧
    (jsTrim (sliceLast 200 (List.replicate 900 'a') ++ List.replicate 898 'b'
      ++ (List.replicate 598 'c').take 200)).length ≤ 1400 ∧
    (jsTrim (sliceLast 200 (List.replicate 898 'b') ++ List.replicate 598 'c')).length ≤ 1400 :=
  splitTextIntoChunks_three_paragraphs (List.replicate 900 'a') (List.replicate 898 'b')
    (List.replicate 598 'c')
    ⟨isTrimmed_replicate _ _ (by decide), noParagraphBreak_replicate _ _ (by decide),
      by simp only [List.length_replicate]; omega, by simp only [List.length_replicate]; omega⟩
    ⟨isTrimmed_replicate _ _ (by decide), noParagraphBreak_replicate _ _ (by decide),
      by simp only [List.length_replicate]; omega, by simp only [List.length_replicate]; omega⟩
    ⟨isTrimmed_replicate _ _ (by decide), noParagraphBreak_replicate _ _ (by decide),
      by simp only [List.length_replicate]; omega, by simp only [List.length_replicate]; omega⟩
    (by simp only [List.length_append, List.length_replicate, paragraphBreak, List.length_cons,
      List.length_nil]; omega)
    (by simp only [List.length_append, List.length_replicate, paragraphBreak, List.length_cons,
      List.length_nil]; omega)

/-! ## The map key determines the pair -/

theorem digitChar_value : ∀ k, k < 10 → (Nat.digitChar k).toNat - 48 = k := by decide

theorem digitChar_isDigit : ∀ k, k < 10 → (Nat.digitChar k).isDigit = true := by decide

theorem toDigitsCore_append (fuel : Nat) :
    ∀ (n : Nat) (ds : List Char),
      Nat.toDigitsCore 10 fuel n ds = Nat.toDigitsCore 10 fuel n [] ++ ds := by
  induction fuel with
  | zero => intro n ds; simp [Nat.toDigitsCore]
  | succ f ih =>
    intro n ds
    simp only [Nat.toDigitsCore]
    split
    · simp
    · rw [ih (n / 10) (Nat.digitChar (n % 10) :: ds), ih (n / 10) [Nat.digitChar (n % 10)]]
      simp

theorem digitsValue_toDigitsCore (fuel : Nat) :
    ∀ n, n < fuel → digitsValue (Nat.toDigitsCore 10 fuel n []) = n := by
  induction fuel with
  | zero => intro n h; omega
  | succ f ih =>
    intro n h
    simp only [Nat.toDigitsCore]
    split
    · rename_i h0
      have hn : n % 10 = n := by omega
      have := digitChar_value (n % 10) (Nat.mod_lt _ (by decide))
      rw [hn] at this
      simp [digitsValue, hn, this]
    · rename_i h0
      rw [toDigitsCore_append]
      have hlt : n / 10 < f := by omega
      have := ih (n / 10) hlt
      unfold digitsValue at this ⊢
      rw [List.foldl_append, this]
      simp only [List.foldl_cons, List.foldl_nil,
        digitChar_value (n % 10) (Nat.mod_lt _ (by decide))]
      omega

theorem isDigit_toDigitsCore (fuel : Nat) :
    ∀ (n : Nat) (ds : List Char), (∀ c ∈ ds, c.isDigit = true) →
      ∀ c ∈ Nat.toDigitsCore 10 fuel n ds, c.isDigit = true := by
  induction fuel with
  | zero => intro n ds h; simpa [Nat.toDigitsCore] using h
  | succ f ih =>
    intro n ds h
    have hd : ∀ c ∈ Nat.digitChar (n % 10) :: ds, c.isDigit = true := by
      intro c hc
      rcases List.mem_cons.1 hc with rfl | hc
      · exact digitChar_isDigit _ (Nat.mod_lt _ (by decide))
      · exact h c hc
    simp only [Nat.toDigitsCore]
    split
    · exact hd
    · exact ih _ _ hd

theorem repr_data (n : Nat) : (toString n).data = Nat.toDigits 10 n := rfl

theorem digitsValue_repr (n : Nat) : digitsValue (toString n).data = n := by
  rw [repr_data]
  exact digitsValue_toDigitsCore (n + 1) n (Nat.lt_succ_self _)

theorem isDigit_repr (n : Nat) : ∀ c ∈ (toString n).data, c.isDigit = true := by
  rw [repr_data]
  exact isDigit_toDigitsCore (n + 1) n [] (by simp)

theorem repr_ne_nil (n : Nat) : (toString n).data ≠ [] := by
  rw [repr_data]
  unfold Nat.toDigits
  simp only [Nat.toDigitsCore]
  split
  · simp
  · rw [toDigitsCore_append]; simp

theorem underscore_not_mem_pageString (p : Option Nat) : '_' ∉ (pageString p).data := by
  cases p with
  | none => decide
  | some n =>
    intro h
    have := isDigit_repr n '_' h
    exact absurd this (by decide)

theorem pageString_injective : Function.Injective pageString := by
  intro p q h
  cases p with
  | none =>
    cases q with
    | none => rfl
    | some n =>
      exfalso
      have hd : ∀ c ∈ (pageString none).data, c.isDigit = true := by
        rw [h]; exact isDigit_repr n
      exact absurd (hd 'u' (by decide)) (by decide)
  | some a =>
    cases q with
    | none =>
      exfalso
      have hd : ∀ c ∈ (pageString none).data, c.isDigit = true := by
        rw [← h]; exact isDigit_repr a
      exact absurd (hd 'u' (by decide)) (by decide)
    | some b =>
      have : digitsValue (toString a).data = digitsValue (toString b).data := by
        have h' : toString a = toString b := h
        rw [h']
      rw [digitsValue_repr, digitsValue_repr] at this
      rw [this]

theorem append_cons_inj_of_not_mem {α : Type} {x : α} :
    ∀ {a b p q : List α}, x ∉ p → x ∉ q → a ++ x :: p = b ++ x :: q → a = b ∧ p = q := by
  intro a b p q hp hq h
  have hr : p.reverse ++ x :: a.reverse = q.reverse ++ x :: b.reverse := by
    have := congrArg List.reverse h
    simpa using this
  have hp' : x ∉ p.reverse := by simpa using hp
  have hq' : x ∉ q.reverse := by simpa using hq
  have key : ∀ (u v s t : List α), x ∉ u → x ∉ v → u ++ x :: s = v ++ x :: t → u = v ∧ s = t := by
    intro u
    induction u with
    | nil =>
      intro v s t _ hv e
      cases v with
      | nil => simpa using e
      | cons c v' =>
        simp only [List.nil_append, List.cons_append, List.cons.injEq] at e
        exact absurd (e.1 ▸ List.mem_cons_self _ _) hv
    | cons c u' ih =>
      intro v s t hu hv e
      cases v with
      | nil =>
        simp only [List.nil_append, List.cons_append, List.cons.injEq] at e
        exact absurd (e.1 ▸ List.mem_cons_self _ _) hu
      | cons d v' =>
        simp only [List.cons_append, List.cons.injEq] at e
        obtain ⟨h1, h2⟩ := ih v' s t (fun hx => hu (List.mem_cons_of_mem _ hx))
          (fun hx => hv (List.mem_cons_of_mem _ hx)) e.2
        exact ⟨by rw [e.1, h1], h2⟩
  obtain ⟨h1, h2⟩ := key _ _ _ _ hp' hq' hr
  exact ⟨List.reverse_injective h2, List.reverse_injective h1⟩

/-- Two matches have the same map key exactly when they have the same file name and the
same page number. -/
theorem sourceKey_eq_iff {S : Type} (m₁ m₂ : Match S) :
    sourceKey m₁ = sourceKey m₂ ↔ matchPair m₁ = matchPair m₂ := by
  constructor
  · intro h
    have hd := congrArg String.data h
    simp only [sourceKey, String.data_append] at hd
    rw [List.append_assoc, List.append_assoc] at hd
    obtain ⟨h1, h2⟩ := append_cons_inj_of_not_mem (underscore_not_mem_pageString _)
      (underscore_not_mem_pageString _) hd
    have e1 : m₁.fileName = m₂.fileName := String.ext h1
    have e2 : m₁.pageNumber = m₂.pageNumber := pageString_injective (String.ext h2)
    simp [matchPair, e1, e2]
  · intro h
    simp only [matchPair, Prod.mk.injEq] at h
    simp [sourceKey, h.1, h.2]

theorem countP_sourceKey_eq {S : Type} (ms : List (Match S)) (m : Match S) :
    ms.countP (fun x => decide (sourceKey x = sourceKey m))
      = ms.countP (fun x => decide (matchPair x = matchPair m)) := by
  congr 1
  funext x
  simp only [sourceKey_eq_iff]

/-! ## The source map holds one entry for each group of matches -/

section Sources

variable {S : Type} [LinearOrder S]

theorem buildSourceMap_append (ms : List (Match S)) (m : Match S) :
    buildSourceMap (ms ++ [m]) = sourceMapVisit m (buildSourceMap ms) := by
  simp [buildSourceMap, List.foldl_append]

theorem keys_sourceMapVisit (m : Match S) (sm : List (String × Source S)) :
    (sourceMapVisit m sm).map Prod.fst
      = if sourceKey m ∈ sm.map Prod.fst then sm.map Prod.fst
        else sm.map Prod.fst ++ [sourceKey m] := by
  induction sm with
  | nil => simp [sourceMapVisit]
  | cons a rest ih =>
    obtain ⟨k, e⟩ := a
    simp only [sourceMapVisit]
    by_cases hk : k = sourceKey m
    · simp [hk]
    · have hk' : ¬ sourceKey m = k := fun h => hk h.symm
      simp only [hk, if_false, List.map_cons, ih, List.mem_cons, hk', false_or]
      split <;> simp

theorem mem_sourceMapVisit (m : Match S) (sm : List (String × Source S))
    (hnd : (sm.map Prod.fst).Nodup) (k : String) (s : Source S) :
    (k, s) ∈ sourceMapVisit m sm ↔
      (k ≠ sourceKey m ∧ (k, s) ∈ sm) ∨
      (k = sourceKey m ∧ ((∃ e, (k, e) ∈ sm ∧ s = bumpSource e m) ∨
        (k ∉ sm.map Prod.fst ∧ s = newSource m))) := by
  induction sm with
  | nil =>
    simp only [sourceMapVisit, List.mem_singleton, Prod.mk.injEq, List.not_mem_nil, and_false,
      false_or, List.map_nil, not_false_eq_true, true_and, exists_false, false_and]
  | cons a rest ih =>
    obtain ⟨k₀, e₀⟩ := a
    have hnd' : (rest.map Prod.fst).Nodup := (List.nodup_cons.1 hnd).2
    have hk₀ : k₀ ∉ rest.map Prod.fst := (List.nodup_cons.1 hnd).1
    have hk₀' : ∀ e, (k₀, e) ∉ rest := fun e he => hk₀ (List.mem_map.2 ⟨(k₀, e), he, rfl⟩)
    simp only [sourceMapVisit]
    by_cases h0 : k₀ = sourceKey m
    · simp only [h0, if_true, List.mem_cons, Prod.mk.injEq, List.map_cons]
      subst h0
      constructor
      · rintro (⟨rfl, rfl⟩ | h)
        · exact Or.inr ⟨rfl, Or.inl ⟨e₀, Or.inl ⟨rfl, rfl⟩, rfl⟩⟩
        · have hne : k ≠ sourceKey m := by
            rintro rfl; exact hk₀' s h
          exact Or.inl ⟨hne, Or.inr h⟩
      · rintro (⟨hne, (⟨h1, -⟩ | h)⟩ | ⟨rfl, (⟨e, (⟨-, rfl⟩ | he), rfl⟩ | ⟨hn, -⟩)⟩)
        · exact absurd h1 hne
        · exact Or.inr h
        · exact Or.inl ⟨rfl, rfl⟩
        · exact absurd he (hk₀' e)
        · exact absurd (Or.inl rfl) hn
    · simp only [h0, if_false, List.mem_cons, Prod.mk.injEq, List.map_cons, ih hnd']
      constructor
      · rintro (⟨rfl, rfl⟩ | ⟨hne, h⟩ | ⟨rfl, (⟨e, he, rfl⟩ | ⟨hn, rfl⟩)⟩)
        · exact Or.inl ⟨h0, Or.inl ⟨rfl, rfl⟩⟩
        · exact Or.inl ⟨hne, Or.inr h⟩
        · exact Or.inr ⟨rfl, Or.inl ⟨e, Or.inr he, rfl⟩⟩
        · refine Or.inr ⟨rfl, Or.inr ⟨?_, rfl⟩⟩
          rintro (h | h)
          · exact h0 h.symm
          · exact hn h
      · rintro (⟨hne, (⟨rfl, rfl⟩ | h)⟩ | ⟨rfl, (⟨e, (⟨h1, -⟩ | he), rfl⟩ | ⟨hn, rfl⟩)⟩)
        · exact Or.inl ⟨rfl, rfl⟩
        · exact Or.inr (Or.inl ⟨hne, h⟩)
        · exact absurd h1.symm h0
        · exact Or.inr (Or.inr ⟨rfl, Or.inl ⟨e, he, rfl⟩⟩)
        · refine Or.inr (Or.inr ⟨rfl, Or.inr ⟨fun h => hn (Or.inr h), rfl⟩⟩)

theorem sum_chunkCount_sourceMapVisit (m : Match S) (sm : List (String × Source S)) :
    ((sourceMapVisit m sm).map (fun e => e.2.chunkCount)).sum
      = (sm.map (fun e => e.2.chunkCount)).sum + 1 := by
  induction sm with
  | nil => simp [sourceMapVisit, newSource]
  | cons a rest ih =>
    obtain ⟨k, e⟩ := a
    simp only [sourceMapVisit]
    split
    · simp [bumpSource]; omega
    · simp only [List.map_cons, List.sum_cons, ih]; omega

theorem groupOK_append_other {ms : List (Match S)} {k : String} {s : Source S} (m : Match S)
    (hk : k ≠ sourceKey m) (h : GroupOK ms k s) : GroupOK (ms ++ [m]) k s := by
  obtain ⟨h1, ⟨x, hx, hxk, hxs⟩, h3, ⟨m₀, hf, h4⟩⟩ := h
  have hk' : ¬ sourceKey m = k := fun e => hk e.symm
  refine ⟨?_, ⟨x, List.mem_append_left _ hx, hxk, hxs⟩, ?_, ⟨m₀, ?_, h4⟩⟩
  · simp [List.countP_append, h1, hk']
  · intro y hy hyk
    rcases List.mem_append.1 hy with hy | hy
    · exact h3 y hy hyk
    · rw [List.mem_singleton.1 hy] at hyk; exact absurd hyk hk'
  · simp [List.find?_append, hf]

theorem groupOK_append_bump {ms : List (Match S)} {e : Source S} (m : Match S)
    (h : GroupOK ms (sourceKey m) e) : GroupOK (ms ++ [m]) (sourceKey m) (bumpSource e m) := by
  obtain ⟨h1, ⟨x, hx, hxk, hxs⟩, h3, ⟨m₀, hf, h4⟩⟩ := h
  refine ⟨?_, ?_, ?_, ⟨m₀, ?_, h4⟩⟩
  · simp [List.countP_append, h1, bumpSource]
  · by_cases hgt : m.score > e.score
    · exact ⟨m, by simp, rfl, by simp [bumpSource, hgt]⟩
    · exact ⟨x, List.mem_append_left _ hx, hxk, by simp [bumpSource, hgt, hxs]⟩
  · intro y hy hyk
    have hmax : e.score ≤ (bumpSource e m).score ∧ m.score ≤ (bumpSource e m).score := by
      by_cases hgt : m.score > e.score
      · simp [bumpSource, hgt, le_of_lt hgt]
      · simp [bumpSource, hgt, not_lt.1 hgt]
    rcases List.mem_append.1 hy with hy | hy
    · exact (h3 y hy hyk).trans hmax.1
    · rw [List.mem_singleton.1 hy]; exact hmax.2
  · simp [List.find?_append, hf]

theorem groupOK_append_new {ms : List (Match S)} (m : Match S)
    (h : ∀ x ∈ ms, sourceKey x ≠ sourceKey m) :
    GroupOK (ms ++ [m]) (sourceKey m) (newSource m) := by
  have hc : ms.countP (fun x => decide (sourceKey x = sourceKey m)) = 0 := by
    rw [List.countP_eq_zero]
    intro x hx
    simpa using h x hx
  have hf : ms.find? (fun x => decide (sourceKey x = sourceKey m)) = none := by
    rw [List.find?_eq_none]
    intro x hx
    simpa using h x hx
  refine ⟨?_, ⟨m, by simp, rfl, rfl⟩, ?_, ⟨m, ?_, rfl, rfl, rfl, rfl⟩⟩
  · simp [List.countP_append, hc, newSource]
  · intro y hy hyk
    rcases List.mem_append.1 hy with hy | hy
    · exact absurd hyk (h y hy)
    · rw [List.mem_singleton.1 hy]; exact le_refl _
  · simp [List.find?_append, hf]

/-- The source map after the `forEach`: its keys are pairwise distinct, every entry is
the aggregate of the matches with its key, and every match has its key in the map. -/
theorem buildSourceMap_spec (ms : List (Match S)) :
    ((buildSourceMap ms).map Prod.fst).Nodup ∧
    (∀ k s, (k, s) ∈ buildSourceMap ms → GroupOK ms k s) ∧
    (∀ m ∈ ms, sourceKey m ∈ (buildSourceMap ms).map Prod.fst) := by
  induction ms using List.reverseRecOn with
  | nil => simp [buildSourceMap]
  | append_singleton ms m ih =>
    obtain ⟨hnd, hok, hcov⟩ := ih
    rw [buildSourceMap_append]
    refine ⟨?_, ?_, ?_⟩
    · rw [keys_sourceMapVisit]
      split
      · exact hnd
      · rename_i hn
        exact List.Nodup.append hnd (List.nodup_singleton _) (by simpa using hn)
    · intro k s hks
      rcases (mem_sourceMapVisit m _ hnd k s).1 hks with
        ⟨hne, h⟩ | ⟨rfl, (⟨e, he, rfl⟩ | ⟨hn, rfl⟩)⟩
      · exact groupOK_append_other m hne (hok k s h)
      · exact groupOK_append_bump m (hok _ e he)
      · exact groupOK_append_new m (fun x hx hxk => hn (hxk ▸ hcov x hx))
    · intro x hx
      rw [keys_sourceMapVisit]
      rcases List.mem_append.1 hx with hx | hx
      · split
        · exact hcov x hx
        · exact List.mem_append_left _ (hcov x hx)
      · rw [List.mem_singleton.1 hx]
        split
        · assumption
        · simp

theorem sum_chunkCount_buildSourceMap (ms : List (Match S)) :
    ((buildSourceMap ms).map (fun e => e.2.chunkCount)).sum = ms.length := by
  induction ms using List.reverseRecOn with
  | nil => simp [buildSourceMap]
  | append_singleton ms m ih =>
    rw [buildSourceMap_append, sum_chunkCount_sourceMapVisit, ih]
    simp

theorem toSource_chatSources (ms : List (Match S)) :
    (chatSources ms).map DisplaySource.toSource
      = ((buildSourceMap ms).map Prod.snd).insertionSort scoreOrder := by
  simp [chatSources, Function.comp_def]

theorem toSource_chatSources_perm (ms : List (Match S)) :
    ((chatSources ms).map DisplaySource.toSource).Perm ((buildSourceMap ms).map Prod.snd) := by
  rw [toSource_chatSources]
  exact List.perm_insertionSort _ _

theorem mem_chatSources {ms : List (Match S)} {d : DisplaySource S} (h : d ∈ chatSources ms) :
    ∃ k, (k, d.toSource) ∈ buildSourceMap ms := by
  have h1 : d.toSource ∈ (chatSources ms).map DisplaySource.toSource :=
    List.mem_map.2 ⟨d, h, rfl⟩
  have h2 := (toSource_chatSources_perm ms).subset h1
  obtain ⟨⟨k, s⟩, hks, rfl⟩ := List.mem_map.1 h2
  exact ⟨k, hks⟩

theorem length_buildSourceMap (ms : List (Match S)) :
    (buildSourceMap ms).length = ((ms.map matchPair).dedup).length := by
  obtain ⟨hnd, hok, hcov⟩ := buildSourceMap_spec ms
  have hset : ((buildSourceMap ms).map Prod.fst).toFinset
      = ((ms.map matchPair).toFinset).image
          (fun p : String × Option Nat => p.1 ++ "_" ++ pageString p.2) := by
    ext k
    simp only [List.mem_toFinset, Finset.mem_image, List.mem_map]
    constructor
    · rintro ⟨⟨k', s⟩, hks, rfl⟩
      obtain ⟨-, ⟨x, hx, hxk, -⟩, -⟩ := hok k' s hks
      exact ⟨matchPair x, ⟨x, hx, rfl⟩, hxk⟩
    · rintro ⟨p, ⟨x, hx, rfl⟩, rfl⟩
      exact List.mem_map.1 (hcov x hx)
  have hinj : Function.Injective
      (fun p : String × Option Nat => p.1 ++ "_" ++ pageString p.2) := by
    intro p q hpq
    have := (sourceKey_eq_iff (S := Unit)
      ⟨p.1, "", p.2, none, "", "", ()⟩ ⟨q.1, "", q.2, none, "", "", ()⟩).1 hpq
    simpa [matchPair, Prod.ext_iff] using this
  have h1 : (buildSourceMap ms).length = ((buildSourceMap ms).map Prod.fst).toFinset.card := by
    rw [List.toFinset_card_of_nodup hnd, List.length_map]
  rw [h1, hset, Finset.card_image_of_injective _ hinj, List.card_toFinset]

/-! ## The sources of the response -/

theorem exampleMatches_keys : exampleMatches.map sourceKey = ["A_1", "A_1", "B_2"] := by decide

theorem chatSources_exampleMatches :
    (chatSources exampleMatches).map (fun d => (d.fileName, d.pageNumber, d.chunkCount, d.score))
      = [("A", 1, 2, 9 / 10), ("B", 2, 1, 8 / 10)] := by
  have hk := exampleMatches_keys
  simp only [exampleMatches, List.map_cons, List.map_nil, List.cons.injEq, and_true] at hk
  obtain ⟨k1, k2, k3⟩ := hk
  have hne : ("A_1" : String) ≠ "B_2" := by decide
  simp [chatSources, buildSourceMap, exampleMatches, sourceMapVisit, k1, k2, k3, hne, newSource,
    bumpSource, orOne, List.insertionSort, List.orderedInsert, scoreOrder]
  norm_num

theorem chatSources_exampleMatches_reverse :
    (chatSources exampleMatches.reverse).map (fun d => (d.fileName, d.chunkCount, d.score))
      = [("A", 2, 9 / 10), ("B", 1, 8 / 10)] := by
  have hk := exampleMatches_keys
  simp only [exampleMatches, List.map_cons, List.map_nil, List.cons.injEq, and_true] at hk
  obtain ⟨k1, k2, k3⟩ := hk
  have hne : ("A_1" : String) ≠ "B_2" := by decide
  have hne' : ("B_2" : String) ≠ "A_1" := by decide
  simp [chatSources, buildSourceMap, exampleMatches, sourceMapVisit, k1, k2, k3, hne, hne',
    newSource, bumpSource, orOne, List.insertionSort, List.orderedInsert, scoreOrder]
  norm_num

/-- C9: the sources of the chat response are the groups of matches with the same
`(fileName, pageNumber)`: the source map has one entry for each distinct pair (its keys
are pairwise distinct, two matches share a key exactly when they share the pair, and
every match finds its entry), the sources are the entries of the map in some order, the
`chunkCount` of an entry is the number of matches of its group, and the counts add up to
the number of matches. On the example A/1/0.9, A/1/0.7, B/2/0.8 there are exactly two
sources, with `chunkCount` 2 and 1. -/
theorem chatSources_groups (ms : List (Match S)) :
    (chatSources ms).length = ((ms.map matchPair).dedup).length ∧
    ((buildSourceMap ms).map Prod.fst).Nodup ∧
    (∀ m₁ m₂ : Match S, sourceKey m₁ = sourceKey m₂ ↔ matchPair m₁ = matchPair m₂) ∧
    ((chatSources ms).map DisplaySource.toSource).Perm ((buildSourceMap ms).map Prod.snd) ∧
    (∀ m ∈ ms, ∃ s, (sourceKey m, s) ∈ buildSourceMap ms ∧
      s.chunkCount = ms.countP (fun x => decide (matchPair x = matchPair m))) ∧
    (∀ k s, (k, s) ∈ buildSourceMap ms → ∃ m ∈ ms, sourceKey m = k ∧
      s.fileName = m.fileName ∧ s.pageNumber = orOne m.pageNumber ∧
      s.chunkCount = ms.countP (fun x => decide (matchPair x = matchPair m))) ∧
    ((chatSources ms).map (fun d => d.chunkCount)).sum = ms.length ∧
    (chatSources exampleMatches).map (fun d => (d.fileName, d.pageNumber, d.chunkCount))
      = [("A", 1, 2), ("B", 2, 1)] := by
  obtain ⟨hnd, hok, hcov⟩ := buildSourceMap_spec ms
  refine ⟨?_, hnd, sourceKey_eq_iff, toSource_chatSources_perm ms, ?_, ?_, ?_, ?_⟩
  · rw [← length_buildSourceMap]
    simp [chatSources]
  · intro m hm
    obtain ⟨⟨k, s⟩, hks, hk⟩ := List.mem_map.1 (hcov m hm)
    simp only at hk
    subst hk
    exact ⟨s, hks, by rw [(hok _ s hks).1, countP_sourceKey_eq]⟩
  · intro k s hks
    obtain ⟨h1, -, -, ⟨m₀, hf, h4, h5, -⟩⟩ := hok k s hks
    have hm₀ : m₀ ∈ ms := List.mem_of_find?_eq_some hf
    have hk₀ : sourceKey m₀ = k := by simpa using List.find?_some hf
    refine ⟨m₀, hm₀, hk₀, h4, h5, ?_⟩
    rw [h1, ← hk₀, countP_sourceKey_eq]
  · have hp := (toSource_chatSources_perm ms).map (fun s : Source S => s.chunkCount)
    have := hp.sum_eq
    simp only [List.map_map] at this
    rw [← sum_chunkCount_buildSourceMap ms]
    simpa [Function.comp_def] using this
  · have := congrArg (List.map (fun t : String × Nat × Nat × ℚ => (t.1, t.2.1, t.2.2.1)))
      chatSources_exampleMatches
    simpa [Function.comp_def] using this

/-- C10: the score of every source of the chat response is the highest score of the
matches of its group: it is the score of one of them and no match of the group has a
higher one. On the example in reverse order (B/2/0.8, A/1/0.7, A/1/0.9) the source of
A/1 has score 0.9, which is neither the first seen (0.7) nor the average (0.8). -/
theorem chatSources_score_max (ms : List (Match S)) :
    (∀ d ∈ chatSources ms, ∃ m₀ ∈ ms,
      d.fileName = m₀.fileName ∧ d.pageNumber = orOne m₀.pageNumber ∧
      (∃ m ∈ ms, matchPair m = matchPair m₀ ∧ m.score = d.score) ∧
      (∀ m ∈ ms, matchPair m = matchPair m₀ → m.score ≤ d.score)) ∧
    (chatSources exampleMatches.reverse).map (fun d => (d.fileName, d.chunkCount, d.score))
      = [("A", 2, 9 / 10), ("B", 1, 8 / 10)] := by
  refine ⟨?_, chatSources_exampleMatches_reverse⟩
  intro d hd
  obtain ⟨k, hks⟩ := mem_chatSources hd
  obtain ⟨-, ⟨x, hx, hxk, hxs⟩, hmax, ⟨m₀, hf, h4, h5, -⟩⟩ := (buildSourceMap_spec ms).2.1 k _ hks
  have hm₀ : m₀ ∈ ms := List.mem_of_find?_eq_some hf
  have hk₀ : sourceKey m₀ = k := by simpa using List.find?_some hf
  refine ⟨m₀, hm₀, h4, h5, ⟨x, hx, ?_, hxs⟩, ?_⟩
  · exact (sourceKey_eq_iff x m₀).1 (hxk.trans hk₀.symm)
  · intro m hm hp
    exact hmax m hm (((sourceKey_eq_iff m m₀).2 hp).trans hk₀)

end Sources

/-! ## Order of the sources, excerpts and context -/

section Response

variable {S : Type} [LinearOrder S]

instance scoreOrder_isTotal : IsTotal (Source S) scoreOrder :=
  ⟨fun a b => le_total b.score a.score⟩

instance scoreOrder_isTrans : IsTrans (Source S) scoreOrder :=
  ⟨fun _ _ _ hab hbc => le_trans hbc hab⟩

/-- C11: the sources of the chat response are in non-increasing order of score, whatever
the order of the matches, and they are the entries of the source map (the groups built
from the matches), each exactly once, with the `displayName` built from the entry. On the
example the source of A (0.9) comes before the source of B (0.8). -/
theorem chatSources_sorted_perm (ms : List (Match S)) :
    ((chatSources ms).map (fun d => d.score)).Pairwise (fun x y => y ≤ x) ∧
    ((chatSources ms).map DisplaySource.toSource).Perm ((buildSourceMap ms).map Prod.snd) ∧
    (∀ d ∈ chatSources ms, d.displayName = displayName d.toSource) ∧
    (chatSources exampleMatches).map (fun d => (d.fileName, d.score))
      = [("A", 9 / 10), ("B", 8 / 10)] := by
  refine ⟨?_, toSource_chatSources_perm ms, ?_, ?_⟩
  · have hs : List.Sorted scoreOrder (((buildSourceMap ms).map Prod.snd).insertionSort scoreOrder) :=
      List.sorted_insertionSort scoreOrder _
    rw [← toSource_chatSources] at hs
    have h2 : (chatSources ms).map (fun d => d.score)
        = ((chatSources ms).map DisplaySource.toSource).map (fun s => s.score) := by
      simp [Function.comp_def]
    rw [h2, List.pairwise_map]
    exact hs
  · intro d hd
    simp only [chatSources, List.mem_map] at hd
    obtain ⟨s, -, rfl⟩ := hd
    rfl
  · have := congrArg (List.map (fun t : String × Nat × Nat × ℚ => (t.1, t.2.2.2)))
      chatSources_exampleMatches
    simpa [Function.comp_def] using this

omit [LinearOrder S] in
/-- C12: the excerpts are the first `min(3, n)` matches in their order, one excerpt for
each of them whether or not two share a page: the excerpt at position `i` has the
`fileName`, `fileId`, `pageNumber`, text and score of the match at position `i`, and
rank `i + 1`. Of the six matches of the doubled example the first three are kept, the
two of page A/1 both among them. -/
theorem topSourceExcerpts_spec (ms : List (Match S)) :
    (topSourceExcerpts ms).length = min 3 ms.length ∧
    (∀ (i : Nat) (h : i < (topSourceExcerpts ms).length) (hm : i < ms.length),
      (topSourceExcerpts ms)[i] =
        { fileName := ms[i].fileName
          fileId := ms[i].fileId
          pageNumber := ms[i].pageNumber
          excerpt := ms[i].text
          score := ms[i].score
          rank := i + 1 }) ∧
    (topSourceExcerpts (exampleMatches ++ exampleMatches)).map
        (fun e => (e.fileName, e.pageNumber, e.excerpt, e.rank))
      = [("A", some 1, "first", 1), ("A", some 1, "second", 2), ("B", some 2, "third", 3)] := by
  refine ⟨by simp [topSourceExcerpts], ?_, by decide⟩
  intro i h hm
  simp [topSourceExcerpts, List.getElem_mapIdx, List.getElem_take]

theorem jsJoin_cons_cons (sep x y : String) (rest : List String) :
    jsJoin sep (x :: y :: rest) = x ++ sep ++ jsJoin sep (y :: rest) := by
  have key : ∀ (l : List String) (a b : String),
      l.foldl (fun r z => r ++ sep ++ z) (a ++ b) = a ++ l.foldl (fun r z => r ++ sep ++ z) b := by
    intro l
    induction l with
    | nil => intro a b; rfl
    | cons z t ih =>
      intro a b
      simp only [List.foldl_cons]
      rw [String.append_assoc, String.append_assoc, ih, String.append_assoc]
  simp only [jsJoin, List.foldl_cons]
  rw [String.append_assoc, key, key, String.append_assoc]

theorem jsJoin_eq_contextSpec (l : List String) : jsJoin "\n\n" l = contextSpec l := by
  induction l with
  | nil => rfl
  | cons x t ih =>
    cases t with
    | nil => rfl
    | cons y rest => rw [jsJoin_cons_cons, ih, contextSpec]

theorem length_contextSpec (l : List String) :
    (contextSpec l).length = (l.map String.length).sum + 2 * (l.length - 1) := by
  induction l with
  | nil => rfl
  | cons x t ih =>
    cases t with
    | nil => simp [contextSpec]
    | cons y rest =>
      rw [contextSpec, String.length_append, String.length_append]
      have h2 : ("\n\n" : String).length = 2 := rfl
      simp only [List.map_cons, List.sum_cons, List.length_cons] at ih ⊢
      omega

theorem intercalate_go_eq_foldl (sep : String) (l : List String) :
    ∀ acc, String.intercalate.go acc sep l = l.foldl (fun r y => r ++ sep ++ y) acc := by
  induction l with
  | nil => intro acc; rfl
  | cons a t ih => intro acc; simp only [String.intercalate.go, List.foldl_cons, ih]

theorem jsJoin_eq_intercalate (sep : String) (l : List String) :
    jsJoin sep l = sep.intercalate l := by
  cases l with
  | nil => rfl
  | cons a t => simp only [jsJoin, String.intercalate, intercalate_go_eq_foldl]

omit [LinearOrder S] in
/-- C13: the context of the prompt is the text of every match, in the order of the
matches, with a blank line between two neighbours: it is the join the specification
describes, it is empty for no match and the text alone for one match, and its length is
that of all the texts plus two characters for each of the `n - 1` blank lines. -/
theorem chatContext_spec (ms : List (Match S)) :
    chatContext ms = contextSpec (ms.map (fun m => m.text)) ∧
    chatContext ms = "\n\n".intercalate (ms.map (fun m => m.text)) ∧
    (chatContext ms).length = (ms.map (fun m => m.text.length)).sum + 2 * (ms.length - 1) ∧
    chatContext ([] : List (Match S)) = "" ∧
    (∀ m : Match S, chatContext [m] = m.text) ∧
    (∀ (m m' : Match S) (rest : List (Match S)),
      chatContext (m :: m' :: rest) = m.text ++ "\n\n" ++ chatContext (m' :: rest)) := by
  have h1 : chatContext ms = contextSpec (ms.map (fun m => m.text)) := jsJoin_eq_contextSpec _
  refine ⟨h1, jsJoin_eq_intercalate _ _, ?_, rfl, fun m => rfl,
    fun m m' rest => jsJoin_cons_cons _ _ _ _⟩
  rw [h1]
  have := length_contextSpec (ms.map (fun m => m.text))
  simpa [Function.comp_def] using this

end Response

/-! ## What `getEmbeddings` returns -/

theorem getEmbeddingsLoop_eq (service : EmbeddingService) (texts : List Str) :
    ∀ (k : Nat) (embeddings : List Embedding),
      getEmbeddingsLoop service k texts embeddings
        = embeddings ++ embeddingEntries service k texts := by
  induction texts with
  | nil => intro k e; simp [getEmbeddingsLoop, embeddingEntries]
  | cons t rest ih =>
    intro k e
    simp only [getEmbeddingsLoop, embeddingEntries]
    cases service k t with
    | none => simp [ih]
    | some v => simp [ih]

theorem length_embeddingEntries (service : EmbeddingService) (texts : List Str) :
    ∀ k, (embeddingEntries service k texts).length = texts.length := by
  induction texts with
  | nil => intro k; rfl
  | cons t rest ih => intro k; simp [embeddingEntries, ih]

theorem getElem?_embeddingEntries (service : EmbeddingService) (texts : List Str) :
    ∀ (k i : Nat) (h : i < texts.length),
      (embeddingEntries service k texts)[i]? = some ((service (k + i) texts[i]).getD zeroVector) := by
  induction texts with
  | nil => intro k i h; simp at h
  | cons t rest ih =>
    intro k i h
    cases i with
    | zero => simp [embeddingEntries]
    | succ j =>
      simp only [embeddingEntries, List.getElem?_cons_succ, List.getElem_cons_succ]
      rw [ih (k + 1) j (by simpa using h)]
      congr 3
      omega

theorem getEmbeddings_eq (service : EmbeddingService) (texts : List Str) :
    getEmbeddings service texts = .ok (embeddingEntries service 0 texts) := by
  simp [getEmbeddings, getEmbeddingsLoop_eq]

theorem embeddingEntries_failing (service : EmbeddingService) (texts : List Str) :
    ∀ k, (∀ (i : Nat) (h : i < texts.length), service (k + i) texts[i] = none) →
      embeddingEntries service k texts = List.replicate texts.length zeroVector := by
  induction texts with
  | nil => intro k _; rfl
  | cons t rest ih =>
    intro k h
    have h0 := h 0 (by simp)
    simp only [Nat.add_zero, List.getElem_cons_zero] at h0
    simp only [embeddingEntries, h0, Option.getD_none, List.length_cons, List.replicate_succ]
    rw [ih (k + 1)]
    intro i hi
    have := h (i + 1) (by simpa using hi)
    simpa [Nat.add_assoc, Nat.add_comm 1 i] using this

/-- C14: for every list of texts and every behaviour of the embedding service,
`getEmbeddings` resolves with a list of the length of the texts; its entry `i` is the
vector the service returned for text `i`, or 1536 zeros when that call failed; the entry
depends on the call for text `i` alone. With the texts `a` and `b` and a service failing
on `b`, the result is the vector of `a` followed by the zero vector. -/
theorem getEmbeddings_spec (service : EmbeddingService) (texts : List Str) :
    ∃ embeddings, getEmbeddings service texts = .ok embeddings ∧
      embeddings.length = texts.length ∧
      (∀ (i : Nat) (h : i < texts.length),
        embeddings[i]? = some (match service i texts[i] with
          | some v => v
          | none => List.replicate 1536 0)) ∧
      (∀ (service' : EmbeddingService) (i : Nat) (h : i < texts.length),
        service' i texts[i] = service i texts[i] →
        ∃ embeddings', getEmbeddings service' texts = .ok embeddings' ∧
          embeddings'[i]? = embeddings[i]?) ∧
      getEmbeddings onlyAService [['a'], ['b']] = .ok [[1, 2, 3], List.replicate 1536 0] := by
  refine ⟨_, getEmbeddings_eq service texts, length_embeddingEntries service texts 0, ?_, ?_, ?_⟩
  · intro i h
    rw [getElem?_embeddingEntries service texts 0 i h, Nat.zero_add]
    cases service i texts[i] <;> rfl
  · intro service' i h heq
    refine ⟨_, getEmbeddings_eq service' texts, ?_⟩
    rw [getElem?_embeddingEntries service' texts 0 i h,
      getElem?_embeddingEntries service texts 0 i h, Nat.zero_add, heq]
  · rfl

/-- C15, counterexample: when the single embedding call of a query fails, `getEmbeddings`
resolves with one zero vector instead of raising, and the chat handler takes that
all-zero vector as its query vector. -/
theorem getEmbeddings_all_failed_resolves :
    failingService 0 ['q'] = none ∧
    getEmbeddings failingService [['q']] = .ok [List.replicate 1536 0] ∧
    chatQueryVector failingService ['q'] = .ok (some (List.replicate 1536 0)) := by
  refine ⟨rfl, rfl, rfl⟩

/-- C15, as the code behaves: `getEmbeddings` never raises: for every list of texts and
every behaviour of the service it resolves with a list; when every call fails, the list
holds one zero vector for each text, and the chat handler whose single embedding call
fails queries the store with the zero vector. -/
theorem getEmbeddings_never_raises (service : EmbeddingService) (texts : List Str) :
    (∃ embeddings, getEmbeddings service texts = .ok embeddings ∧
      ((∀ (i : Nat) (h : i < texts.length), service i texts[i] = none) →
        embeddings = List.replicate texts.length (List.replicate 1536 0))) ∧
    (∀ message : Str, service 0 message = none →
      chatQueryVector service message = .ok (some (List.replicate 1536 0))) := by
  refine ⟨⟨_, getEmbeddings_eq service texts, ?_⟩, ?_⟩
  · intro h
    exact embeddingEntries_failing service texts 0 (by simpa using h)
  · intro message h
    simp only [chatQueryVector, getEmbeddings_eq, embeddingEntries, h, Option.getD_none]
    rfl

/-! ## The chunks of a document -/

theorem splitTextIntoChunks_default_eq (page : Page) :
    splitTextIntoChunks page.text 1000 200 = some (pageChunkTexts page) := by
  obtain ⟨initial, -, h⟩ := splitTextIntoChunks_isSome page.text 1000 200 (by decide)
  simp [pageChunkTexts, h]

theorem chunksWithPageInfo_spec (page : Page) (totalPages : Nat) (texts : List Str) :
    ∀ n, (chunksWithPageInfo page totalPages texts n).2 = n + texts.length ∧
      (chunksWithPageInfo page totalPages texts n).1.map
          (fun c => (c.text, c.pageNumber, c.totalPages))
        = texts.map (fun t => (t, page.pageNumber, totalPages)) ∧
      (chunksWithPageInfo page totalPages texts n).1.map (fun c => c.chunkIndex)
        = List.range' n texts.length := by
  induction texts with
  | nil => intro n; simp [chunksWithPageInfo]
  | cons t rest ih =>
    intro n
    obtain ⟨h1, h2, h3⟩ := ih (n + 1)
    simp only [chunksWithPageInfo, List.map_cons, List.length_cons, List.range'_succ, h1, h2, h3]
    exact ⟨by omega, trivial, trivial⟩

theorem collectChunks_spec (totalPages : Nat) (pages : List Page) :
    ∀ (allChunks : List Chunk) (n : Nat),
      ∃ out, collectChunks totalPages pages allChunks n = some out ∧
        out.1.map (fun c => (c.text, c.pageNumber, c.totalPages))
          = allChunks.map (fun c => (c.text, c.pageNumber, c.totalPages)) ++
            pages.flatMap (fun p => (pageChunkTexts p).map (fun t => (t, p.pageNumber, totalPages))) ∧
        out.1.map (fun c => c.chunkIndex)
          = allChunks.map (fun c => c.chunkIndex) ++
            List.range' n ((pages.map (fun p => (pageChunkTexts p).length)).sum) := by
  induction pages with
  | nil => intro a n; exact ⟨(a, n), rfl, by simp, by simp⟩
  | cons p rest ih =>
    intro a n
    obtain ⟨h1, h2, h3⟩ := chunksWithPageInfo_spec p totalPages (pageChunkTexts p) n
    obtain ⟨out, ho, ho2, ho3⟩ := ih (a ++ (chunksWithPageInfo p totalPages (pageChunkTexts p) n).1)
      (chunksWithPageInfo p totalPages (pageChunkTexts p) n).2
    refine ⟨out, ?_, ?_, ?_⟩
    · simp only [collectChunks, splitTextIntoChunks_default_eq]
      exact ho
    · rw [ho2, List.map_append, h2]
      simp [List.flatMap_cons]
    · rw [ho3, List.map_append, h3, h1]
      simp only [List.map_cons, List.sum_cons, List.append_assoc]
      rw [List.range'_append_1, Nat.add_comm (List.map (fun p => (pageChunkTexts p).length) rest).sum]

theorem documentChunks_spec (fileData : FileData) :
    ∃ allChunks, documentChunks fileData = some allChunks ∧
      allChunks.map (fun c => (c.text, c.pageNumber, c.totalPages))
        = fileData.pages.flatMap
            (fun p => (pageChunkTexts p).map (fun t => (t, p.pageNumber, fileData.totalPages))) ∧
      allChunks.map (fun c => c.chunkIndex) = List.range allChunks.length ∧
      allChunks.length = (fileData.pages.map (fun p => (pageChunkTexts p).length)).sum := by
  obtain ⟨out, ho, h2, h3⟩ := collectChunks_spec fileData.totalPages fileData.pages [] 0
  simp only [List.map_nil, List.nil_append] at h2 h3
  have hlen : out.1.length = (fileData.pages.map (fun p => (pageChunkTexts p).length)).sum := by
    have := congrArg List.length h3
    simpa using this
  refine ⟨out.1, by simp [documentChunks, ho], h2, ?_, hlen⟩
  rw [h3, hlen, List.range_eq_range']

theorem chunkIndex_getElem {l : List Chunk}
    (h3 : l.map (fun c => c.chunkIndex) = List.range l.length) (j : Nat) (h : j < l.length) :
    l[j].chunkIndex = j := by
  have hj : j < (l.map (fun c => c.chunkIndex)).length := by simpa using h
  have : (l.map (fun c => c.chunkIndex))[j] = j := by
    simp only [h3, List.getElem_range]
  simpa using this

/-- C16: for every document, `processDocument` builds its chunk list; the list holds the
chunks of the pages in page order and, within a page, in the order the splitter returns
them, each with the `pageNumber` of its page and the `totalPages` of the document; the
chunk at position `j` has `chunkIndex` `j`, so the indices are strictly increasing and
pairwise distinct. -/
theorem documentChunks_indexed (fileData : FileData) :
    ∃ allChunks, documentChunks fileData = some allChunks ∧
      (∀ p ∈ fileData.pages,
        splitTextIntoChunks p.text 1000 200 = some (pageChunkTexts p)) ∧
      allChunks.map (fun c => (c.text, c.pageNumber, c.totalPages))
        = fileData.pages.flatMap
            (fun p => (pageChunkTexts p).map (fun t => (t, p.pageNumber, fileData.totalPages))) ∧
      (∀ (j : Nat) (h : j < allChunks.length), allChunks[j].chunkIndex = j) ∧
      (allChunks.map (fun c => c.chunkIndex)).Pairwise (fun x y => x < y) ∧
      (allChunks.map (fun c => c.chunkIndex)).Nodup := by
  obtain ⟨allChunks, h1, h2, h3, -⟩ := documentChunks_spec fileData
  refine ⟨allChunks, h1, fun p _ => splitTextIntoChunks_default_eq p, h2, ?_, ?_, ?_⟩
  · exact fun j h => chunkIndex_getElem h3 j h
  · rw [h3]; exact List.pairwise_lt_range _
  · rw [h3]; exact List.nodup_range _

/-! ## The vector records of a document -/

theorem toString_nat_injective : Function.Injective (fun n : Nat => toString n) := by
  intro a b h
  have : digitsValue (toString a).data = digitsValue (toString b).data := by
    simp only at h; rw [h]
  rwa [digitsValue_repr, digitsValue_repr] at this

theorem recordId_injective (fileId : String) :
    Function.Injective (fun n : Nat => fileId ++ "_" ++ toString n) := by
  intro a b h
  have hd := congrArg String.data h
  simp only [String.data_append] at hd
  have := List.append_cancel_left hd
  exact toString_nat_injective (String.ext this)

theorem length_buildVectors (fileId fileName : String) (clock : Nat → String)
    (allChunks : List Chunk) (embeddingsArray : List Embedding) :
    (buildVectors fileId fileName clock allChunks embeddingsArray).length = allChunks.length := by
  simp [buildVectors]

theorem map_id_buildVectors (fileId fileName : String) (clock : Nat → String)
    (allChunks : List Chunk) (embeddingsArray : List Embedding) :
    (buildVectors fileId fileName clock allChunks embeddingsArray).map (fun r => r.id)
      = allChunks.map (fun c => fileId ++ "_" ++ toString c.chunkIndex) := by
  apply List.ext_getElem
  · simp [buildVectors]
  · intro i h1 h2
    simp [buildVectors]

/-- The ids of the records of a document are `fileId_0`, `fileId_1`, … in this order. -/
theorem documentVectors_ids (service : EmbeddingService) (clock : Nat → String)
    (fileId fileName : String) (fileData : FileData) :
    ∃ allChunks vectors, documentChunks fileData = some allChunks ∧
      documentVectors service clock fileId fileName fileData = .ok vectors ∧
      vectors = buildVectors fileId fileName clock allChunks
        (embeddingEntries service 0 (allChunks.map (fun c => c.text))) ∧
      vectors.map (fun r => r.id)
        = (List.range allChunks.length).map (fun j => fileId ++ "_" ++ toString j) := by
  obtain ⟨allChunks, h1, -, h3, -⟩ := documentChunks_spec fileData
  refine ⟨allChunks, _, h1, ?_, rfl, ?_⟩
  · simp [documentVectors, h1, getEmbeddings_eq]
  · rw [map_id_buildVectors, ← h3, List.map_map]
    rfl

/-- C17: for every document, `processDocument` builds one vector record for each chunk:
the record at position `j` has the id `fileId_j`, the `j`-th embedding as its values and
the text and index of chunk `j` in its metadata; the ids are pairwise distinct; and the
count returned is the number of chunks, the sum over the pages of the number of chunks
the splitter returns for the page. -/
theorem processDocument_records (service : EmbeddingService) (clock : Nat → String)
    (store : VectorStore) (fileId fileName : String) (fileData : FileData) :
    ∃ allChunks embeddings vectors store',
      documentChunks fileData = some allChunks ∧
      getEmbeddings service (allChunks.map (fun c => c.text)) = .ok embeddings ∧
      documentVectors service clock fileId fileName fileData = .ok vectors ∧
      processDocument service clock store fileId fileName fileData
        = .ok (allChunks.length, store') ∧
      vectors.length = allChunks.length ∧
      embeddings.length = allChunks.length ∧
      (∀ (j : Nat) (hv : j < vectors.length) (hc : j < allChunks.length)
          (he : j < embeddings.length),
        vectors[j].id = fileId ++ "_" ++ toString j ∧
        vectors[j].values = some embeddings[j] ∧
        vectors[j].metadata.chunkIndex = j ∧
        vectors[j].metadata.text = allChunks[j].text ∧
        vectors[j].metadata.pageNumber = allChunks[j].pageNumber ∧
        vectors[j].metadata.fileId = fileId) ∧
      (vectors.map (fun r => r.id)).Nodup ∧
      allChunks.length = (fileData.pages.map (fun p => (pageChunkTexts p).length)).sum := by
  obtain ⟨allChunks, h1, -, h3, h4⟩ := documentChunks_spec fileData
  obtain ⟨allChunks', vectors, h1', hv, hveq, hids⟩ :=
    documentVectors_ids service clock fileId fileName fileData
  have hsame : allChunks' = allChunks := by
    rw [h1] at h1'; exact (Option.some.inj h1').symm
  subst hsame
  have hidx : ∀ (j : Nat) (h : j < allChunks'.length), allChunks'[j].chunkIndex = j :=
    fun j h => chunkIndex_getElem h3 j h
  have hlenE : (embeddingEntries service 0 (allChunks'.map (fun c => c.text))).length
      = allChunks'.length := by
    rw [length_embeddingEntries, List.length_map]
  refine ⟨allChunks', _, vectors,
    (upsertBatches vectors).foldl (fun s batch => storeUpsert batch s) store,
    h1, getEmbeddings_eq service _, hv, ?_, ?_, hlenE, ?_, ?_, h4⟩
  · simp only [processDocument, h1, getEmbeddings_eq, hveq]
  · rw [hveq, length_buildVectors]
  · intro j hv' hc he
    subst hveq
    simp only [buildVectors, List.getElem_mapIdx, hidx j hc, List.getElem?_eq_getElem he,
      and_self]
  · rw [hids]
    exact (List.nodup_range _).map (recordId_injective fileId)

/-! ## The upsert batches -/

theorem upsertLoop_spec {α : Type} (vectors : List α) :
    ∀ (fuel i : Nat), vectors.length - i ≤ fuel →
      (upsertLoop vectors fuel i).flatten = vectors.drop i ∧
      (upsertLoop vectors fuel i).length = (vectors.length - i + 99) / 100 ∧
      (∀ b ∈ upsertLoop vectors fuel i, 1 ≤ b.length ∧ b.length ≤ 100) ∧
      (∀ (k : Nat) (h : k < (upsertLoop vectors fuel i).length),
        (upsertLoop vectors fuel i)[k] = (vectors.drop (i + 100 * k)).take 100 ∧
        (k + 1 < (upsertLoop vectors fuel i).length →
          ((upsertLoop vectors fuel i)[k]).length = 100)) := by
  intro fuel
  induction fuel with
  | zero =>
    intro i h
    have hi : vectors.length ≤ i := by omega
    have hz : (vectors.length - i + 99) / 100 = 0 := by omega
    simp [upsertLoop, List.drop_eq_nil_of_le hi, hz]
  | succ f ih =>
    intro i h
    by_cases hlt : i < vectors.length
    · obtain ⟨h1, h2, h3, h4⟩ := ih (i + 100) (by omega)
      have hb : ((vectors.drop i).take 100).length = min 100 (vectors.length - i) := by
        simp
      simp only [upsertLoop, hlt, if_true]
      refine ⟨?_, ?_, ?_, ?_⟩
      · rw [List.flatten_cons, h1, ← List.drop_drop, List.take_append_drop]
      · rw [List.length_cons, h2]; omega
      · intro b hbm
        rcases List.mem_cons.1 hbm with rfl | hbm
        · rw [hb]; omega
        · exact h3 b hbm
      · intro k hk
        cases k with
        | zero =>
          refine ⟨by simp, ?_⟩
          intro hk1
          simp only [List.length_cons, h2] at hk1
          simp only [List.getElem_cons_zero, hb]
          omega
        | succ j =>
          have hj : j < (upsertLoop vectors f (i + 100)).length := by simpa using hk
          obtain ⟨e1, e2⟩ := h4 j hj
          simp only [List.getElem_cons_succ, List.length_cons]
          refine ⟨?_, fun hk1 => e2 (by omega)⟩
          rw [e1]
          congr 2
          omega
    · have hi : vectors.length ≤ i := by omega
      have hz : (vectors.length - i + 99) / 100 = 0 := by omega
      simp [upsertLoop, hlt, List.drop_eq_nil_of_le hi, hz]

theorem flatten_upsertBatches {α : Type} (vectors : List α) :
    (upsertBatches vectors).flatten = vectors := by
  have := (upsertLoop_spec vectors vectors.length 0 (by omega)).1
  simpa [upsertBatches] using this

set_option maxRecDepth 100000 in
/-- C18: `processDocument` upserts a list of `n` vector records in `ceil(n / 100)`
batches: a batch has between 1 and 100 records, the batch at position `k` is the slice
of the records from index `100 k`, every batch but the last has exactly 100, the batches
put end to end in the order sent are the record list, and no batch is sent for the empty
list; 250 records go in batches of 100, 100 and 50. The store after the call is the store after these upserts in this order. -/
theorem upsertBatches_spec {α : Type} (vectors : List α) :
    (upsertBatches vectors).length = (vectors.length + 99) / 100 ∧
    (∀ b ∈ upsertBatches vectors, 1 ≤ b.length ∧ b.length ≤ 100) ∧
    (∀ (k : Nat) (h : k < (upsertBatches vectors).length),
      (upsertBatches vectors)[k] = (vectors.drop (100 * k)).take 100 ∧
      (k + 1 < (upsertBatches vectors).length → ((upsertBatches vectors)[k]).length = 100)) ∧
    (upsertBatches vectors).flatten = vectors ∧
    upsertBatches ([] : List α) = [] ∧
    (upsertBatches (List.range 250)).map List.length = [100, 100, 50] ∧
    (∀ (service : EmbeddingService) (clock : Nat → String) (store : VectorStore)
        (fileId fileName : String) (fileData : FileData) (records : List VectorRecord),
      documentVectors service clock fileId fileName fileData = .ok records →
      ∃ n, processDocument service clock store fileId fileName fileData
        = .ok (n, (upsertBatches records).foldl (fun s batch => storeUpsert batch s) store)) := by
  obtain ⟨h1, h2, h3, h4⟩ := upsertLoop_spec vectors vectors.length 0 (by omega)
  refine ⟨by simpa [upsertBatches] using h2, h3, ?_, flatten_upsertBatches vectors, rfl,
    by decide, ?_⟩
  · intro k hk
    have := h4 k hk
    simpa [upsertBatches] using this
  · intro service clock store fileId fileName fileData records hrec
    unfold documentVectors at hrec
    unfold processDocument
    cases hc : documentChunks fileData with
    | none => rw [hc] at hrec; cases hrec
    | some allChunks =>
      rw [hc] at hrec
      simp only [getEmbeddings_eq] at hrec ⊢
      cases hrec
      exact ⟨_, rfl⟩

/-! ## Indexing a document twice -/

theorem storeIds_upsertOne (r : VectorRecord) (store : VectorStore) :
    storeIds (storeUpsertOne r store)
      = if r.id ∈ storeIds store then storeIds store else storeIds store ++ [r.id] := by
  induction store with
  | nil => simp [storeUpsertOne, storeIds]
  | cons x rest ih =>
    simp only [storeIds] at ih ⊢
    simp only [storeUpsertOne]
    by_cases hx : x.id = r.id
    · simp [hx]
    · have hx' : ¬ r.id = x.id := fun h => hx h.symm
      simp only [hx, if_false, List.map_cons, ih, List.mem_cons, hx', false_or]
      split <;> simp

theorem storeIds_upsert_of_mem (batch : List VectorRecord) :
    ∀ store : VectorStore, (∀ r ∈ batch, r.id ∈ storeIds store) →
      storeIds (storeUpsert batch store) = storeIds store := by
  induction batch with
  | nil => intro store _; rfl
  | cons r rest ih =>
    intro store h
    have hr : storeIds (storeUpsertOne r store) = storeIds store := by
      rw [storeIds_upsertOne, if_pos (h r (List.mem_cons_self _ _))]
    simp only [storeUpsert, List.foldl_cons]
    have := ih (storeUpsertOne r store) (by
      intro x hx; rw [hr]; exact h x (List.mem_cons_of_mem _ hx))
    simp only [storeUpsert] at this
    rw [this, hr]

theorem storeIds_upsert_mem (batch : List VectorRecord) :
    ∀ store : VectorStore,
      (∀ i ∈ storeIds store, i ∈ storeIds (storeUpsert batch store)) ∧
      (∀ r ∈ batch, r.id ∈ storeIds (storeUpsert batch store)) := by
  induction batch with
  | nil => intro store; exact ⟨fun i hi => hi, fun r hr => by cases hr⟩
  | cons r rest ih =>
    intro store
    obtain ⟨h1, h2⟩ := ih (storeUpsertOne r store)
    have hsub : ∀ i ∈ storeIds store, i ∈ storeIds (storeUpsertOne r store) := by
      intro i hi
      rw [storeIds_upsertOne]
      split
      · exact hi
      · exact List.mem_append_left _ hi
    have hr : r.id ∈ storeIds (storeUpsertOne r store) := by
      rw [storeIds_upsertOne]
      split
      · assumption
      · simp
    simp only [storeUpsert, List.foldl_cons] at h1 h2 ⊢
    refine ⟨fun i hi => h1 i (hsub i hi), ?_⟩
    intro x hx
    rcases List.mem_cons.1 hx with rfl | hx
    · exact h1 _ hr
    · exact h2 x hx

theorem nodup_storeIds_upsert (batch : List VectorRecord) :
    ∀ store : VectorStore, (storeIds store).Nodup → (storeIds (storeUpsert batch store)).Nodup := by
  induction batch with
  | nil => intro store h; exact h
  | cons r rest ih =>
    intro store h
    simp only [storeUpsert, List.foldl_cons]
    apply ih
    rw [storeIds_upsertOne]
    split
    · exact h
    · rename_i hn
      exact List.Nodup.append h (List.nodup_singleton _) (by simpa using hn)

theorem foldl_storeUpsert_batches (batches : List (List VectorRecord)) :
    ∀ store : VectorStore,
      batches.foldl (fun s batch => storeUpsert batch s) store
        = storeUpsert batches.flatten store := by
  induction batches with
  | nil => intro store; rfl
  | cons b rest ih =>
    intro store
    simp only [List.foldl_cons, List.flatten_cons, ih]
    simp [storeUpsert, List.foldl_append]

/-- The store after `processDocument` is the store after the upsert of the records of the
document, one after the other. -/
theorem processDocument_eq (service : EmbeddingService) (clock : Nat → String)
    (store : VectorStore) (fileId fileName : String) (fileData : FileData) :
    ∃ allChunks vectors, documentChunks fileData = some allChunks ∧
      vectors.map (fun r => r.id)
        = (List.range allChunks.length).map (fun j => fileId ++ "_" ++ toString j) ∧
      processDocument service clock store fileId fileName fileData
        = .ok (allChunks.length, storeUpsert vectors store) := by
  obtain ⟨allChunks, vectors, h1, -, hveq, hids⟩ :=
    documentVectors_ids service clock fileId fileName fileData
  refine ⟨allChunks, vectors, h1, hids, ?_⟩
  simp only [processDocument, h1, getEmbeddings_eq, ← hveq, foldl_storeUpsert_batches,
    flatten_upsertBatches]

/-- C19: with the store a map from id to record in which upsert overwrites, indexing a
document a second time (same `fileId`, same pages; any answers of the embedding service
and any clock) returns the same count and leaves the store with the same ids, hence the
same number of records, as indexing it once; and the ids of the store stay pairwise
distinct when they were. -/
theorem processDocument_twice (service₁ service₂ : EmbeddingService) (clock₁ clock₂ : Nat → String)
    (store : VectorStore) (fileId fileName : String) (fileData : FileData) :
    ∃ n store₁ store₂,
      processDocument service₁ clock₁ store fileId fileName fileData = .ok (n, store₁) ∧
      processDocument service₂ clock₂ store₁ fileId fileName fileData = .ok (n, store₂) ∧
      storeIds store₂ = storeIds store₁ ∧
      store₂.length = store₁.length ∧
      ((storeIds store).Nodup → (storeIds store₁).Nodup ∧ (storeIds store₂).Nodup) := by
  obtain ⟨a₁, v₁, hc₁, hi₁, hp₁⟩ :=
    processDocument_eq service₁ clock₁ store fileId fileName fileData
  obtain ⟨a₂, v₂, hc₂, hi₂, hp₂⟩ :=
    processDocument_eq service₂ clock₂ (storeUpsert v₁ store) fileId fileName fileData
  have ha : a₂ = a₁ := by rw [hc₁] at hc₂; exact (Option.some.inj hc₂).symm
  subst ha
  have hids : storeIds (storeUpsert v₂ (storeUpsert v₁ store)) = storeIds (storeUpsert v₁ store) := by
    apply storeIds_upsert_of_mem
    intro r hr
    have hr' : r.id ∈ v₂.map (fun r => r.id) := List.mem_map.2 ⟨r, hr, rfl⟩
    rw [hi₂, ← hi₁] at hr'
    obtain ⟨r₁, hr₁, he⟩ := List.mem_map.1 hr'
    rw [← he]
    exact (storeIds_upsert_mem v₁ store).2 r₁ hr₁
  refine ⟨_, _, _, hp₁, hp₂, hids, ?_, ?_⟩
  · have := congrArg List.length hids
    simpa [storeIds] using this
  · intro hnd
    exact ⟨nodup_storeIds_upsert v₁ store hnd,
      nodup_storeIds_upsert v₂ _ (nodup_storeIds_upsert v₁ store hnd)⟩

/-! ## Removing a document that is not in the store -/

theorem jsSetValues_spec (xs : List String) :
    ∀ seen : List String, seen.Nodup →
      (jsSetValues xs seen).Nodup ∧ ∀ f, f ∈ jsSetValues xs seen ↔ f ∈ seen ∨ f ∈ xs := by
  induction xs with
  | nil => intro seen h; simp [jsSetValues, h]
  | cons x rest ih =>
    intro seen h
    simp only [jsSetValues]
    split
    · rename_i hx
      obtain ⟨h1, h2⟩ := ih seen h
      refine ⟨h1, fun f => ?_⟩
      rw [h2 f, List.mem_cons]
      constructor
      · rintro (h | h)
        · exact Or.inl h
        · exact Or.inr (Or.inr h)
      · rintro (h | rfl | h)
        · exact Or.inl h
        · exact Or.inl hx
        · exact Or.inr h
    · rename_i hx
      obtain ⟨h1, h2⟩ := ih (seen ++ [x])
        (List.Nodup.append h (List.nodup_singleton _) (by simpa using hx))
      refine ⟨h1, fun f => ?_⟩
      rw [h2 f, List.mem_append, List.mem_singleton, List.mem_cons]
      tauto

theorem mem_truthyFileIds (ms : List StoreMatch) (f : String) :
    f ∈ truthyFileIds ms ↔ f ≠ "" ∧ ∃ m ∈ ms, m.fileId = some f := by
  simp only [truthyFileIds, List.mem_filterMap]
  constructor
  · rintro ⟨m, hm, h⟩
    cases hf : m.fileId with
    | none => rw [hf] at h; simp at h
    | some g =>
      rw [hf] at h
      by_cases hg : g = ""
      · simp [hg] at h
      · simp only [hg, if_false, Option.some.injEq] at h
        subst h
        exact ⟨hg, m, hm, hf⟩
  · rintro ⟨hne, m, hm, hf⟩
    exact ⟨m, hm, by simp [hf, hne]⟩

/-- C20: when no match of the broad query has the requested `fileId`, the delete handler
calls no `deleteMany` and answers not found, with an `availableFiles` list that holds the
non-empty file ids present among the matches, each exactly once and nothing else. -/
theorem deleteDocument_not_found (fileId : String) (ms : List StoreMatch)
    (h : ∀ m ∈ ms, m.fileId ≠ some fileId) :
    ∃ availableFiles, deleteDocument fileId ms = .notFound availableFiles ∧
      availableFiles.Nodup ∧
      (∀ f, f ∈ availableFiles ↔ f ≠ "" ∧ ∃ m ∈ ms, m.fileId = some f) ∧
      ∀ ids n, deleteDocument fileId ms ≠ .removed ids n := by
  have hf : ms.filter (fun m => decide (m.fileId = some fileId)) = [] := by
    rw [List.filter_eq_nil_iff]
    intro m hm
    simpa using h m hm
  have hd : deleteDocument fileId ms = .notFound (jsSetValues (truthyFileIds ms) []) := by
    simp [deleteDocument, hf]
  obtain ⟨h1, h2⟩ := jsSetValues_spec (truthyFileIds ms) [] List.nodup_nil
  refine ⟨_, hd, h1, ?_, ?_⟩
  · intro f
    rw [h2 f, mem_truthyFileIds]
    simp
  · intro ids n hr
    rw [hd] at hr
    cases hr

theorem deleteDocument_not_found_witness :
    ∃ availableFiles, deleteDocument "f3" exampleStoreMatches = .notFound availableFiles ∧
      availableFiles.Nodup ∧
      (∀ f, f ∈ availableFiles ↔ f ≠ "" ∧ ∃ m ∈ exampleStoreMatches, m.fileId = some f) ∧
      ∀ ids n, deleteDocument "f3" exampleStoreMatches ≠ .removed ids n :=
  deleteDocument_not_found "f3" exampleStoreMatches (by decide)

theorem deleteDocument_exampleStoreMatches :
    deleteDocument "f3" exampleStoreMatches = .notFound ["f1", "f2"] := by decide

/-! ## Removing a document that is in the store -/

/-- C21: when at least one match of the broad query has the requested `fileId`, the ids
passed to `deleteMany` are the ids of the matches with that `fileId`, in their order, no
other and none left out, and the removed count reported is the number of these matches. -/
theorem deleteDocument_found (fileId : String) (ms : List StoreMatch)
    (h : ∃ m ∈ ms, m.fileId = some fileId) :
    deleteDocument fileId ms
      = .removed ((ms.filter (fun m => decide (m.fileId = some fileId))).map (fun m => m.id))
          (ms.countP (fun m => decide (m.fileId = some fileId))) ∧
    (∀ i, i ∈ (ms.filter (fun m => decide (m.fileId = some fileId))).map (fun m => m.id) ↔
      ∃ m ∈ ms, m.fileId = some fileId ∧ m.id = i) ∧
    0 < ms.countP (fun m => decide (m.fileId = some fileId)) := by
  obtain ⟨m, hm, hf⟩ := h
  have hmem : m ∈ ms.filter (fun m => decide (m.fileId = some fileId)) :=
    List.mem_filter.2 ⟨hm, by simpa using hf⟩
  have hlen : (ms.filter (fun m => decide (m.fileId = some fileId))).length ≠ 0 := by
    intro h0
    rw [List.length_eq_zero] at h0
    rw [h0] at hmem
    cases hmem
  refine ⟨?_, ?_, ?_⟩
  · simp only [deleteDocument, hlen, if_false, List.length_map, List.countP_eq_length_filter]
  · intro i
    simp only [List.mem_map, List.mem_filter, decide_eq_true_eq]
    constructor
    · rintro ⟨x, ⟨hx, hxf⟩, rfl⟩; exact ⟨x, hx, hxf, rfl⟩
    · rintro ⟨x, hx, hxf, rfl⟩; exact ⟨x, ⟨hx, hxf⟩, rfl⟩
  · rw [List.countP_eq_length_filter]
    exact Nat.pos_of_ne_zero hlen

theorem deleteDocument_found_witness :
    deleteDocument "f1" exampleStoreMatches
      = .removed ((exampleStoreMatches.filter
            (fun m => decide (m.fileId = some "f1"))).map (fun m => m.id))
          (exampleStoreMatches.countP (fun m => decide (m.fileId = some "f1"))) ∧
    (∀ i, i ∈ (exampleStoreMatches.filter
          (fun m => decide (m.fileId = some "f1"))).map (fun m => m.id) ↔
      ∃ m ∈ exampleStoreMatches, m.fileId = some "f1" ∧ m.id = i) ∧
    0 < exampleStoreMatches.countP (fun m => decide (m.fileId = some "f1")) :=
  deleteDocument_found "f1" exampleStoreMatches ⟨⟨"f1_0", some "f1"⟩, List.mem_cons_self _ _, rfl⟩

/-! ## How many chunks reach the prompt -/

/-- C22, the code at five stored records: the chat handler asks the store for 5 matches
and joins the texts of all of them, so the prompt holds the texts of 5 chunks, the
fourth and fifth included, not of the top 3 only. -/
theorem chatPromptContext_five_chunks :
    chatTopK = 5 ∧
    (chatMatches fiveMatches).length = 5 ∧
    chatPromptContext fiveMatches = "t1\n\nt2\n\nt3\n\nt4\n\nt5" ∧
    chatPromptContext fiveMatches ≠ chatContext (fiveMatches.take 3) := by
  refine ⟨rfl, by decide, by decide, by decide⟩

/-! ## The rate limiter -/

theorem countWithin_canMakeRequest (rl : RateLimiter) (now resetNow : Int)
    (stored : Option RateLimitData) (h : CountWithin rl.maxRequests stored) :
    CountWithin rl.maxRequests (canMakeRequest rl now resetNow stored).2 := by
  unfold canMakeRequest
  split
  · simp [resetRateLimit, CountWithin]
  · cases stored with
    | none => simp [resetRateLimit, CountWithin]
    | some d => exact h

theorem countWithin_recordRequest (rl : RateLimiter) (now resetNow : Int)
    (stored : Option RateLimitData)
    (h : ∀ data, stored = some data → data.requestCount < rl.maxRequests) :
    CountWithin rl.maxRequests (recordRequest rl now resetNow stored).2 := by
  unfold recordRequest
  split
  · simp [resetRateLimit, CountWithin]
  · cases stored with
    | none => simp [resetRateLimit, CountWithin]
    | some d =>
      have := h d rfl
      simp only [CountWithin]
      omega

theorem countWithin_sendAttempt (rl : RateLimiter) (hpos : 1 ≤ rl.maxRequests)
    (clock : AttemptClock) (stored : Option RateLimitData)
    (h : CountWithin rl.maxRequests stored) :
    CountWithin rl.maxRequests (sendAttempt rl clock stored) := by
  unfold sendAttempt
  simp only
  split
  · rename_i hc
    apply countWithin_recordRequest
    intro data hd
    unfold canMakeRequest at hc hd
    split at hc
    · rw [if_pos (by assumption)] at hd
      simp only [resetRateLimit, Option.some.injEq] at hd
      rw [← hd]
      exact hpos
    · rename_i he
      rw [if_neg he] at hd
      cases stored with
      | none => simp [windowExpired] at he
      | some d =>
        simp only [Option.some.injEq] at hd
        subst hd
        simpa using hc
  · exact countWithin_canMakeRequest rl _ _ stored h

theorem countWithin_attempts (rl : RateLimiter) (hpos : 1 ≤ rl.maxRequests)
    (clocks : List AttemptClock) :
    ∀ stored : Option RateLimitData, CountWithin rl.maxRequests stored →
      CountWithin rl.maxRequests (clocks.foldl (fun s c => sendAttempt rl c s) stored) := by
  induction clocks with
  | nil => intro stored h; exact h
  | cons c rest ih =>
    intro stored h
    exact ih _ (countWithin_sendAttempt rl hpos c stored h)

set_option maxRecDepth 100000 in
/-- C23: with the limit 120 and the window of 24 hours, whatever the clock reads, after
any sequence of send attempts started from stored data with a count of at most 120 (or
from no data) the stored count is at most 120, also between the check and the record of
an attempt; and while the stored count is 120 or more and no more than 24 hours have
passed since `startTime`, `canMakeRequest` answers `false` and the attempt changes
nothing. After 130 attempts in one window, started with no data, the count is 120. -/
theorem rateLimiter_limit (clocks : List AttemptClock) (stored : Option RateLimitData)
    (h : CountWithin 120 stored) :
    CountWithin 120 (clocks.foldl (fun s c => sendAttempt rateLimiter c s) stored) ∧
    (∀ now resetNow : Int, CountWithin 120 (canMakeRequest rateLimiter now resetNow stored).2) ∧
    (∀ (data : RateLimitData) (clock : AttemptClock),
      120 ≤ data.requestCount → clock.checkNow - data.startTime ≤ 24 * 60 * 60 * 1000 →
      canMakeRequest rateLimiter clock.checkNow clock.checkReset (some data) = (false, some data) ∧
      sendAttempt rateLimiter clock (some data) = some data) ∧
    (List.replicate 130 (⟨10, 11, 12, 13⟩ : AttemptClock)).foldl
        (fun s c => sendAttempt rateLimiter c s) none
      = some { startTime := 11, requestCount := 120 } := by
  refine ⟨countWithin_attempts rateLimiter (by decide) clocks stored h,
    fun now resetNow => countWithin_canMakeRequest rateLimiter now resetNow stored h, ?_,
    by decide⟩
  intro data clock hc ht
  have hw : windowExpired rateLimiter clock.checkNow (some data) = false := by
    simp only [windowExpired, rateLimiter, decide_eq_false_iff_not, not_lt]
    exact ht
  have hcan : canMakeRequest rateLimiter clock.checkNow clock.checkReset (some data)
      = (false, some data) := by
    unfold canMakeRequest
    rw [hw]
    simp only [Bool.false_eq_true, if_false, Prod.mk.injEq, and_true,
      decide_eq_false_iff_not, not_lt, rateLimiter]
    exact hc
  exact ⟨hcan, by simp [sendAttempt, hcan]⟩

theorem rateLimiter_limit_witness :
    CountWithin 120 ((List.replicate 130 (⟨10, 11, 12, 13⟩ : AttemptClock)).foldl
      (fun s c => sendAttempt rateLimiter c s) none) ∧
    (∀ now resetNow : Int, CountWithin 120 (canMakeRequest rateLimiter now resetNow none).2) ∧
    (∀ (data : RateLimitData) (clock : AttemptClock),
      120 ≤ data.requestCount → clock.checkNow - data.startTime ≤ 24 * 60 * 60 * 1000 →
      canMakeRequest rateLimiter clock.checkNow clock.checkReset (some data) = (false, some data) ∧
      sendAttempt rateLimiter clock (some data) = some data) ∧
    (List.replicate 130 (⟨10, 11, 12, 13⟩ : AttemptClock)).foldl
        (fun s c => sendAttempt rateLimiter c s) none
      = some { startTime := 11, requestCount := 120 } :=
  rateLimiter_limit (List.replicate 130 ⟨10, 11, 12, 13⟩) none trivial

/-- C26, the code when nothing is stored or the window has expired: `recordRequest` saves
the reset data with a count of 0 and then throws at the assignment to the constant
`data`; the request is not recorded. -/
theorem recordRequest_reset_throws (rl : RateLimiter) (now resetNow : Int)
    (stored : Option RateLimitData) (h : windowExpired rl now stored = true) :
    recordRequest rl now resetNow stored
      = (.error "TypeError: Assignment to constant variable.",
          some { startTime := resetNow, requestCount := 0 }) ∧
    (recordRequest rl now resetNow stored).2 ≠ some { startTime := resetNow, requestCount := 1 } := by
  have e : recordRequest rl now resetNow stored
      = (.error "TypeError: Assignment to constant variable.",
          some { startTime := resetNow, requestCount := 0 }) := by
    simp [recordRequest, h, resetRateLimit]
  refine ⟨e, ?_⟩
  rw [e]
  simp

theorem recordRequest_reset_throws_witness :
    recordRequest rateLimiter 1000 1000 none
      = (.error "TypeError: Assignment to constant variable.",
          some { startTime := 1000, requestCount := 0 }) ∧
    (recordRequest rateLimiter 1000 1000 none).2 ≠ some { startTime := 1000, requestCount := 1 } :=
  recordRequest_reset_throws rateLimiter 1000 1000 none rfl

/-! ## The packing loop after an oversized piece -/

set_option maxRecDepth 100000 in
/-- C24, the code on three paragraphs of 55, 70 and 55 letters with `chunkSize = 60` and
no overlap: after the first paragraph is flushed and the oversized second one is split,
the buffer still holds the first paragraph; it is flushed a second time when the third
paragraph comes, so the first paragraph is returned twice, the second time behind the
chunks of the second paragraph. -/
theorem splitText_buffer_kept_after_oversized :
    packSplits jsTrim 60 paragraphBreak
        (fun t => splitText 60 0 oversizedMiddleExample.length t (separators.drop 1))
        [List.replicate 55 'a', List.replicate 70 'b'] [] []
      = some ([List.replicate 55 'a', List.replicate 60 'b', List.replicate 10 'b'],
          List.replicate 55 'a' ++ paragraphBreak) ∧
    splitText 60 0 (oversizedMiddleExample.length + 1) oversizedMiddleExample separators
      = some [List.replicate 55 'a', List.replicate 60 'b', List.replicate 10 'b',
          List.replicate 55 'a', List.replicate 55 'c'] ∧
    splitTextIntoChunks oversizedMiddleExample 60 0
      = some [List.replicate 55 'a', List.replicate 60 'b', List.replicate 55 'a',
          List.replicate 55 'c'] := by
  refine ⟨by decide, by decide, by decide⟩

/-! ## Sources of matches without page number -/

theorem missingPageMatches_keys :
    missingPageMatches.map sourceKey = ["A_undefined", "A_1"] := by decide

theorem chatSources_missingPageMatches :
    (chatSources missingPageMatches).map DisplaySource.toSource
      = [ { fileName := "A", pageNumber := 1, totalPages := 3, source := "A", chunkCount := 1,
            score := 9 / 10 },
          { fileName := "A", pageNumber := 1, totalPages := 3, source := "A - Page 1",
            chunkCount := 1, score := 8 / 10 } ] := by
  have hk := missingPageMatches_keys
  simp only [missingPageMatches, List.map_cons, List.map_nil, List.cons.injEq, and_true] at hk
  obtain ⟨k1, k2⟩ := hk
  have hne : ("A_undefined" : String) ≠ "A_1" := by decide
  rw [toSource_chatSources]
  simp [buildSourceMap, missingPageMatches, sourceMapVisit, k1, k2, hne,
      newSource, orOne, List.insertionSort, List.orderedInsert, scoreOrder]
  norm_num

theorem map_displayName_chatSources {S : Type} [LinearOrder S] (ms : List (Match S)) :
    (chatSources ms).map (fun d => d.displayName)
      = ((chatSources ms).map DisplaySource.toSource).map displayName := by
  simp [chatSources, Function.comp_def]

/-- C27, the code on two matches of file A, one without page number and one of page 1:
their keys `A_undefined` and `A_1` differ, so there are two sources, and both have the
pair `(A, 1)` and the display name `A - Page 1/3`, the missing page number being
replaced by 1 in the source. -/
theorem chatSources_same_pair_twice :
    (chatSources missingPageMatches).map (fun d => (d.fileName, d.pageNumber)) = [("A", 1), ("A", 1)] ∧
    (chatSources missingPageMatches).map (fun d => d.displayName)
      = ["A - Page 1/3", "A - Page 1/3"] ∧
    ¬ ((chatSources missingPageMatches).map (fun d => (d.fileName, d.pageNumber))).Nodup := by
  have h := congrArg (List.map (fun s : Source ℚ => (s.fileName, s.pageNumber)))
    chatSources_missingPageMatches
  simp only [List.map_map] at h
  have e : (chatSources missingPageMatches).map (fun d => (d.fileName, d.pageNumber))
      = [("A", 1), ("A", 1)] := h
  refine ⟨e, ?_, ?_⟩
  · rw [map_displayName_chatSources, chatSources_missingPageMatches]
    decide
  · rw [e]
    decide

/-! ## Page numbers of a PDF -/

/-- C29, the code on a PDF text of three pages separated by form feeds, the second one
blank: the pages kept are numbered 1 and 3 and `totalPages` is 2, so the last page has
a number above `totalPages`. -/
theorem extractPdf_page_above_total :
    extractPdf none ['A', '\x0c', ' ', '\x0c', 'B']
      = { text := ['A', '\x0c', ' ', '\x0c', 'B']
          pages := [ { pageNumber := 1, text := ['A'], height := 0, width := 0 },
                     { pageNumber := 3, text := ['B'], height := 0, width := 0 } ]
          totalPages := 2 } ∧
    ∃ p ∈ (extractPdf none ['A', '\x0c', ' ', '\x0c', 'B']).pages,
      (extractPdf none ['A', '\x0c', ' ', '\x0c', 'B']).totalPages < p.pageNumber := by
  refine ⟨by decide, by decide⟩

/-! ## The hard cut -/

theorem jsSplit_no_occurrence (text sep : Str) (hsep : sep ≠ []) (h : ¬ sep <:+: text) :
    jsSplit text sep = [text] := by
  have hno : ∀ s, s ≠ [] → s <:+ text → ¬ sep <+: s ++ [] := by
    intro s _ hsuf hpre
    rw [List.append_nil] at hpre
    exact h (hpre.isInfix.trans hsuf.isInfix)
  have := jsSplitAux_no_match sep text [] hno []
  simp only [List.append_nil] at this
  simp [jsSplit, hsep, this, jsSplitAux]

theorem noSeparator_drop {text : Str} (h : NoSeparator text) (n : Nat) :
    NoSeparator (text.drop n) :=
  fun sep hs hne hin => h sep hs hne (hin.trans (List.drop_suffix n text).isInfix)

theorem trySeparators_noSeparator (trimF : Str → Str) (chunkSize overlap : Nat)
    (recurSame recurFiner : Str → Option (List Str)) (text : Str) (h : NoSeparator text) :
    trySeparators trimF chunkSize overlap recurSame recurFiner text separators
      = hardCut chunkSize recurSame text := by
  have hsplit : separators = separators.take 8 ++ [[]] := by decide
  rw [hsplit, trySeparators_skip]
  · simp [trySeparators]
  · intro s hs
    have hmem : s ∈ separators := List.mem_of_mem_take hs
    have hne : s ≠ [] := by
      revert s
      decide
    exact ⟨hne, by rw [jsSplit_no_occurrence text s hne (h s hmem hne)]; simp⟩

theorem splitTextWith_hardCut (trimF : Str → Str) (chunkSize overlap : Nat) (hcs : 1 ≤ chunkSize) :
    ∀ (fuel : Nat) (text : Str), text.length < fuel → NoSeparator text →
      ∃ out, splitTextWith trimF chunkSize overlap fuel text separators = some out ∧
        out.flatten = text ∧
        (∀ (k : Nat) (h : k < out.length),
          out[k] = (text.drop (chunkSize * k)).take chunkSize ∧
          (k + 1 < out.length → (out[k]).length = chunkSize)) ∧
        (text ≠ [] → ∃ last, out.getLast? = some last ∧ 1 ≤ last.length ∧
          last.length ≤ chunkSize) ∧
        (chunkSize < text.length → 2 ≤ out.length) := by
  intro fuel
  induction fuel with
  | zero => intro text h; omega
  | succ f ih =>
    intro text hlt hno
    by_cases hsmall : text.length ≤ chunkSize
    · refine ⟨[text], by simp [splitTextWith, hsmall], by simp, ?_, ?_, by omega⟩
      · intro k hk
        have hk0 : k = 0 := by simpa using hk
        subst hk0
        refine ⟨?_, by simp⟩
        simp [List.take_of_length_le hsmall]
      · intro hne
        refine ⟨text, rfl, ?_, hsmall⟩
        exact List.length_pos.2 hne
    · have hlong : chunkSize < text.length := by omega
      have hdroplen : (text.drop chunkSize).length < f := by
        simp only [List.length_drop]; omega
      obtain ⟨rest, hr, hflat, hk, hlast, -⟩ := ih (text.drop chunkSize) hdroplen
        (noSeparator_drop hno chunkSize)
      have hdne : text.drop chunkSize ≠ [] := by
        intro h0
        have := congrArg List.length h0
        simp only [List.length_drop, List.length_nil] at this
        omega
      have hrne : rest ≠ [] := by
        intro h0
        rw [h0] at hflat
        exact hdne hflat.symm
      refine ⟨text.take chunkSize :: rest, ?_, ?_, ?_, ?_, ?_⟩
      · rw [splitTextWith]
        simp only [hsmall, if_false]
        rw [trySeparators_noSeparator _ _ _ _ _ _ hno]
        simp [hardCut, hr]
      · rw [List.flatten_cons, hflat, List.take_append_drop]
      · intro k hk'
        cases k with
        | zero =>
          refine ⟨by simp, fun _ => ?_⟩
          simp only [List.getElem_cons_zero, List.length_take]
          omega
        | succ j =>
          have hj : j < rest.length := by simpa using hk'
          obtain ⟨e1, e2⟩ := hk j hj
          simp only [List.getElem_cons_succ, List.length_cons]
          refine ⟨?_, fun h1 => e2 (by omega)⟩
          rw [e1, List.drop_drop, Nat.mul_succ]
          congr 2
          omega
      · intro _
        obtain ⟨last, hl, h1, h2⟩ := hlast hdne
        refine ⟨last, ?_, h1, h2⟩
        cases rest with
        | nil => exact absurd rfl hrne
        | cons r rs => simpa [List.getLast?_cons_cons] using hl
      · intro _
        have : 1 ≤ rest.length := List.length_pos.2 hrne
        simp only [List.length_cons]
        omega

/-- C25: for `chunkSize ≥ 1` and a text longer than `chunkSize` that holds none of the
eight non-empty separators, `splitText` returns the consecutive slices of `chunkSize`
code units of the text: the chunk at position `k` is `text[k * chunkSize : (k + 1) *
chunkSize]`, every chunk but the last has exactly `chunkSize` code units, the last has
between 1 and `chunkSize`, there are at least two chunks, and the chunks put end to end
are the text. -/
theorem splitText_hard_cut (chunkSize overlap fuel : Nat) (text : Str) (hcs : 1 ≤ chunkSize)
    (hlong : chunkSize < text.length) (hno : NoSeparator text) (hfuel : text.length < fuel) :
    ∃ out, splitText chunkSize overlap fuel text separators = some out ∧
      out.flatten = text ∧
      2 ≤ out.length ∧
      (∀ (k : Nat) (h : k < out.length),
        out[k] = (text.drop (chunkSize * k)).take chunkSize ∧
        (k + 1 < out.length → (out[k]).length = chunkSize)) ∧
      ∃ last, out.getLast? = some last ∧ 1 ≤ last.length ∧ last.length ≤ chunkSize := by
  obtain ⟨out, h1, h2, h3, h4, h5⟩ :=
    splitTextWith_hardCut jsTrim chunkSize overlap hcs fuel text hfuel hno
  have hne : text ≠ [] := by
    intro h0; rw [h0] at hlong; simp at hlong
  exact ⟨out, h1, h2, h5 hlong, h3, h4 hne⟩

theorem noSeparator_replicate (n : Nat) (c : Char)
    (hc : ∀ sep ∈ separators, sep ≠ [] → c ∉ sep) : NoSeparator (List.replicate n c) := by
  intro sep hs hne hin
  cases sep with
  | nil => exact hne rfl
  | cons a t =>
    have ha : a ∈ List.replicate n c := hin.subset (List.mem_cons_self _ _)
    have : a = c := (List.mem_replicate.1 ha).2
    exact hc (a :: t) hs hne (this ▸ List.mem_cons_self _ _)

theorem splitText_hard_cut_witness :
    ∃ out, splitText 4 2 11 (List.replicate 10 'x') separators = some out ∧
      out.flatten = List.replicate 10 'x' ∧
      2 ≤ out.length ∧
      (∀ (k : Nat) (h : k < out.length),
        out[k] = ((List.replicate 10 'x').drop (4 * k)).take 4 ∧
        (k + 1 < out.length → (out[k]).length = 4)) ∧
      ∃ last, out.getLast? = some last ∧ 1 ≤ last.length ∧ last.length ≤ 4 :=
  splitText_hard_cut 4 2 11 (List.replicate 10 'x') (by decide) (by decide)
    (noSeparator_replicate 10 'x' (by decide)) (by decide)

/-! ## Sources of matches in score order -/

section SortedMatches

variable {S : Type} [LinearOrder S]

theorem jsSetValues_append (xs ys : List String) :
    ∀ seen, jsSetValues (xs ++ ys) seen = jsSetValues ys (jsSetValues xs seen) := by
  induction xs with
  | nil => intro seen; rfl
  | cons x rest ih =>
    intro seen
    simp only [List.cons_append, jsSetValues]
    split <;> exact ih _

theorem keys_buildSourceMap (ms : List (Match S)) :
    (buildSourceMap ms).map Prod.fst = jsSetValues (ms.map sourceKey) [] := by
  induction ms using List.reverseRecOn with
  | nil => rfl
  | append_singleton ms m ih =>
    rw [buildSourceMap_append, keys_sourceMapVisit, List.map_append, jsSetValues_append, ← ih]
    simp only [List.map_cons, List.map_nil, jsSetValues]

theorem jsSetValues_head (xs : List String) :
    ∀ (a : String) (seen : List String), (jsSetValues xs (a :: seen)).head? = some a := by
  induction xs with
  | nil => intro a seen; rfl
  | cons x rest ih =>
    intro a seen
    simp only [jsSetValues]
    split
    · exact ih a seen
    · exact ih a (seen ++ [x])

theorem scores_sourceMapVisit (m : Match S) (sm : List (String × Source S))
    (h : ∀ e ∈ sm, m.score ≤ e.2.score) :
    (sourceMapVisit m sm).map (fun e => e.2.score)
      = if sourceKey m ∈ sm.map Prod.fst then sm.map (fun e => e.2.score)
        else sm.map (fun e => e.2.score) ++ [m.score] := by
  induction sm with
  | nil => simp [sourceMapVisit, newSource]
  | cons a rest ih =>
    obtain ⟨k, e⟩ := a
    have he : m.score ≤ e.score := h (k, e) (List.mem_cons_self _ _)
    have ih' := ih (fun x hx => h x (List.mem_cons_of_mem _ hx))
    simp only [sourceMapVisit]
    by_cases hk : k = sourceKey m
    · simp [hk, bumpSource, not_lt.2 he]
    · have hk' : ¬ sourceKey m = k := fun h => hk h.symm
      simp only [hk, if_false, List.map_cons, ih', List.mem_cons, hk', false_or]
      split <;> simp

/-- For matches in non-increasing order of score, the entries of the source map are in
non-increasing order of score as well. -/
theorem scores_buildSourceMap_sorted (ms : List (Match S))
    (hs : (ms.map (fun m => m.score)).Pairwise (fun a b => b ≤ a)) :
    ((buildSourceMap ms).map (fun e => e.2.score)).Pairwise (fun a b => b ≤ a) := by
  induction ms using List.reverseRecOn with
  | nil => simp [buildSourceMap]
  | append_singleton ms m ih =>
    rw [List.map_append, List.pairwise_append] at hs
    obtain ⟨hs1, -, hs3⟩ := hs
    have hle : ∀ x ∈ ms, m.score ≤ x.score := by
      intro x hx
      exact hs3 x.score (List.mem_map.2 ⟨x, hx, rfl⟩) m.score (by simp)
    have hent : ∀ e ∈ buildSourceMap ms, m.score ≤ e.2.score := by
      intro e he
      obtain ⟨-, ⟨x, hx, -, hxs⟩, -⟩ := (buildSourceMap_spec ms).2.1 e.1 e.2 he
      rw [← hxs]; exact hle x hx
    rw [buildSourceMap_append, scores_sourceMapVisit m _ hent]
    split
    · exact ih hs1
    · rw [List.pairwise_append]
      refine ⟨ih hs1, by simp, ?_⟩
      intro a ha b hb
      rw [List.mem_singleton.1 hb]
      obtain ⟨e, he, rfl⟩ := List.mem_map.1 ha
      exact hent e he

theorem find?_score_ge (ms : List (Match S)) (p : Match S → Bool)
    (hs : (ms.map (fun m => m.score)).Pairwise (fun a b => b ≤ a)) :
    ∀ m₀, ms.find? p = some m₀ → ∀ x ∈ ms, p x = true → x.score ≤ m₀.score := by
  induction ms with
  | nil => intro m₀ h; cases h
  | cons a rest ih =>
    intro m₀ hf x hx hpx
    rw [List.map_cons, List.pairwise_cons] at hs
    by_cases hpa : p a = true
    · rw [List.find?_cons_of_pos _ hpa] at hf
      cases hf
      rcases List.mem_cons.1 hx with rfl | hx
      · exact le_refl _
      · exact hs.1 x.score (List.mem_map.2 ⟨x, hx, rfl⟩)
    · rw [List.find?_cons_of_neg _ hpa] at hf
      rcases List.mem_cons.1 hx with rfl | hx
      · exact absurd hpx hpa
      · exact ih hs.2 m₀ hf x hx hpx

/-- C28: for a non-empty list of matches in non-increasing order of score, the sort
leaves the entries of the source map where they are, so the sources come in the order in
which their keys first appear among the matches; the score, file name and page number of
a source are those of the first match of its group; and the first source is the group of
the first match, with the score of that match. -/
theorem chatSources_of_sorted_matches (ms : List (Match S)) (hne : ms ≠ [])
    (hs : (ms.map (fun m => m.score)).Pairwise (fun a b => b ≤ a)) :
    (chatSources ms).map DisplaySource.toSource = (buildSourceMap ms).map Prod.snd ∧
    (buildSourceMap ms).map Prod.fst = jsSetValues (ms.map sourceKey) [] ∧
    (∀ k s, (k, s) ∈ buildSourceMap ms →
      ∃ m₀, ms.find? (fun m => decide (sourceKey m = k)) = some m₀ ∧
        s.score = m₀.score ∧ s.fileName = m₀.fileName ∧ s.pageNumber = orOne m₀.pageNumber) ∧
    (∃ d m, (chatSources ms).head? = some d ∧ ms.head? = some m ∧
      d.fileName = m.fileName ∧ d.pageNumber = orOne m.pageNumber ∧ d.score = m.score) := by
  have hsorted : List.Sorted scoreOrder ((buildSourceMap ms).map Prod.snd) := by
    have := scores_buildSourceMap_sorted ms hs
    have e : (buildSourceMap ms).map (fun e => e.2.score)
        = ((buildSourceMap ms).map Prod.snd).map (fun s => s.score) := by
      simp [Function.comp_def]
    rw [e, List.pairwise_map] at this
    exact this
  have h1 : (chatSources ms).map DisplaySource.toSource = (buildSourceMap ms).map Prod.snd := by
    rw [toSource_chatSources, List.Sorted.insertionSort_eq hsorted]
  have h3 : ∀ k s, (k, s) ∈ buildSourceMap ms →
      ∃ m₀, ms.find? (fun m => decide (sourceKey m = k)) = some m₀ ∧
        s.score = m₀.score ∧ s.fileName = m₀.fileName ∧ s.pageNumber = orOne m₀.pageNumber := by
    intro k s hks
    obtain ⟨-, ⟨x, hx, hxk, hxs⟩, hmax, ⟨m₀, hf, h4, h5, -⟩⟩ := (buildSourceMap_spec ms).2.1 k s hks
    refine ⟨m₀, hf, ?_, h4, h5⟩
    have hm₀ : m₀ ∈ ms := List.mem_of_find?_eq_some hf
    have hk₀ : sourceKey m₀ = k := by simpa using List.find?_some hf
    apply le_antisymm
    · rw [← hxs]
      exact find?_score_ge ms _ hs m₀ hf x hx (by simpa using hxk)
    · exact hmax m₀ hm₀ hk₀
  refine ⟨h1, keys_buildSourceMap ms, h3, ?_⟩
  cases ms with
  | nil => exact absurd rfl hne
  | cons m rest =>
    have hkeys := keys_buildSourceMap (m :: rest)
    have hhead : ((buildSourceMap (m :: rest)).map Prod.fst).head? = some (sourceKey m) := by
      rw [hkeys]
      simp only [List.map_cons, jsSetValues, List.not_mem_nil, if_false, List.nil_append]
      exact jsSetValues_head _ _ _
    cases hb : buildSourceMap (m :: rest) with
    | nil => rw [hb] at hhead; simp at hhead
    | cons e es =>
      obtain ⟨k, s⟩ := e
      rw [hb] at hhead
      simp only [List.map_cons, List.head?_cons, Option.some.injEq] at hhead
      subst hhead
      obtain ⟨m₀, hf, e1, e2, e3⟩ := h3 (sourceKey m) s (by rw [hb]; exact List.mem_cons_self _ _)
      have hm : m₀ = m := by
        rw [List.find?_cons_of_pos _ (by simp)] at hf
        exact (Option.some.inj hf).symm
      subst hm
      have hd : (chatSources (m₀ :: rest)).head?.map DisplaySource.toSource = some s := by
        rw [← List.head?_map, h1, hb]
        rfl
      cases hc : (chatSources (m₀ :: rest)).head? with
      | none => rw [hc] at hd; cases hd
      | some d =>
        rw [hc] at hd
        simp only [Option.map_some', Option.some.injEq] at hd
        refine ⟨d, m₀, rfl, rfl, ?_, ?_, ?_⟩
        · rw [← e2, ← hd]
        · rw [← e3, ← hd]
        · rw [← e1, ← hd]

end SortedMatches

theorem fiveMatches_sorted :
    (fiveMatches.map (fun m => m.score)).Pairwise (fun a b => b ≤ a) := by
  simp only [fiveMatches, List.map_cons, List.map_nil, List.pairwise_cons, List.mem_cons,
    List.mem_singleton, List.not_mem_nil, List.Pairwise.nil, forall_eq_or_imp, forall_eq]
  norm_num

theorem chatSources_of_sorted_matches_witness :
    (chatSources fiveMatches).map DisplaySource.toSource = (buildSourceMap fiveMatches).map Prod.snd ∧
    (buildSourceMap fiveMatches).map Prod.fst = jsSetValues (fiveMatches.map sourceKey) [] ∧
    (∀ k s, (k, s) ∈ buildSourceMap fiveMatches →
      ∃ m₀, fiveMatches.find? (fun m => decide (sourceKey m = k)) = some m₀ ∧
        s.score = m₀.score ∧ s.fileName = m₀.fileName ∧ s.pageNumber = orOne m₀.pageNumber) ∧
    (∃ d m, (chatSources fiveMatches).head? = some d ∧ fiveMatches.head? = some m ∧
      d.fileName = m.fileName ∧ d.pageNumber = orOne m.pageNumber ∧ d.score = m.score) :=
  chatSources_of_sorted_matches fiveMatches (by simp [fiveMatches]) fiveMatches_sorted

/-! ## Records left behind by re-indexing -/

theorem mem_storeUpsertOne_of_ne (r x : VectorRecord) :
    ∀ store : VectorStore, x ∈ store → x.id ≠ r.id → x ∈ storeUpsertOne r store := by
  intro store
  induction store with
  | nil => intro h; cases h
  | cons a rest ih =>
    intro hx hne
    simp only [storeUpsertOne]
    split
    · rename_i ha
      rcases List.mem_cons.1 hx with rfl | hx
      · exact absurd ha hne
      · exact List.mem_cons_of_mem _ hx
    · rcases List.mem_cons.1 hx with rfl | hx
      · exact List.mem_cons_self _ _
      · exact List.mem_cons_of_mem _ (ih hx hne)

theorem mem_storeUpsertOne_self (r : VectorRecord) :
    ∀ store : VectorStore, r ∈ storeUpsertOne r store := by
  intro store
  induction store with
  | nil => simp [storeUpsertOne]
  | cons a rest ih =>
    simp only [storeUpsertOne]
    split
    · exact List.mem_cons_self _ _
    · exact List.mem_cons_of_mem _ ih

theorem mem_storeUpsert_of_ne (x : VectorRecord) (batch : List VectorRecord) :
    ∀ store : VectorStore, x ∈ store → (∀ r ∈ batch, x.id ≠ r.id) →
      x ∈ storeUpsert batch store := by
  induction batch with
  | nil => intro store hx _; exact hx
  | cons r rest ih =>
    intro store hx h
    simp only [storeUpsert, List.foldl_cons]
    exact ih _ (mem_storeUpsertOne_of_ne r x store hx (h r (List.mem_cons_self _ _)))
      (fun y hy => h y (List.mem_cons_of_mem _ hy))

theorem mem_storeUpsert_of_nodup (batch : List VectorRecord) :
    ∀ store : VectorStore, (batch.map (fun r => r.id)).Nodup →
      ∀ r ∈ batch, r ∈ storeUpsert batch store := by
  induction batch with
  | nil => intro store _ r hr; cases hr
  | cons a rest ih =>
    intro store hnd r hr
    rw [List.map_cons, List.nodup_cons] at hnd
    simp only [storeUpsert, List.foldl_cons]
    rcases List.mem_cons.1 hr with rfl | hr
    · apply mem_storeUpsert_of_ne r rest _ (mem_storeUpsertOne_self r store)
      intro y hy hid
      exact hnd.1 (List.mem_map.2 ⟨y, hy, hid.symm⟩)
    · exact ih _ hnd.2 r hr

theorem processDocument_eq_vectors (service : EmbeddingService) (clock : Nat → String)
    (store : VectorStore) (fileId fileName : String) (fileData : FileData) :
    ∃ allChunks vectors, documentChunks fileData = some allChunks ∧
      documentVectors service clock fileId fileName fileData = .ok vectors ∧
      vectors.map (fun r => r.id)
        = (List.range allChunks.length).map (fun j => fileId ++ "_" ++ toString j) ∧
      processDocument service clock store fileId fileName fileData
        = .ok (allChunks.length, storeUpsert vectors store) := by
  obtain ⟨allChunks, vectors, h1, hv, hveq, hids⟩ :=
    documentVectors_ids service clock fileId fileName fileData
  refine ⟨allChunks, vectors, h1, hv, hids, ?_⟩
  simp only [processDocument, h1, getEmbeddings_eq, ← hveq, foldl_storeUpsert_batches,
    flatten_upsertBatches]

/-- C30: with the store a map from id to record in which upsert overwrites,
`processDocument` only adds or overwrites records: every id of the store before the call
is an id of the store after it, and a record whose id is not `fileId_j` for a chunk index
`j` of the document stays as it is. So when a `fileId` is indexed with content of `n`
chunks and then again with content of `m` chunks, the records `fileId_j` with
`m ≤ j < n` that the first call wrote are still in the store after the second call. -/
theorem processDocument_keeps_records (service₁ service₂ : EmbeddingService)
    (clock₁ clock₂ : Nat → String) (store : VectorStore) (fileId fileName : String)
    (fileData fileData₂ : FileData) :
    ∃ n m vectors₁ store₁ store₂,
      processDocument service₁ clock₁ store fileId fileName fileData = .ok (n, store₁) ∧
      processDocument service₂ clock₂ store₁ fileId fileName fileData₂ = .ok (m, store₂) ∧
      documentVectors service₁ clock₁ fileId fileName fileData = .ok vectors₁ ∧
      (∀ i, i ∈ storeIds store → i ∈ storeIds store₁) ∧
      (∀ i, i ∈ storeIds store₁ → i ∈ storeIds store₂) ∧
      (∀ x, x ∈ store → (∀ j, j < n → x.id ≠ fileId ++ "_" ++ toString j) → x ∈ store₁) ∧
      (∀ j, m ≤ j → j < n → ∃ r, r ∈ vectors₁ ∧ r.id = fileId ++ "_" ++ toString j ∧
        r ∈ store₁ ∧ r ∈ store₂) := by
  obtain ⟨chunks₁, vectors₁, -, hv₁, hids₁, hp₁⟩ :=
    processDocument_eq_vectors service₁ clock₁ store fileId fileName fileData
  obtain ⟨chunks₂, vectors₂, -, -, hids₂, hp₂⟩ :=
    processDocument_eq_vectors service₂ clock₂ (storeUpsert vectors₁ store) fileId fileName
      fileData₂
  have hnd₁ : (vectors₁.map (fun r => r.id)).Nodup := by
    rw [hids₁]
    exact (List.nodup_range _).map (recordId_injective fileId)
  refine ⟨chunks₁.length, chunks₂.length, vectors₁, storeUpsert vectors₁ store,
    storeUpsert vectors₂ (storeUpsert vectors₁ store), hp₁, hp₂, hv₁,
    (storeIds_upsert_mem vectors₁ store).1, (storeIds_upsert_mem vectors₂ _).1, ?_, ?_⟩
  · intro x hx hne
    apply mem_storeUpsert_of_ne x vectors₁ store hx
    intro r hr hid
    have : r.id ∈ vectors₁.map (fun r => r.id) := List.mem_map.2 ⟨r, hr, rfl⟩
    rw [hids₁] at this
    obtain ⟨j, hj, hjr⟩ := List.mem_map.1 this
    exact hne j (List.mem_range.1 hj) (by rw [hid, ← hjr])
  · intro j hmj hjn
    have hmem : fileId ++ "_" ++ toString j ∈ vectors₁.map (fun r => r.id) := by
      rw [hids₁]
      exact List.mem_map.2 ⟨j, List.mem_range.2 hjn, rfl⟩
    obtain ⟨r, hr, hrid⟩ := List.mem_map.1 hmem
    have hr₁ : r ∈ storeUpsert vectors₁ store := mem_storeUpsert_of_nodup vectors₁ store hnd₁ r hr
    refine ⟨r, hr, hrid, hr₁, ?_⟩
    apply mem_storeUpsert_of_ne r vectors₂ _ hr₁
    intro y hy hid
    have : y.id ∈ vectors₂.map (fun r => r.id) := List.mem_map.2 ⟨y, hy, rfl⟩
    rw [hids₂] at this
    obtain ⟨j₂, hj₂, hjy⟩ := List.mem_map.1 this
    have hj₂lt := List.mem_range.1 hj₂
    have : j = j₂ := recordId_injective fileId (by
      show fileId ++ "_" ++ toString j = fileId ++ "_" ++ toString j₂
      rw [← hrid, hid, ← hjy])
    omega

set_option maxRecDepth 100000 in
/-- Indexing the two-page document into an empty store and then the one-page document
under the same `fileId`: the second call returns 1 and the store still holds the record
`f_1` with the text of the old second page. -/
theorem processDocument_stale_example :
    (processDocument failingService (fun _ => "t") [] "f" "n" twoPageFile).toOption.map
        (fun r => (r.1, r.2.map (fun v => (v.id, v.metadata.text))))
      = some (2, [("f_0", List.replicate 60 'a'), ("f_1", List.replicate 60 'b')]) ∧
    ((processDocument failingService (fun _ => "t") [] "f" "n" twoPageFile).toOption.bind
        (fun r => (processDocument failingService (fun _ => "u") r.2 "f" "n" onePageFile).toOption)).map
        (fun r => (r.1, r.2.map (fun v => (v.id, v.metadata.text))))
      = some (1, [("f_0", List.replicate 60 'c'), ("f_1", List.replicate 60 'b')]) := by
  constructor <;> decide

/-! ## Page numbers that do hold -/

theorem chain_lt_of_le {a b : Nat} (hab : a ≤ b) :
    ∀ {l : List Nat}, List.Chain (· < ·) b l → List.Chain (· < ·) a l := by
  intro l h
  cases h with
  | nil => exact List.Chain.nil
  | cons h1 h2 => exact List.Chain.cons (Nat.lt_of_le_of_lt hab h1) h2

theorem chain_pagesFromParser (ps : List ParsedPage) :
    ∀ index, List.Chain (· < ·) index ((pagesFromParser ps index).map (fun p => p.pageNumber)) := by
  induction ps with
  | nil => intro index; exact List.Chain.nil
  | cons page rest ih =>
    intro index
    have hskip : List.Chain (· < ·) index
        ((pagesFromParser rest (index + 1)).map (fun p => p.pageNumber)) :=
      chain_lt_of_le (Nat.le_succ _) (ih (index + 1))
    simp only [pagesFromParser]
    split
    · split
      · exact List.Chain.cons (Nat.lt_succ_self _) (ih (index + 1))
      · exact hskip
    · exact hskip

theorem chain_pagesFromChunks (cs : List Str) :
    ∀ index, List.Chain (· < ·) index ((pagesFromChunks cs index).map (fun p => p.pageNumber)) := by
  induction cs with
  | nil => intro index; exact List.Chain.nil
  | cons chunk rest ih =>
    intro index
    simp only [pagesFromChunks]
    split
    · exact List.Chain.cons (Nat.lt_succ_self _) (ih (index + 1))
    · exact chain_lt_of_le (Nat.le_succ _) (ih (index + 1))

theorem chain_pagesFromEstimate (text : Str) (charsPerPage estimatedPages : Nat) :
    ∀ fuel i, List.Chain (· < ·) i
      ((pagesFromEstimate text charsPerPage estimatedPages fuel i).map (fun p => p.pageNumber)) := by
  intro fuel
  induction fuel with
  | zero => intro i; exact List.Chain.nil
  | succ fuel ih =>
    intro i
    simp only [pagesFromEstimate]
    split
    · split
      · exact List.Chain.cons (Nat.lt_succ_self _) (ih (i + 1))
      · exact chain_lt_of_le (Nat.le_succ _) (ih (i + 1))
    · exact List.Chain.nil

/-- The part of the page invariant that holds for every output of the parser: the pages
are numbered from 1 up, in strictly increasing order, and `totalPages` is the number of
pages kept. -/
theorem extractPdf_pageNumbers (parsedPages : Option (List ParsedPage)) (text : Str) :
    (extractPdf parsedPages text).totalPages = (extractPdf parsedPages text).pages.length ∧
    (∀ p ∈ (extractPdf parsedPages text).pages, 1 ≤ p.pageNumber) ∧
    ((extractPdf parsedPages text).pages.map (fun p => p.pageNumber)).Pairwise (· < ·) := by
  have hc : List.Chain (· < ·) 0
      ((extractPdf parsedPages text).pages.map (fun p => p.pageNumber)) := by
    cases parsedPages with
    | none =>
      simp only [extractPdf, List.length_nil, if_true]
      split
      · exact chain_pagesFromEstimate _ _ _ _ _
      · exact chain_pagesFromChunks _ _
    | some ps =>
      simp only [extractPdf]
      by_cases h1 : (pagesFromParser ps 0).length = 0
      · simp only [h1, if_true]
        split
        · exact chain_pagesFromEstimate _ _ _ _ _
        · exact chain_pagesFromChunks _ _
      · simp only [h1, if_false]
        exact chain_pagesFromParser ps 0
  have hp := List.pairwise_cons.1 (List.chain_iff_pairwise.1 hc)
  refine ⟨rfl, ?_, hp.2⟩
  intro p hp'
  exact hp.1 p.pageNumber (List.mem_map.2 ⟨p, hp', rfl⟩)

end RagBot
